import Mathlib

/-!
Shallow embedding of the sparse-merkle-tree crate (nervosnetwork/sparse-merkle-tree
fork with trie shortcuts).  An `H256` (src/h256.rs) is 256 bits with bit `i`
stored in byte `i / 8` at position `i % 8`, compared from byte 31 down to
byte 0; we embed it as a `Nat` whose `testBit i` is the source's `get_bit(i)`.
Hashers (the `Hasher` trait of src/traits.rs) are abstract: a hasher state is
the list of units written to it (`write_byte` / `write_h256`), and a hash
function maps that list to a digest.
-/

namespace SMT

/-- A unit written into a `Hasher`: `write_byte` or `write_h256`. -/
inductive HashUnit
  | byte (b : Nat)
  | word (w : Nat)
deriving DecidableEq, Repr

/-- An abstract hash function: `finish` applied to the sequence of writes. -/
def HashFn : Type := List HashUnit → Nat

/-- src/h256.rs `get_bit`: bit `i` of the 256-bit value. -/
def getBit (k i : Nat) : Bool := k.testBit i

/-- src/h256.rs `is_right`: `get_bit(height)`. -/
def isRight (k h : Nat) : Bool := getBit k h

/-- src/h256.rs `set_bit`. -/
def setBit (k i : Nat) : Nat := k ||| 2 ^ i

/-- src/h256.rs `clear_bit`: keep bits above `i` and below `i`, drop bit `i`. -/
def clearBit (k i : Nat) : Nat := 2 ^ (i + 1) * (k / 2 ^ (i + 1)) + k % 2 ^ i

/-- src/h256.rs `copy_bits(start)`: clear the bits below `start` (the source
copies the bytes from `start / 8` upward and masks the boundary byte). -/
def copyBits (start k : Nat) : Nat := 2 ^ start * (k / 2 ^ start)

/-- src/h256.rs `parent_path(height)`: zero for height 255, else `copy_bits (height+1)`. -/
def parentPath (height k : Nat) : Nat :=
  if height = 255 then 0 else copyBits (height + 1) k

/-- src/h256.rs `fork_height`: highest bit where the two keys differ (0 if none),
scanning `h` from 255 down to 0. -/
def forkHeightAux (a b : Nat) : Nat → Nat
  | 0 => 0
  | h + 1 => if getBit a (h + 1) ≠ getBit b (h + 1) then h + 1 else forkHeightAux a b h

def forkHeight (a b : Nat) : Nat := forkHeightAux a b 255

/-- src/merge.rs `MergeValue`. -/
inductive MergeValue
  | Value (v : Nat)
  | MergeWithZero (baseNode zeroBits zeroCount : Nat)
  | ShortCut (key value height : Nat)
deriving DecidableEq, Repr

/-- src/merge.rs `MERGE_NORMAL`. -/
def MERGE_NORMAL : Nat := 1

/-- src/merge.rs `MERGE_ZEROS`. -/
def MERGE_ZEROS : Nat := 2

/-- src/merge.rs `MergeValue::zero()`. -/
def MergeValue.zero : MergeValue := .Value 0

/-- src/merge.rs `MergeValue::is_zero`: each variant is zero iff its hash
payload (`Value` payload, `base_node`, shortcut `value`) is the zero digest. -/
def MergeValue.isZero : MergeValue → Bool
  | .Value v => v == 0
  | .MergeWithZero baseNode _ _ => baseNode == 0
  | .ShortCut _ value _ => value == 0

/-- src/merge.rs `MergeValue::is_shortcut`. -/
def MergeValue.isShortCut : MergeValue → Bool
  | .ShortCut _ _ _ => true
  | _ => false

/-- src/merge.rs `hash_base_node`: `H(base_height ∥ base_key ∥ base_value)`. -/
def hashBaseNode (f : HashFn) (baseHeight baseKey baseValue : Nat) : Nat :=
  f [.byte baseHeight, .word baseKey, .word baseValue]

/-- The digest of a `MergeWithZero` node: `H(MERGE_ZEROS ∥ base_node ∥ zero_bits ∥ zero_count)`. -/
def mergeWithZeroHash (f : HashFn) (baseNode zeroBits zeroCount : Nat) : Nat :=
  f [.byte MERGE_ZEROS, .word baseNode, .word zeroBits, .byte zeroCount]

/-- src/merge.rs `into_merge_with_zero` for a `ShortCut`: clear the set bits of
the key at heights `height..=255` (the loop clears bit `i` when it is set). -/
def clearHighBits (key height : Nat) : Nat :=
  (List.range' height (256 - height)).foldl
    (fun zb i => if getBit key i then clearBit zb i else zb) key

/-- src/merge.rs `MergeValue::into_merge_with_zero` (the `Value` arm is
`unreachable!()` in the source; it is never applied to a `Value`). -/
def MergeValue.intoMergeWithZero (f : HashFn) : MergeValue → MergeValue
  | .ShortCut key value height =>
      .MergeWithZero (hashBaseNode f 0 (parentPath 0 key) value) (clearHighBits key height) height
  | .MergeWithZero baseNode zeroBits zeroCount => .MergeWithZero baseNode zeroBits zeroCount
  | .Value v => .Value v

/-- src/merge.rs `MergeValue::hash`.  The `ShortCut` arm converts to
`MergeWithZero` first (inlined here) and hashes that, or returns zero when the
shortcut value is zero. -/
def MergeValue.hash (f : HashFn) : MergeValue → Nat
  | .Value v => v
  | .MergeWithZero baseNode zeroBits zeroCount => mergeWithZeroHash f baseNode zeroBits zeroCount
  | .ShortCut key value height =>
      if value = 0 then 0
      else mergeWithZeroHash f (hashBaseNode f 0 (parentPath 0 key) value)
        (clearHighBits key height) height

/-- src/merge.rs `merge_with_zero`: extend the nonzero side with one more zero
sibling; `set_bit` is true when the zero sibling is on the left. -/
def mergeWithZero (f : HashFn) (height nodeKey : Nat) (value : MergeValue) (setBitFlag : Bool) :
    MergeValue :=
  match value with
  | .Value v =>
      let zeroBits := if setBitFlag then setBit 0 height else 0
      .MergeWithZero (hashBaseNode f height nodeKey v) zeroBits 1
  | .MergeWithZero baseNode zeroBits zeroCount =>
      let zeroBits' := if setBitFlag then setBit zeroBits height else zeroBits
      .MergeWithZero baseNode zeroBits' ((zeroCount + 1) % 256)
  | .ShortCut key value _ =>
      if height = 255 then
        .MergeWithZero (hashBaseNode f 0 (parentPath 0 key) value) (clearHighBits key 255) 0
      else
        .ShortCut key value (height + 1)

/-- src/merge.rs `merge`: zero when both children are zero, `merge_with_zero`
when exactly one is, and a normal merge hash otherwise. -/
def merge (f : HashFn) (height nodeKey : Nat) (lhs rhs : MergeValue) : MergeValue :=
  if lhs.isZero && rhs.isZero then MergeValue.zero
  else if lhs.isZero then mergeWithZero f height nodeKey rhs true
  else if rhs.isZero then mergeWithZero f height nodeKey lhs false
  else
    .Value (f [.byte MERGE_NORMAL, .byte height, .word nodeKey,
      .word (lhs.hash f), .word (rhs.hash f)])

/-- A concrete hash function used to instantiate abstract theorems at
concrete inputs; it never returns the zero digest. -/
def exampleHash : HashFn := fun _ => 1

/-- crates/smt/src/error.rs `Error`. -/
inductive Error
  | MissingBranch (height : Nat) (key : Nat)
  | MissingLeaf (key : Nat)
  | CorruptedProof
  | EmptyProof
  | EmptyKeys
  | IncorrectNumberOfLeaves (expected actual : Nat)
  | Store (msg : String)
  | CorruptedStack
  | NonSiblings
  | InvalidCode (code : Nat)
  | NonMergableRange
deriving DecidableEq, Repr

/-- `H256::from(data: [u8; 32])`: byte `j` of the array carries bits
`8j .. 8j+7`, so the value is the little-endian reading of the bytes. -/
def bytesToWord (bs : List Nat) : Nat := bs.foldr (fun b acc => b + 256 * acc) 0

/-- The inner loop of the `O` op-code of
src/merkle_proof.rs `compute_root_inner`: merge the popped value with
`zero_count` zero siblings, walking up from `base` height; errors when the
height would exceed 255.  The state is `(height_u16, parent_key, value)`. -/
def zeroMergeLoop (f : HashFn) (key base : Nat) :
    Nat → Nat → Nat × Nat × MergeValue → Except Error (Nat × Nat × MergeValue)
  | 0, _, st => .ok st
  | r + 1, idx, (_, _, v) =>
      if base + idx > 255 then .error .CorruptedProof
      else
        let height := base + idx
        let pk := parentPath height key
        let v' := if getBit key height then merge f height pk MergeValue.zero v
                  else merge f height pk v MergeValue.zero
        zeroMergeLoop f key base r (idx + 1) (height, pk, v')

/-- src/merkle_proof.rs `compute_root_inner`, the op-code loop (the callback
used only by `extract_proof` is dropped).  Arguments: a fuel bound (the loop
executes at most one op per remaining program byte), remaining program bytes,
remaining (sorted) leaves, and the stack with its top at the head.  Returns
the final stack and the unconsumed leaves. -/
def runProofAux (f : HashFn) :
    Nat → List Nat → List (Nat × Nat) → List (Nat × Nat × MergeValue) →
      Except Error (List (Nat × Nat × MergeValue) × List (Nat × Nat))
  | _, [], leaves, stack => .ok (stack, leaves)
  | 0, _ :: _, leaves, stack => .ok (stack, leaves)
  | fuel + 1, code :: rest, leaves, stack =>
    if code = 0x4C then
      match leaves with
      | [] => .error .CorruptedStack
      | (k, v) :: ltail => runProofAux f fuel rest ltail ((0, k, MergeValue.Value v) :: stack)
    else if code = 0x50 then
      match stack with
      | [] => .error .CorruptedStack
      | (hU16, key, value) :: stail =>
        if rest.length < 32 then .error .CorruptedProof
        else
          let sibling := MergeValue.Value (bytesToWord (rest.take 32))
          if hU16 > 255 then .error .CorruptedProof
          else
            let pk := parentPath hU16 key
            let parent := if getBit key hU16 then merge f hU16 pk sibling value
                          else merge f hU16 pk value sibling
            runProofAux f fuel (rest.drop 32) leaves ((hU16 + 1, pk, parent) :: stail)
    else if code = 0x51 then
      match stack with
      | [] => .error .CorruptedStack
      | (hU16, key, value) :: stail =>
        if rest.length < 65 then .error .CorruptedProof
        else
          let zeroCount := rest.headD 0
          let baseNode := bytesToWord ((rest.drop 1).take 32)
          let zeroBits := bytesToWord ((rest.drop 33).take 32)
          let sibling := MergeValue.MergeWithZero baseNode zeroBits zeroCount
          if hU16 > 255 then .error .CorruptedProof
          else
            let pk := parentPath hU16 key
            let parent := if getBit key hU16 then merge f hU16 pk sibling value
                          else merge f hU16 pk value sibling
            runProofAux f fuel (rest.drop 65) leaves ((hU16 + 1, pk, parent) :: stail)
    else if code = 0x48 then
      match stack with
      | (hb, kb, vb) :: (ha, ka, va) :: stail =>
        if ha ≠ hb then .error .CorruptedProof
        else if ha > 255 then .error .CorruptedProof
        else
          let pka := parentPath ha ka
          let pkb := parentPath ha kb
          if pka ≠ pkb then .error .CorruptedProof
          else
            let parent := if getBit ka ha then merge f ha pka vb va
                          else merge f ha pka va vb
            runProofAux f fuel rest leaves ((ha + 1, pka, parent) :: stail)
      | _ => .error .CorruptedStack
    else if code = 0x4F then
      match stack with
      | [] => .error .CorruptedStack
      | (base, key, value) :: stail =>
        match rest with
        | [] => .error .CorruptedProof
        | n :: rest' =>
          let zeroCount := if n = 0 then 256 else n
          if base > 255 then .error .CorruptedProof
          else
            match zeroMergeLoop f key base zeroCount 0 (base, key, value) with
            | .error e => .error e
            | .ok (hU16, pk, v) => runProofAux f fuel rest' leaves ((hU16 + 1, pk, v) :: stail)
    else .error (.InvalidCode code)

/-- src/merkle_proof.rs `compute_root_inner` op loop entry point: the fuel is
the program length, an upper bound on the number of ops (each op consumes at
least one byte). -/
def runProof (f : HashFn) (prog : List Nat) (leaves : List (Nat × Nat))
    (stack : List (Nat × Nat × MergeValue)) :
    Except Error (List (Nat × Nat × MergeValue) × List (Nat × Nat)) :=
  runProofAux f prog.length prog leaves stack

/-- src/merkle_proof.rs `compute_root_inner` first sorts the supplied leaves
by key (`sort_unstable_by_key`). -/
def sortLeaves (leaves : List (Nat × Nat)) : List (Nat × Nat) :=
  leaves.mergeSort (fun a b => a.1 ≤ b.1)

/-- src/merkle_proof.rs `compute_root_inner`, the checks after the op loop:
a single stack entry at height 256 is required, all leaves must be consumed,
and the root is the entry's hash. -/
def finishRoot (f : HashFn) (stack : List (Nat × Nat × MergeValue))
    (leftover : List (Nat × Nat)) : Except Error Nat :=
  match stack with
  | [entry] =>
    if entry.1 ≠ 256 then .error .CorruptedProof
    else if leftover ≠ [] then .error .CorruptedProof
    else .ok (entry.2.2.hash f)
  | _ => .error .CorruptedStack

/-- src/merkle_proof.rs `CompiledMerkleProof::compute_root` (via
`compute_root_inner`): run the ops, then apply the final checks. -/
def computeRoot (f : HashFn) (proof : List Nat) (leaves : List (Nat × Nat)) :
    Except Error Nat :=
  match runProof f proof (sortLeaves leaves) [] with
  | .error e => .error e
  | .ok (stack, leftover) => finishRoot f stack leftover

/-- src/merkle_proof.rs `CompiledMerkleProof::verify`. -/
def verifyProof (f : HashFn) (root : Nat) (proof : List Nat)
    (leaves : List (Nat × Nat)) : Except Error Bool :=
  match computeRoot f proof leaves with
  | .error e => .error e
  | .ok r => .ok (r == root)

/-! ## Claims about `merge` and `MergeValue::is_zero` -/

/-- Claim C7 counterexample: a `MergeWithZero` whose `base_node` is the
all-zero digest satisfies `is_zero`, so `is_zero` on `MergeWithZero` is not
always `false`. -/
theorem isZero_mergeWithZero_counterexample :
    (MergeValue.MergeWithZero 0 0 1).isZero = true := by decide

/-- Claim C7 (amended): `is_zero` holds exactly when the variant's digest
payload is the all-zero hash: the payload of a `Value`, the `base_node` of a
`MergeWithZero`, the `value` of a `ShortCut`. -/
theorem isZero_rule (v b zb zc k val ht : Nat) :
    (MergeValue.Value v).isZero = decide (v = 0)
      ∧ (MergeValue.MergeWithZero b zb zc).isZero = decide (b = 0)
      ∧ (MergeValue.ShortCut k val ht).isZero = decide (val = 0) := by
  refine ⟨?_, ?_, ?_⟩
  · by_cases hv : v = 0 <;> simp [MergeValue.isZero, hv]
  · by_cases hb : b = 0 <;> simp [MergeValue.isZero, hb]
  · by_cases hval : val = 0 <;> simp [MergeValue.isZero, hval]

/-- Claim C3 counterexample: merging a zero left sibling with a nonzero
`ShortCut` right sibling yields a `ShortCut`, not a `MergeWithZero`. -/
theorem merge_shortcut_counterexample :
    merge exampleHash 0 0 (MergeValue.Value 0) (MergeValue.ShortCut 5 7 0)
        = MergeValue.ShortCut 5 7 1
      ∧ (merge exampleHash 0 0 (MergeValue.Value 0) (MergeValue.ShortCut 5 7 0)).isShortCut = true
      ∧ (MergeValue.Value 0).isZero = true
      ∧ (MergeValue.ShortCut 5 7 0).isZero = false := by
  refine ⟨rfl, rfl, rfl, rfl⟩

/-- Claim C3 (amended): the three-case rule of `merge`, with the exactly-one-
zero case stated for non-`ShortCut` nonzero sides.  If both sides are zero the
result is `Value(0)`.  If exactly one side is zero, a `Value(v)` nonzero side
becomes `MergeWithZero { base_node = H(h ∥ k ∥ v), zero_bits = bit h set iff
the zero sibling is on the left, zero_count = 1 }`, and a `MergeWithZero`
nonzero side keeps its `base_node`, wrap-increments `zero_count`, and
additionally sets bit `h` of its `zero_bits` when the zero sibling is on the
left (existing bits are kept).  Otherwise the result is
`Value(H(MERGE_NORMAL ∥ h ∥ k ∥ lhs.hash() ∥ rhs.hash()))`. -/
theorem merge_three_case_rule (f : HashFn) (h k : Nat) (lhs rhs : MergeValue) :
    (lhs.isZero = true → rhs.isZero = true → merge f h k lhs rhs = MergeValue.Value 0)
      ∧ (∀ v, lhs.isZero = true → rhs = MergeValue.Value v → rhs.isZero = false →
          merge f h k lhs rhs = MergeValue.MergeWithZero (hashBaseNode f h k v) (setBit 0 h) 1)
      ∧ (∀ b zb zc, lhs.isZero = true → rhs = MergeValue.MergeWithZero b zb zc →
          rhs.isZero = false →
          merge f h k lhs rhs = MergeValue.MergeWithZero b (setBit zb h) ((zc + 1) % 256))
      ∧ (∀ v, rhs.isZero = true → lhs = MergeValue.Value v → lhs.isZero = false →
          merge f h k lhs rhs = MergeValue.MergeWithZero (hashBaseNode f h k v) 0 1)
      ∧ (∀ b zb zc, rhs.isZero = true → lhs = MergeValue.MergeWithZero b zb zc →
          lhs.isZero = false →
          merge f h k lhs rhs = MergeValue.MergeWithZero b zb ((zc + 1) % 256))
      ∧ (lhs.isZero = false → rhs.isZero = false →
          merge f h k lhs rhs = MergeValue.Value (f [.byte MERGE_NORMAL, .byte h, .word k,
            .word (lhs.hash f), .word (rhs.hash f)])) := by
  refine ⟨?_, ?_, ?_, ?_, ?_, ?_⟩
  · intro hl hr
    simp [merge, hl, hr, MergeValue.zero]
  · rintro v hl rfl hr
    simp [merge, mergeWithZero, hl, hr]
  · rintro b zb zc hl rfl hr
    simp [merge, mergeWithZero, hl, hr]
  · rintro v hr rfl hl
    simp [merge, mergeWithZero, hl, hr]
  · rintro b zb zc hr rfl hl
    simp [merge, mergeWithZero, hl, hr]
  · intro hl hr
    simp [merge, hl, hr]

/-- Claim C3 witness: the amended rule applied at a concrete input (the
normal-merge case of two nonzero `Value`s). -/
theorem merge_three_case_rule_witness :
    merge exampleHash 3 8 (MergeValue.Value 2) (MergeValue.Value 5)
      = MergeValue.Value (exampleHash [.byte MERGE_NORMAL, .byte 3, .word 8,
          .word ((MergeValue.Value 2).hash exampleHash),
          .word ((MergeValue.Value 5).hash exampleHash)]) :=
  (merge_three_case_rule exampleHash 3 8 (MergeValue.Value 2)
    (MergeValue.Value 5)).2.2.2.2.2 (by decide) (by decide)

/-! ## Claims about the compiled-proof interpreter -/

/-- Claim C4: `compute_root` returns `Ok` exactly when the op loop finishes
with a single stack entry of height 256 and all supplied leaves consumed, and
the returned root is that entry's hash; otherwise it returns a typed error
(the embedding is total, so no execution panics). -/
theorem computeRoot_ok_characterization (f : HashFn) (proof : List Nat)
    (leaves : List (Nat × Nat)) :
    (∀ r, computeRoot f proof leaves = .ok r ↔
      ∃ key mv, runProof f proof (sortLeaves leaves) [] = .ok ([(256, key, mv)], [])
        ∧ r = mv.hash f)
      ∧ ((∃ r, computeRoot f proof leaves = .ok r)
          ∨ (∃ e, computeRoot f proof leaves = .error e)) := by
  have hfin : ∀ stack leftover r, finishRoot f stack leftover = .ok r ↔
      ∃ key mv, stack = [(256, key, mv)] ∧ leftover = [] ∧ r = mv.hash f := by
    intro stack leftover r
    match stack with
    | [] => simp [finishRoot]
    | e1 :: e2 :: tl => simp [finishRoot]
    | [(h1, k1, mv1)] =>
      constructor
      · intro h
        simp only [finishRoot] at h
        split at h
        · simp at h
        · split at h
          · simp at h
          · rename_i h256 hleft
            simp at h256 hleft
            subst h256
            subst hleft
            exact ⟨k1, mv1, rfl, rfl, (Except.ok.inj h).symm⟩
      · rintro ⟨key, mv, heq, rfl, rfl⟩
        rw [heq]
        simp [finishRoot]
  constructor
  · intro r
    unfold computeRoot
    rcases hrun : runProof f proof (sortLeaves leaves) [] with e | ⟨stack, leftover⟩ <;>
      dsimp only
    · simp
    · rw [hfin stack leftover r]
      constructor
      · rintro ⟨key, mv, hs, hl, hr⟩
        subst hs
        subst hl
        exact ⟨key, mv, rfl, hr⟩
      · rintro ⟨key, mv, hok, hr⟩
        have hpair := Except.ok.inj hok
        exact ⟨key, mv, congrArg Prod.fst hpair, congrArg Prod.snd hpair, hr⟩
  · rcases h : computeRoot f proof leaves with e | r
    · exact Or.inr ⟨e, rfl⟩
    · exact Or.inl ⟨r, rfl⟩
/-- Claim C8 counterexample: an `H` op merging two stack items that do not
share a parent returns `CorruptedProof`, not `NonSiblings` (keys 0 and 2 are
not siblings at height 0). -/
theorem nonsibling_counterexample :
    computeRoot exampleHash [0x4C, 0x4C, 0x48] [(0, 1), (2, 1)]
        = .error Error.CorruptedProof
      ∧ Error.CorruptedProof ≠ Error.NonSiblings := by
  constructor
  · have hsort : sortLeaves [((0 : Nat), (1 : Nat)), (2, 1)] = [(0, 1), (2, 1)] := by
      unfold sortLeaves
      exact List.mergeSort_of_sorted (by decide)
    have hrun : runProof exampleHash [0x4C, 0x4C, 0x48] [(0, 1), (2, 1)] []
        = .error Error.CorruptedProof := rfl
    unfold computeRoot
    rw [hsort, hrun]
  · simp

/-- Claim C8 (amended): when the `H` op pops two entries of equal height at
most 255 whose parent paths differ, the interpreter surfaces
`CorruptedProof`. -/
theorem runProof_hOp_nonsibling (f : HashFn) (rest : List Nat)
    (leaves : List (Nat × Nat)) (ha ka kb : Nat) (va vb : MergeValue)
    (stail : List (Nat × Nat × MergeValue)) (hle : ha ≤ 255)
    (hne : parentPath ha ka ≠ parentPath ha kb) :
    runProof f (0x48 :: rest) leaves ((ha, kb, vb) :: (ha, ka, va) :: stail)
      = .error Error.CorruptedProof := by
  unfold runProof
  simp only [List.length_cons, runProofAux]
  simp [hne, show ¬ 255 < ha by omega]

/-- Claim C8 witness: the amended statement at height 0 with keys 0 and 2. -/
theorem runProof_hOp_nonsibling_witness :
    runProof exampleHash (0x48 :: []) []
        ((0, 2, MergeValue.Value 1) :: (0, 0, MergeValue.Value 1) :: [])
      = .error Error.CorruptedProof :=
  runProof_hOp_nonsibling exampleHash [] [] 0 0 2 (MergeValue.Value 1)
    (MergeValue.Value 1) [] (by decide) (by decide)

/-- The two sorts of key-distinct permuted leaf lists agree, because the
interpreter sorts by key. -/
theorem sortLeaves_eq_of_perm (l₁ l₂ : List (Nat × Nat)) (hp : l₁.Perm l₂)
    (hnd : (l₁.map Prod.fst).Nodup) : sortLeaves l₁ = sortLeaves l₂ := by
  have htrans : ∀ (a b c : Nat × Nat),
      (fun a b : Nat × Nat => (decide (a.1 ≤ b.1))) a b →
      (fun a b : Nat × Nat => (decide (a.1 ≤ b.1))) b c →
      (fun a b : Nat × Nat => (decide (a.1 ≤ b.1))) a c := by
    intro a b c h1 h2
    simp only [decide_eq_true_eq] at *
    omega
  have htotal : ∀ (a b : Nat × Nat),
      ((fun a b : Nat × Nat => (decide (a.1 ≤ b.1))) a b
        || (fun a b : Nat × Nat => (decide (a.1 ≤ b.1))) b a) := by
    intro a b
    simp only [Bool.or_eq_true, decide_eq_true_eq]
    omega
  have hs₁ := List.sorted_mergeSort htrans htotal l₁
  have hs₂ := List.sorted_mergeSort htrans htotal l₂
  have hperm : (l₁.mergeSort (fun a b => a.1 ≤ b.1)).Perm
      (l₂.mergeSort (fun a b => a.1 ≤ b.1)) :=
    (List.mergeSort_perm l₁ _).trans (hp.trans (List.mergeSort_perm l₂ _).symm)
  have hnd₁ : ((l₁.mergeSort (fun a b => a.1 ≤ b.1)).map Prod.fst).Nodup :=
    (((List.mergeSort_perm l₁ _).map Prod.fst).nodup_iff).2 hnd
  have hnd₂ : ((l₂.mergeSort (fun a b => a.1 ≤ b.1)).map Prod.fst).Nodup :=
    ((hperm.map Prod.fst).nodup_iff).1 hnd₁
  have strict : ∀ (l : List (Nat × Nat)),
      l.Pairwise (fun a b : Nat × Nat => (decide (a.1 ≤ b.1)) = true) →
      (l.map Prod.fst).Nodup → l.Pairwise (fun a b : Nat × Nat => a.1 < b.1) := by
    intro l hle hnd'
    have hne : l.Pairwise (fun a b : Nat × Nat => a.1 ≠ b.1) :=
      List.pairwise_map.1 hnd'
    exact (hle.and hne).imp (fun h => by
      obtain ⟨h1, h2⟩ := h
      simp only [decide_eq_true_eq] at h1
      omega)
  haveI : IsAntisymm (Nat × Nat) (fun a b : Nat × Nat => a.1 < b.1) :=
    ⟨fun a b h1 h2 => absurd (lt_trans h1 h2) (lt_irrefl _)⟩
  exact List.eq_of_perm_of_sorted hperm (strict _ hs₁ hnd₁) (strict _ hs₂ hnd₂)

/-- Claim C9: with pairwise-distinct keys, `compute_root` and `verify` are
invariant under permutation of the supplied leaves. -/
theorem computeRoot_perm_invariant (f : HashFn) (proof : List Nat)
    (l₁ l₂ : List (Nat × Nat)) (hp : l₁.Perm l₂)
    (hnd : (l₁.map Prod.fst).Nodup) :
    computeRoot f proof l₁ = computeRoot f proof l₂
      ∧ ∀ root, verifyProof f root proof l₁ = verifyProof f root proof l₂ := by
  have hs : sortLeaves l₁ = sortLeaves l₂ := sortLeaves_eq_of_perm l₁ l₂ hp hnd
  have hcr : computeRoot f proof l₁ = computeRoot f proof l₂ := by
    unfold computeRoot
    rw [hs]
  exact ⟨hcr, fun root => by unfold verifyProof; rw [hcr]⟩

/-- Claim C9 witness: a concrete permuted pair of leaf lists. -/
theorem computeRoot_perm_invariant_witness :
    computeRoot exampleHash [] [(1, 2), (3, 4)] = computeRoot exampleHash [] [(3, 4), (1, 2)]
      ∧ ∀ root, verifyProof exampleHash root [] [(1, 2), (3, 4)]
          = verifyProof exampleHash root [] [(3, 4), (1, 2)] :=
  computeRoot_perm_invariant exampleHash [] [(1, 2), (3, 4)] [(3, 4), (1, 2)]
    (by decide) (by decide)

/-! ## The tree: src/tree.rs with the `DefaultStore` of src/default_store.rs
(branch and leaf maps), values instantiated at `V = H256` (`to_h256` is the
identity, `zero` the zero digest). -/

/-- src/tree.rs `BranchNode`. -/
structure BranchNode where
  left : MergeValue
  right : MergeValue
deriving DecidableEq, Repr

/-- The branches map of a `DefaultStore`, keyed by `BranchKey` =
(height, node_key). -/
def Branches : Type := Nat → Nat → Option BranchNode

/-- The leaves map of a `DefaultStore`. -/
def Leaves : Type := Nat → Option Nat

/-- src/default_store.rs `insert_branch`. -/
def insertBranch (br : Branches) (h pk : Nat) (b : BranchNode) : Branches :=
  fun h' pk' => if h' = h ∧ pk' = pk then some b else br h' pk'

/-- src/default_store.rs `remove_branch`. -/
def removeBranch (br : Branches) (h pk : Nat) : Branches :=
  fun h' pk' => if h' = h ∧ pk' = pk then none else br h' pk'

/-- src/default_store.rs `insert_leaf`. -/
def insertLeaf (lv : Leaves) (k v : Nat) : Leaves :=
  fun k' => if k' = k then some v else lv k'

/-- src/default_store.rs `remove_leaf`. -/
def removeLeaf (lv : Leaves) (k : Nat) : Leaves :=
  fun k' => if k' = k then none else lv k'

/-- src/tree.rs `SparseMerkleTree` over a `DefaultStore`: the store maps and
the current root. -/
structure TreeState where
  branches : Branches
  leaves : Leaves
  root : Nat

/-- `SparseMerkleTree::default()`: empty store, zero root. -/
def emptyTree : TreeState :=
  { branches := fun _ _ => none, leaves := fun _ => none, root := 0 }

/-- src/tree.rs `get`: zero if the tree is empty, else the stored leaf or zero. -/
def getValue (s : TreeState) (k : Nat) : Nat :=
  if s.root = 0 then 0 else (s.leaves k).getD 0

/-- One iteration of the height loop of src/tree.rs `update`: read the parent
branch, place the current node on its side of the path, store or delete the
branch, and merge.  The state is `(current_key, current_node, branches)`. -/
def updateStep (f : HashFn) (st : Nat × MergeValue × Branches) (height : Nat) :
    Nat × MergeValue × Branches :=
  let ck := st.1
  let cn := st.2.1
  let br := st.2.2
  let pk := parentPath height ck
  let lr :=
    match br height pk with
    | some parentBranch =>
        if isRight ck height then (parentBranch.left, cn) else (cn, parentBranch.right)
    | none =>
        if isRight ck height then (MergeValue.zero, cn) else (cn, MergeValue.zero)
  let br' :=
    if !lr.1.isZero || !lr.2.isZero then insertBranch br height pk ⟨lr.1, lr.2⟩
    else removeBranch br height pk
  (pk, merge f height pk lr.1 lr.2, br')

/-- src/tree.rs `update`: store or delete the leaf, then recompute the path
from height 0 to 255; the new root is the hash of the last merge. -/
def update (f : HashFn) (s : TreeState) (key value : Nat) : TreeState :=
  let node := MergeValue.Value value
  let leaves' := if !node.isZero then insertLeaf s.leaves key value
                 else removeLeaf s.leaves key
  let final := (List.range 256).foldl (updateStep f) (key, node, s.branches)
  { branches := final.2.2, leaves := leaves', root := final.2.1.hash f }

/-! ### src/tree.rs `update_all`: the `delta_tree` B-tree map is embedded as
an association list sorted by `BranchKey` order (height, then node key). -/

/-- The `Ord` order of `BranchKey` (src/tree.rs): by height, then node key. -/
def bkLt (a b : Nat × Nat) : Bool := a.1 < b.1 || (a.1 = b.1 && a.2 < b.2)

/-- The `delta_tree` map: a sorted association list. -/
abbrev Delta : Type := List ((Nat × Nat) × (Option MergeValue × Option MergeValue))

/-- `BTreeMap::get`. -/
def deltaGet (d : Delta) (k : Nat × Nat) :
    Option (Option MergeValue × Option MergeValue) :=
  match d with
  | [] => none
  | (k', v) :: t => if k' = k then some v else deltaGet t k

/-- `BTreeMap::insert`: insert in key order, replacing an existing entry. -/
def deltaInsert (d : Delta) (k : Nat × Nat)
    (v : Option MergeValue × Option MergeValue) : Delta :=
  match d with
  | [] => [(k, v)]
  | (k', v') :: t =>
    if bkLt k k' then (k, v) :: (k', v') :: t
    else if k' = k then (k, v) :: t
    else (k', v') :: deltaInsert t k v

/-- The per-leaf height walk of src/tree.rs `update_all` (first phase): mark
the delta entry sides along the leaf's path, stopping (`break`) as in the
source when entries above are already marked. -/
def deltaWalk (br : Branches) (leafNode : MergeValue) :
    Nat → Nat → Nat → Delta → Delta
  | 0, _, _, d => d
  | fuel + 1, h, ck, d =>
    let pk := parentPath h ck
    let isR := isRight ck h
    match deltaGet d (h, pk) with
    | some lr =>
      if h = 0 then
        let nv := if isR then (lr.1, some leafNode) else (some leafNode, lr.2)
        deltaWalk br leafNode fuel (h + 1) pk (deltaInsert d (h, pk) nv)
      else
        match lr.1, lr.2, isR with
        | none, some _, true =>
            deltaWalk br leafNode fuel (h + 1) pk (deltaInsert d (h, pk) (none, none))
        | some _, none, false =>
            deltaWalk br leafNode fuel (h + 1) pk (deltaInsert d (h, pk) (none, none))
        | _, _, _ => d
    | none =>
      let blr :=
        match br h pk with
        | some parentBranch => (parentBranch.left, parentBranch.right)
        | none => (MergeValue.zero, MergeValue.zero)
      let nv :=
        if h = 0 then (if isR then (some blr.1, some leafNode) else (some leafNode, some blr.2))
        else (if isR then (some blr.1, none) else (none, some blr.2))
      deltaWalk br leafNode fuel (h + 1) pk (deltaInsert d (h, pk) nv)

/-- The first phase of src/tree.rs `update_all`: store or delete each leaf in
order and walk it into the delta tree (branches are not written in this
phase, so the walks read the initial branches map). -/
def buildDelta (br : Branches) :
    List (Nat × Nat) → Leaves → Delta → Leaves × Delta
  | [], lv, d => (lv, d)
  | (k, v) :: rest, lv, d =>
    let node := MergeValue.Value v
    let lv' := if !node.isZero then insertLeaf lv k v else removeLeaf lv k
    buildDelta br rest lv' (deltaWalk br node 256 0 k d)

/-- The outcome of `update_all`: `Ok` or a `panic!` (the source panics when a
delta entry has an unfilled child or a missing parent entry); either way the
store contents at that point are carried. -/
inductive BatchResult
  | ok (s : TreeState)
  | panicked (s : TreeState)

/-- The tree state carried by a batch outcome. -/
def BatchResult.state : BatchResult → TreeState
  | .ok s => s
  | .panicked s => s

/-- The second phase of src/tree.rs `update_all`: process the collected delta
keys in ascending order; each entry must have both children filled, the merged
node is written (or the branch removed when both children are zero) and
propagated into the parent entry, and the height-255 merge becomes the root. -/
def phase2 (f : HashFn) (origRoot : Nat) :
    List (Nat × Nat) → Delta → Branches → MergeValue → Leaves → BatchResult
  | [], _, br, rootNode, lv =>
    .ok { branches := br, leaves := lv, root := rootNode.hash f }
  | (h, nk) :: keys, d, br, rootNode, lv =>
    match deltaGet d (h, nk) with
    | some (some l, some r) =>
      let br' := if !l.isZero || !r.isZero then insertBranch br h nk ⟨l, r⟩
                 else removeBranch br h nk
      let node := merge f h nk l r
      if h < 255 then
        let ph := h + 1
        let ppk := parentPath ph nk
        match deltaGet d (ph, ppk) with
        | some plr =>
          let nv := if isRight nk ph then (plr.1, some node) else (some node, plr.2)
          phase2 f origRoot keys (deltaInsert d (ph, ppk) nv) br' rootNode lv
        | none => .panicked { branches := br', leaves := lv, root := origRoot }
      else
        phase2 f origRoot keys d br' node lv
    | _ => .panicked { branches := br, leaves := lv, root := origRoot }

/-- src/tree.rs `update_all`: return the current root unchanged on an empty
batch; otherwise run the two phases. -/
def updateAll (f : HashFn) (s : TreeState) (lvs : List (Nat × Nat)) : BatchResult :=
  match lvs with
  | [] => .ok s
  | _ =>
    let built := buildDelta s.branches lvs s.leaves []
    phase2 f s.root (built.2.map Prod.fst) built.2 s.branches MergeValue.zero built.1

/-! ## Claims C6 and C10 -/

/-- The store invariant of claim C6: no persisted branch has both children
zero. -/
def BranchInv (br : Branches) : Prop :=
  ∀ h pk b, br h pk = some b → ¬(b.left.isZero = true ∧ b.right.isZero = true)

theorem branchInv_insert {br : Branches} (hinv : BranchInv br) {h pk : Nat}
    {b : BranchNode} (hb : ¬(b.left.isZero = true ∧ b.right.isZero = true)) :
    BranchInv (insertBranch br h pk b) := by
  intro h' pk' b' hb'
  unfold insertBranch at hb'
  split at hb'
  · cases hb'
    exact hb
  · exact hinv h' pk' b' hb'

theorem branchInv_remove {br : Branches} (hinv : BranchInv br) {h pk : Nat} :
    BranchInv (removeBranch br h pk) := by
  intro h' pk' b' hb'
  unfold removeBranch at hb'
  split at hb'
  · cases hb'
  · exact hinv h' pk' b' hb'

theorem branchInv_updateStep (f : HashFn) {st : Nat × MergeValue × Branches}
    (hinv : BranchInv st.2.2) (height : Nat) :
    BranchInv (updateStep f st height).2.2 := by
  unfold updateStep
  dsimp only
  split <;> split
  all_goals first
    | exact branchInv_remove hinv
    | (rename_i hcond
       refine branchInv_insert hinv ?_
       intro ⟨hl, hr⟩
       simp [hl, hr] at hcond)

theorem branchInv_update_foldl (f : HashFn) (l : List Nat)
    (st : Nat × MergeValue × Branches) (hinv : BranchInv st.2.2) :
    BranchInv ((l.foldl (updateStep f) st).2.2) := by
  induction l generalizing st with
  | nil => exact hinv
  | cons a t ih => exact ih _ (branchInv_updateStep f hinv a)

theorem branchInv_phase2 (f : HashFn) (origRoot : Nat) (keys : List (Nat × Nat))
    (d : Delta) (br : Branches) (rootNode : MergeValue) (lv : Leaves)
    (hinv : BranchInv br) :
    BranchInv ((phase2 f origRoot keys d br rootNode lv).state).branches := by
  induction keys generalizing d br rootNode lv with
  | nil => exact hinv
  | cons kk keys ih =>
    obtain ⟨h, nk⟩ := kk
    rw [phase2]
    rcases hget : deltaGet d (h, nk) with _ | ⟨ol, or'⟩
    · exact hinv
    · rcases ol with _ | l
      · exact hinv
      · rcases or' with _ | r
        · exact hinv
        · have hbr' : BranchInv (if !l.isZero || !r.isZero then
              insertBranch br h nk ⟨l, r⟩ else removeBranch br h nk) := by
            split
            · rename_i hcond
              refine branchInv_insert hinv ?_
              intro ⟨hl, hr⟩
              simp [hl, hr] at hcond
            · exact branchInv_remove hinv
          dsimp only
          split
          · rcases hpar : deltaGet d (h + 1, parentPath (h + 1) nk) with _ | plr
            · exact hbr'
            · exact ih _ _ _ _ hbr'
          · exact ih _ _ _ _ hbr'

/-- Claim C6: starting from a store in which no branch has both children
zero, any `update` and any `update_all` (also when the latter panics)
preserves that invariant: a branch whose new children are both zero is
removed instead of written. -/
theorem store_invariant_preserved (f : HashFn) (s : TreeState)
    (hinv : BranchInv s.branches) :
    (∀ key value, BranchInv (update f s key value).branches)
      ∧ ∀ lvs, BranchInv ((updateAll f s lvs).state).branches := by
  constructor
  · intro key value
    unfold update
    dsimp only
    exact branchInv_update_foldl f (List.range 256)
      (key, MergeValue.Value value, s.branches) hinv
  · intro lvs
    unfold updateAll
    match lvs with
    | [] => exact hinv
    | (k, v) :: rest => exact branchInv_phase2 f _ _ _ _ _ _ hinv

/-- Claim C6 witness: the invariant propagated from the empty store through a
concrete update and batch. -/
theorem store_invariant_preserved_witness :
    (∀ key value, BranchInv (update exampleHash emptyTree key value).branches)
      ∧ ∀ lvs, BranchInv ((updateAll exampleHash emptyTree lvs).state).branches :=
  store_invariant_preserved exampleHash emptyTree
    (fun _ _ b hb => by cases hb)

/-- Claim C10: `update_all` with an empty batch returns `Ok` with the tree
unchanged: same root, same branch map, same leaf map, and no store write is
performed. -/
theorem updateAll_nil (f : HashFn) (s : TreeState) :
    updateAll f s [] = BatchResult.ok s := rfl

/-! ## Path arithmetic lemmas for `copy_bits` / `parent_path` -/

theorem copyBits_zero (k : Nat) : copyBits 0 k = k := by
  simp [copyBits]

theorem copyBits_le (n k : Nat) : copyBits n k ≤ k := by
  unfold copyBits
  calc 2 ^ n * (k / 2 ^ n) = k / 2 ^ n * 2 ^ n := by ring
    _ ≤ k := Nat.div_mul_le_self k (2 ^ n)

theorem copyBits_mod (n k : Nat) : copyBits n k % 2 ^ n = 0 := by
  simp [copyBits, Nat.mul_mod_right]

theorem copyBits_copyBits {n m : Nat} (h : n ≤ m) (k : Nat) :
    copyBits m (copyBits n k) = copyBits m k := by
  unfold copyBits
  congr 1
  obtain ⟨d, rfl⟩ := Nat.exists_eq_add_of_le h
  rw [pow_add]
  rw [Nat.mul_div_mul_left _ _ (Nat.pos_pow_of_pos n (by norm_num)), Nat.div_div_eq_div_mul,
    ← pow_add]

theorem copyBits_of_mod_eq_zero {n pk : Nat} (h : pk % 2 ^ n = 0) :
    copyBits n pk = pk := by
  obtain ⟨q, rfl⟩ := Nat.dvd_of_mod_eq_zero h
  unfold copyBits
  rw [Nat.mul_div_cancel_left _ (Nat.pos_pow_of_pos n (by norm_num))]

theorem copyBits_eq_shift (n k : Nat) : copyBits n k = (k >>> n) <<< n := by
  simp [copyBits, Nat.shiftLeft_eq, Nat.shiftRight_eq_div_pow, Nat.mul_comm]

theorem testBit_copyBits (n k i : Nat) :
    (copyBits n k).testBit i = if n ≤ i then k.testBit i else false := by
  rw [copyBits_eq_shift]
  rcases le_or_lt n i with h | h
  · simp [Nat.testBit_shiftLeft, Nat.testBit_shiftRight, h, Nat.add_sub_cancel' h]
  · simp [Nat.testBit_shiftLeft, Nat.not_le.2 h, show ¬ i ≥ n from Nat.not_le.2 h]

theorem copyBits_succ (n k : Nat) :
    copyBits n k = copyBits (n + 1) k + (if k.testBit n then 2 ^ n else 0) := by
  have hdd : k / 2 ^ n / 2 = k / 2 ^ (n + 1) := by
    rw [Nat.div_div_eq_div_mul, ← pow_succ]
  have hdm := Nat.div_add_mod (k / 2 ^ n) 2
  have hbit : k.testBit n = decide (k / 2 ^ n % 2 = 1) := Nat.testBit_to_div_mod
  unfold copyBits
  rcases Nat.mod_two_eq_zero_or_one (k / 2 ^ n) with h | h
  · have ht : k.testBit n = false := by simp [hbit, h]
    rw [ht, if_neg (by simp)]
    rw [h, hdd] at hdm
    calc 2 ^ n * (k / 2 ^ n) = 2 ^ n * (2 * (k / 2 ^ (n + 1)) + 0) := by rw [hdm]
      _ = 2 ^ (n + 1) * (k / 2 ^ (n + 1)) + 0 := by rw [pow_succ]; ring
  · have ht : k.testBit n = true := by simp [hbit, h]
    rw [ht, if_pos rfl]
    rw [h, hdd] at hdm
    calc 2 ^ n * (k / 2 ^ n) = 2 ^ n * (2 * (k / 2 ^ (n + 1)) + 1) := by rw [hdm]
      _ = 2 ^ (n + 1) * (k / 2 ^ (n + 1)) + 2 ^ n := by rw [pow_succ]; ring

theorem copyBits_lt_two_pow {k : Nat} (n : Nat) (hk : k < 2 ^ 256) :
    copyBits n k < 2 ^ 256 :=
  lt_of_le_of_lt (copyBits_le n k) hk

theorem copyBits_256_eq_zero {k : Nat} (hk : k < 2 ^ 256) : copyBits 256 k = 0 := by
  unfold copyBits
  rw [Nat.div_eq_of_lt hk, Nat.mul_zero]

theorem parentPath_copyBits {h key : Nat} (hh : h ≤ 255) (hk : key < 2 ^ 256) :
    parentPath h (copyBits h key) = copyBits (h + 1) key := by
  unfold parentPath
  split
  · subst_vars
    exact (copyBits_256_eq_zero hk).symm
  · exact copyBits_copyBits (Nat.le_succ h) key

/-- Membership of a key below a (valid) prefix, as an interval. -/
theorem copyBits_eq_iff {h pfx k : Nat} (hv : pfx % 2 ^ h = 0) :
    copyBits h k = pfx ↔ (pfx ≤ k ∧ k < pfx + 2 ^ h) := by
  obtain ⟨q, rfl⟩ := Nat.dvd_of_mod_eq_zero hv
  have hpos : 0 < 2 ^ h := Nat.pos_pow_of_pos h (by norm_num)
  have hle : 2 ^ h * (k / 2 ^ h) ≤ k := by
    calc 2 ^ h * (k / 2 ^ h) = k / 2 ^ h * 2 ^ h := by ring
      _ ≤ k := Nat.div_mul_le_self k _
  have hlt : k < 2 ^ h * (k / 2 ^ h) + 2 ^ h := by
    have hmod : k % 2 ^ h < 2 ^ h := Nat.mod_lt k hpos
    have hdm := Nat.div_add_mod k (2 ^ h)
    omega
  unfold copyBits
  constructor
  · intro he
    rw [he] at hle hlt
    exact ⟨hle, hlt⟩
  · rintro ⟨h1, h2⟩
    have : k / 2 ^ h = q := by
      have hq1 : q ≤ k / 2 ^ h := by
        rw [Nat.le_div_iff_mul_le hpos]
        calc q * 2 ^ h = 2 ^ h * q := by ring
          _ ≤ k := h1
      have hq2 : k / 2 ^ h < q + 1 := by
        rw [Nat.div_lt_iff_lt_mul hpos]
        calc k < 2 ^ h * q + 2 ^ h := h2
          _ = (q + 1) * 2 ^ h := by ring
      omega
    rw [this]

/-! ## The canonical store: each branch holds exactly the merge values of its
child subtrees computed from the leaf map. -/

/-- The merge value of the subtree of height `h` over the `2^h` keys starting
at `pfx`, computed from a leaf map exactly as src/tree.rs `update` builds
`current_node` from the bottom up. -/
def subNode (f : HashFn) (L : Leaves) : Nat → Nat → MergeValue
  | 0, pfx => .Value ((L pfx).getD 0)
  | h + 1, pfx => merge f h pfx (subNode f L h pfx) (subNode f L h (pfx + 2 ^ h))

/-- The canonical content of branch `(h, pk)`: both child subtree values, or
absent when both are zero. -/
def canonBranch (f : HashFn) (L : Leaves) (h pk : Nat) : Option BranchNode :=
  let l := subNode f L h pk
  let r := subNode f L h (pk + 2 ^ h)
  if l.isZero && r.isZero then none else some ⟨l, r⟩

/-- A hash function whose digests are never the zero hash (the zero digest is
reserved for empty subtrees). -/
def HashNonZero (f : HashFn) : Prop := ∀ l, f l ≠ 0

/-- The canonical-store predicate: the leaf map is the given one, every valid
branch key holds its canonical branch, nothing else is stored, and the root is
the hash of the full subtree. -/
def Canon (f : HashFn) (s : TreeState) (L : Leaves) : Prop :=
  s.leaves = L
    ∧ (∀ h pk, h < 256 → pk % 2 ^ (h + 1) = 0 → pk < 2 ^ 256 →
        s.branches h pk = canonBranch f L h pk)
    ∧ (∀ h pk, ¬(h < 256 ∧ pk % 2 ^ (h + 1) = 0 ∧ pk < 2 ^ 256) →
        s.branches h pk = none)
    ∧ s.root = (subNode f L 256 0).hash f

/-- `subNode` only reads the leaves of its own interval. -/
theorem subNode_congr (f : HashFn) {L L' : Leaves} :
    ∀ (h pfx : Nat), (∀ j, j < 2 ^ h → L (pfx + j) = L' (pfx + j)) →
      subNode f L h pfx = subNode f L' h pfx
  | 0, pfx, hagree => by
    have := hagree 0 (Nat.pos_pow_of_pos 0 (by norm_num))
    simp only [subNode]
    rw [Nat.add_zero] at this
    rw [this]
  | h + 1, pfx, hagree => by
    have hpow : (2 : Nat) ^ (h + 1) = 2 ^ h * 2 := pow_succ 2 h
    have hL : subNode f L h pfx = subNode f L' h pfx :=
      subNode_congr f h pfx (fun j hj => hagree j (by omega))
    have hR : subNode f L h (pfx + 2 ^ h) = subNode f L' h (pfx + 2 ^ h) :=
      subNode_congr f h (pfx + 2 ^ h) (fun j hj => by
        have h1 : pfx + 2 ^ h + j = pfx + (2 ^ h + j) := by ring
        rw [h1]
        exact hagree (2 ^ h + j) (by omega))
    simp only [subNode]
    rw [hL, hR]

/-- Every subtree value is a `Value` or a `MergeWithZero` with nonzero base
(for a hash that never returns zero); in particular a zero subtree value is
literally `Value 0`. -/
theorem subNode_shape (f : HashFn) (hf : HashNonZero f) (L : Leaves) :
    ∀ (h pfx : Nat), (∃ v, subNode f L h pfx = .Value v)
      ∨ (∃ b zb zc, subNode f L h pfx = .MergeWithZero b zb zc ∧ b ≠ 0)
  | 0, pfx => Or.inl ⟨_, rfl⟩
  | h + 1, pfx => by
    simp only [subNode]
    set l := subNode f L h pfx with hl
    set r := subNode f L h (pfx + 2 ^ h) with hr
    unfold merge
    split
    · exact Or.inl ⟨0, rfl⟩
    · split
      · rcases subNode_shape f hf L h (pfx + 2 ^ h) with ⟨v, hv⟩ | ⟨b, zb, zc, hb, hbne⟩
        · rw [← hr] at hv
          rw [hv]
          exact Or.inr ⟨_, _, _, rfl, hf _⟩
        · rw [← hr] at hb
          rw [hb]
          exact Or.inr ⟨_, _, _, rfl, hbne⟩
      · split
        · rcases subNode_shape f hf L h pfx with ⟨v, hv⟩ | ⟨b, zb, zc, hb, hbne⟩
          · rw [← hl] at hv
            rw [hv]
            exact Or.inr ⟨_, _, _, rfl, hf _⟩
          · rw [← hl] at hb
            rw [hb]
            exact Or.inr ⟨_, _, _, rfl, hbne⟩
        · exact Or.inl ⟨_, rfl⟩

/-- With a nonzero hash, a zero subtree value is literally `Value 0`. -/
theorem subNode_isZero_eq (f : HashFn) (hf : HashNonZero f) (L : Leaves)
    (h pfx : Nat) (hz : (subNode f L h pfx).isZero = true) :
    subNode f L h pfx = .Value 0 := by
  rcases subNode_shape f hf L h pfx with ⟨v, hv⟩ | ⟨b, zb, zc, hb, hbne⟩
  · rw [hv] at hz ⊢
    simp [MergeValue.isZero] at hz
    rw [hz]
  · rw [hb] at hz
    simp [MergeValue.isZero] at hz
    exact absurd hz hbne

/-! ## Functional correctness of `update` against the canonical store -/

theorem getBit_copyBits_self (h key : Nat) :
    getBit (copyBits h key) h = getBit key h := by
  unfold getBit
  rw [testBit_copyBits]
  simp

theorem mod_pow_succ_zero {h pk : Nat} (hval : pk % 2 ^ (h + 1) = 0) :
    pk % 2 ^ h = 0 :=
  Nat.dvd_iff_mod_eq_zero.mp
    (dvd_trans (pow_dvd_pow 2 (Nat.le_succ h)) (Nat.dvd_of_mod_eq_zero hval))

theorem add_pow_mod_zero {h pk : Nat} (hval : pk % 2 ^ (h + 1) = 0) :
    (pk + 2 ^ h) % 2 ^ h = 0 := by
  have h1 := mod_pow_succ_zero hval
  simp [Nat.add_mod, h1, Nat.mod_self]

theorem copyBits_succ_add_pow {h pk : Nat} (hval : pk % 2 ^ (h + 1) = 0) :
    copyBits (h + 1) (pk + 2 ^ h) = pk := by
  obtain ⟨q, rfl⟩ := Nat.dvd_of_mod_eq_zero hval
  have hpos : 0 < (2 : Nat) ^ (h + 1) := Nat.pos_pow_of_pos _ (by norm_num)
  have hps : (2 : Nat) ^ (h + 1) = 2 ^ h * 2 := pow_succ 2 h
  have h2 : 0 < (2 : Nat) ^ h := Nat.pos_pow_of_pos _ (by norm_num)
  unfold copyBits
  rw [Nat.mul_add_div hpos, Nat.div_eq_of_lt (by omega)]
  simp

/-- A leaf map update does not change subtrees that do not contain the key. -/
theorem subNode_agree_off (f : HashFn) {L L' : Leaves} {key : Nat}
    (hagree : ∀ k, k ≠ key → L k = L' k) (h sp : Nat) (hsp : sp % 2 ^ h = 0)
    (hne : copyBits h key ≠ sp) : subNode f L h sp = subNode f L' h sp := by
  apply subNode_congr
  intro j hj
  refine hagree _ (fun hk => hne ?_)
  rw [← hk]
  exact (copyBits_eq_iff hsp).2 ⟨Nat.le_add_right _ _, by omega⟩

/-- A leaf map update does not change canonical branches off the key's path. -/
theorem canonBranch_agree_off (f : HashFn) {L L' : Leaves} {key : Nat}
    (hagree : ∀ k, k ≠ key → L k = L' k) (h pk : Nat)
    (hval : pk % 2 ^ (h + 1) = 0) (hne : pk ≠ copyBits (h + 1) key) :
    canonBranch f L h pk = canonBranch f L' h pk := by
  have hmodh : pk % 2 ^ h = 0 := mod_pow_succ_zero hval
  have hmodr : (pk + 2 ^ h) % 2 ^ h = 0 := add_pow_mod_zero hval
  have hl : copyBits h key ≠ pk := by
    intro he
    apply hne
    have h1 : copyBits (h + 1) key = copyBits (h + 1) (copyBits h key) :=
      (copyBits_copyBits (Nat.le_succ h) key).symm
    rw [h1, he, copyBits_of_mod_eq_zero hval]
  have hr : copyBits h key ≠ pk + 2 ^ h := by
    intro he
    apply hne
    have h1 : copyBits (h + 1) key = copyBits (h + 1) (copyBits h key) :=
      (copyBits_copyBits (Nat.le_succ h) key).symm
    rw [h1, he, copyBits_succ_add_pow hval]
  unfold canonBranch
  dsimp only
  rw [subNode_agree_off f hagree h pk hmodh hl,
    subNode_agree_off f hagree h (pk + 2 ^ h) hmodr hr]

/-- The leaf-map effect of `update(key, value)`. -/
def applyLeaf (L : Leaves) (key value : Nat) : Leaves :=
  if value = 0 then removeLeaf L key else insertLeaf L key value

theorem applyLeaf_agree (L : Leaves) (key value : Nat) :
    ∀ k, k ≠ key → applyLeaf L key value k = L k := by
  intro k hk
  by_cases hv : value = 0 <;> simp [applyLeaf, insertLeaf, removeLeaf, hv, hk]

/-- The invariant of the height loop of `update`, carried from height `h` to
height `h + 1` by one `updateStep`. -/
theorem updateStep_spec (f : HashFn) (hf : HashNonZero f) (s : TreeState) (L : Leaves)
    (hc : Canon f s L) (key value : Nat) (hkey : key < 2 ^ 256)
    (h : Nat) (hh : h ≤ 255) (st : Nat × MergeValue × Branches)
    (h1 : st.1 = copyBits h key)
    (h2 : st.2.1 = subNode f (applyLeaf L key value) h (copyBits h key))
    (h3 : ∀ g pk, st.2.2 g pk =
      if g < h ∧ pk = copyBits (g + 1) key then canonBranch f (applyLeaf L key value) g pk
      else s.branches g pk) :
    (updateStep f st h).1 = copyBits (h + 1) key
      ∧ (updateStep f st h).2.1
          = subNode f (applyLeaf L key value) (h + 1) (copyBits (h + 1) key)
      ∧ ∀ g pk, (updateStep f st h).2.2 g pk =
          if g < h + 1 ∧ pk = copyBits (g + 1) key then
            canonBranch f (applyLeaf L key value) g pk
          else s.branches g pk := by
  obtain ⟨ck, cn, br⟩ := st
  dsimp only at h1 h2 h3 ⊢
  subst h1
  subst h2
  have hpk : parentPath h (copyBits h key) = copyBits (h + 1) key :=
    parentPath_copyBits hh hkey
  have hvalPK : copyBits (h + 1) key % 2 ^ (h + 1) = 0 := copyBits_mod _ _
  have hmodh : copyBits (h + 1) key % 2 ^ h = 0 := mod_pow_succ_zero hvalPK
  have hmodr : (copyBits (h + 1) key + 2 ^ h) % 2 ^ h = 0 := add_pow_mod_zero hvalPK
  have hpow : 0 < (2 : Nat) ^ h := Nat.pos_pow_of_pos _ (by norm_num)
  have hbit : isRight (copyBits h key) h = getBit key h := getBit_copyBits_self h key
  have hdecomp := copyBits_succ h key
  have hagree' : ∀ k, k ≠ key → L k = applyLeaf L key value k :=
    fun k hk => (applyLeaf_agree L key value k hk).symm
  have hbr : br h (copyBits (h + 1) key) = canonBranch f L h (copyBits (h + 1) key) := by
    rw [h3, if_neg (by omega)]
    exact hc.2.1 h _ (by omega) hvalPK (copyBits_lt_two_pow _ hkey)
  have hpair :
      (match br h (copyBits (h + 1) key) with
        | some parentBranch =>
            if isRight (copyBits h key) h then
              (parentBranch.left, subNode f (applyLeaf L key value) h (copyBits h key))
            else (subNode f (applyLeaf L key value) h (copyBits h key), parentBranch.right)
        | none =>
            if isRight (copyBits h key) h then
              (MergeValue.zero, subNode f (applyLeaf L key value) h (copyBits h key))
            else (subNode f (applyLeaf L key value) h (copyBits h key), MergeValue.zero))
      = (subNode f (applyLeaf L key value) h (copyBits (h + 1) key),
          subNode f (applyLeaf L key value) h (copyBits (h + 1) key + 2 ^ h)) := by
    rw [hbr]
    unfold canonBranch
    dsimp only
    by_cases hz0 : ((subNode f L h (copyBits (h + 1) key)).isZero
        && (subNode f L h (copyBits (h + 1) key + 2 ^ h)).isZero) = true
    · rw [if_pos hz0]
      rw [Bool.and_eq_true] at hz0
      have hzl := subNode_isZero_eq f hf L h _ hz0.1
      have hzr := subNode_isZero_eq f hf L h _ hz0.2
      dsimp only
      rcases hb : getBit key h with _ | _
      · have hown : copyBits h key = copyBits (h + 1) key := by
          unfold getBit at hb
          rw [hdecomp, hb]
          simp
        have hsib : subNode f L h (copyBits (h + 1) key + 2 ^ h)
            = subNode f (applyLeaf L key value) h (copyBits (h + 1) key + 2 ^ h) :=
          subNode_agree_off f hagree' h _ hmodr (by rw [hown]; omega)
        rw [hbit, hb, if_neg (by simp), hown, ← hsib, hzr]
        rfl
      · have hown : copyBits h key = copyBits (h + 1) key + 2 ^ h := by
          unfold getBit at hb
          rw [hdecomp, hb]
          simp
        have hsib : subNode f L h (copyBits (h + 1) key)
            = subNode f (applyLeaf L key value) h (copyBits (h + 1) key) :=
          subNode_agree_off f hagree' h _ hmodh (by rw [hown]; omega)
        rw [hbit, hb, if_pos rfl, hown, ← hsib, hzl]
        rfl
    · rw [if_neg hz0]
      dsimp only
      rcases hb : getBit key h with _ | _
      · have hown : copyBits h key = copyBits (h + 1) key := by
          unfold getBit at hb
          rw [hdecomp, hb]
          simp
        have hsib : subNode f L h (copyBits (h + 1) key + 2 ^ h)
            = subNode f (applyLeaf L key value) h (copyBits (h + 1) key + 2 ^ h) :=
          subNode_agree_off f hagree' h _ hmodr (by rw [hown]; omega)
        rw [hbit, hb, if_neg (by simp), hown, hsib]
      · have hown : copyBits h key = copyBits (h + 1) key + 2 ^ h := by
          unfold getBit at hb
          rw [hdecomp, hb]
          simp
        have hsib : subNode f L h (copyBits (h + 1) key)
            = subNode f (applyLeaf L key value) h (copyBits (h + 1) key) :=
          subNode_agree_off f hagree' h _ hmodh (by rw [hown]; omega)
        rw [hbit, hb, if_pos rfl, hown, hsib]
  refine ⟨?_, ?_, ?_⟩
  · unfold updateStep
    dsimp only
    rw [hpk]
  · unfold updateStep
    dsimp only
    rw [hpk, hpair]
    simp only [subNode]
  · intro g pk
    unfold updateStep
    dsimp only
    rw [hpk, hpair]
    dsimp only
    by_cases hhit : g = h ∧ pk = copyBits (h + 1) key
    · obtain ⟨rfl, rfl⟩ := hhit
      have hcnd : g < g + 1 ∧ copyBits (g + 1) key = copyBits (g + 1) key :=
        ⟨Nat.lt_succ_self g, rfl⟩
      rw [if_pos hcnd]
      rcases hz1 : (subNode f (applyLeaf L key value) g (copyBits (g + 1) key)).isZero
          with _ | _ <;>
        rcases hz2 : (subNode f (applyLeaf L key value) g
            (copyBits (g + 1) key + 2 ^ g)).isZero with _ | _ <;>
        simp [canonBranch, removeBranch, insertBranch, hz1, hz2]
    · have hstep : (if (!(subNode f (applyLeaf L key value) h (copyBits (h + 1) key)).isZero
              || !(subNode f (applyLeaf L key value) h (copyBits (h + 1) key + 2 ^ h)).isZero)
            then insertBranch br h (copyBits (h + 1) key)
              ⟨subNode f (applyLeaf L key value) h (copyBits (h + 1) key),
                subNode f (applyLeaf L key value) h (copyBits (h + 1) key + 2 ^ h)⟩
            else removeBranch br h (copyBits (h + 1) key)) g pk = br g pk := by
        split
        · unfold insertBranch
          rw [if_neg hhit]
        · unfold removeBranch
          rw [if_neg hhit]
      rw [hstep, h3]
      by_cases hcond : g < h ∧ pk = copyBits (g + 1) key
      · rw [if_pos hcond, if_pos ⟨by omega, hcond.2⟩]
      · rw [if_neg hcond, if_neg (by
          rintro ⟨hlt, rfl⟩
          rcases Nat.lt_succ_iff_lt_or_eq.1 hlt with hlt' | rfl
          · exact hcond ⟨hlt', rfl⟩
          · exact hhit ⟨rfl, rfl⟩)]

/-- Functional correctness of src/tree.rs `update`: from a canonical state,
`update(key, value)` produces the canonical state of the updated leaf map. -/
theorem update_canonical (f : HashFn) (hf : HashNonZero f) (s : TreeState)
    (L : Leaves) (hc : Canon f s L) (key value : Nat) (hkey : key < 2 ^ 256) :
    Canon f (update f s key value) (applyLeaf L key value) := by
  have hleaves : (update f s key value).leaves = applyLeaf L key value := by
    unfold update
    dsimp only
    rw [hc.1]
    by_cases hv : value = 0 <;>
      simp [applyLeaf, hv, MergeValue.isZero]
  have main : ∀ n, n ≤ 256 →
      (((List.range n).foldl (updateStep f) (key, MergeValue.Value value, s.branches)).1
          = copyBits n key)
        ∧ (((List.range n).foldl (updateStep f)
            (key, MergeValue.Value value, s.branches)).2.1
          = subNode f (applyLeaf L key value) n (copyBits n key))
        ∧ ∀ g pk, (((List.range n).foldl (updateStep f)
            (key, MergeValue.Value value, s.branches)).2.2) g pk =
          if g < n ∧ pk = copyBits (g + 1) key then canonBranch f (applyLeaf L key value) g pk
          else s.branches g pk := by
    intro n
    induction n with
    | zero =>
      intro _
      refine ⟨?_, ?_, ?_⟩
      · simp [copyBits_zero]
      · simp only [List.range_zero, List.foldl_nil]
        rw [copyBits_zero]
        by_cases hv : value = 0 <;>
          simp [subNode, applyLeaf, insertLeaf, removeLeaf, hv]
      · intro g pk
        simp
    | succ n ih =>
      intro hn
      have hrec := ih (by omega)
      rw [List.range_succ, List.foldl_append, List.foldl_cons, List.foldl_nil]
      exact updateStep_spec f hf s L hc key value hkey n (by omega) _
        hrec.1 hrec.2.1 hrec.2.2
  obtain ⟨m1, m2, m3⟩ := main 256 le_rfl
  have hbr_eq : (update f s key value).branches
      = ((List.range 256).foldl (updateStep f)
          (key, MergeValue.Value value, s.branches)).2.2 := by
    unfold update
    dsimp only
  have hroot_eq : (update f s key value).root
      = (((List.range 256).foldl (updateStep f)
          (key, MergeValue.Value value, s.branches)).2.1).hash f := by
    unfold update
    dsimp only
  refine ⟨hleaves, ?_, ?_, ?_⟩
  · intro h pk hh hval hlt
    rw [hbr_eq, m3]
    by_cases hpath : pk = copyBits (h + 1) key
    · rw [if_pos ⟨hh, hpath⟩]
    · rw [if_neg (fun hcc => hpath hcc.2)]
      rw [hc.2.1 h pk hh hval hlt]
      exact canonBranch_agree_off f (fun k hk => (applyLeaf_agree L key value k hk).symm)
        h pk hval hpath
  · intro h pk hbad
    rw [hbr_eq, m3]
    rw [if_neg (by
      rintro ⟨hh', rfl⟩
      exact hbad ⟨hh', copyBits_mod _ _, copyBits_lt_two_pow _ hkey⟩)]
    exact hc.2.2.1 h pk hbad
  · rw [hroot_eq, m2, copyBits_256_eq_zero hkey]

/-- The empty leaf map has an all-zero tree. -/
theorem subNode_empty (f : HashFn) :
    ∀ (h pfx : Nat), subNode f (fun _ => none) h pfx = .Value 0
  | 0, _ => by simp [subNode]
  | h + 1, pfx => by
    simp only [subNode]
    rw [subNode_empty f h pfx, subNode_empty f h (pfx + 2 ^ h)]
    simp [merge, MergeValue.isZero, MergeValue.zero]

/-- The default (empty) tree is canonical for the empty leaf map. -/
theorem canon_empty (f : HashFn) : Canon f emptyTree (fun _ => none) := by
  refine ⟨rfl, ?_, ?_, ?_⟩
  · intro h pk _ _ _
    unfold canonBranch
    rw [subNode_empty, subNode_empty]
    simp [MergeValue.isZero, emptyTree]
  · intro h pk _
    rfl
  · rw [subNode_empty]
    rfl

/-- Extensionality for tree states. -/
theorem TreeState.ext' : ∀ {s1 s2 : TreeState}, s1.branches = s2.branches →
    s1.leaves = s2.leaves → s1.root = s2.root → s1 = s2
  | ⟨_, _, _⟩, ⟨_, _, _⟩, rfl, rfl, rfl => rfl

/-- A leaf map has at most one canonical state. -/
theorem canon_unique (f : HashFn) {s1 s2 : TreeState} {L : Leaves}
    (h1 : Canon f s1 L) (h2 : Canon f s2 L) : s1 = s2 := by
  obtain ⟨l1, b1, n1, r1⟩ := h1
  obtain ⟨l2, b2, n2, r2⟩ := h2
  refine TreeState.ext' ?_ (l1.trans l2.symm) (r1.trans r2.symm)
  funext h pk
  by_cases hv : h < 256 ∧ pk % 2 ^ (h + 1) = 0 ∧ pk < 2 ^ 256
  · rw [b1 h pk hv.1 hv.2.1 hv.2.2, b2 h pk hv.1 hv.2.1 hv.2.2]
  · rw [n1 h pk hv, n2 h pk hv]

/-- The example hash function never returns the zero digest. -/
theorem exampleHash_nonzero : HashNonZero exampleHash := fun _ => one_ne_zero

/-! ## Claim C5: delete cancels insert -/

/-- Claim C5 counterexample: when the key is already present, `update(k, v)`
followed by `update(k, 0)` deletes the pre-existing leaf instead of restoring
it, so the claim fails as stated for such tree states. -/
theorem delete_cancels_insert_counterexample :
    update exampleHash (update exampleHash (update exampleHash emptyTree 1 5) 1 7) 1 0
        ≠ update exampleHash emptyTree 1 5
      ∧ (update exampleHash
          (update exampleHash (update exampleHash emptyTree 1 5) 1 7) 1 0).leaves 1 = none
      ∧ (update exampleHash emptyTree 1 5).leaves 1 = some 5 := by
  refine ⟨?_, rfl, rfl⟩
  intro h
  have h1 : (update exampleHash
      (update exampleHash (update exampleHash emptyTree 1 5) 1 7) 1 0).leaves 1 = none := rfl
  have h2 : (update exampleHash emptyTree 1 5).leaves 1 = some 5 := rfl
  rw [h] at h1
  rw [h1] at h2
  cases h2

/-- Claim C5 (amended): for a canonical (API-reachable) tree state whose leaf
map does not contain `k`, and a hash function that never returns the zero
digest, `update(k, v)` with `v ≠ 0` followed by `update(k, 0)` restores the
tree exactly: root, branch map and leaf map are all unchanged. -/
theorem delete_cancels_insert (f : HashFn) (hf : HashNonZero f) (s : TreeState)
    (L : Leaves) (hc : Canon f s L) (key v : Nat) (hkey : key < 2 ^ 256)
    (hfresh : L key = none) (hv : v ≠ 0) :
    update f (update f s key v) key 0 = s := by
  have h1 := update_canonical f hf s L hc key v hkey
  have h2 := update_canonical f hf _ _ h1 key 0 hkey
  have hmap : applyLeaf (applyLeaf L key v) key 0 = L := by
    funext k
    by_cases hk : k = key
    · subst hk
      simp [applyLeaf, insertLeaf, removeLeaf, hv, hfresh]
    · simp [applyLeaf, insertLeaf, removeLeaf, hv, hk]
  rw [hmap] at h2
  exact canon_unique f h2 hc

/-- Claim C5 witness: insert then delete a fresh key on the empty tree. -/
theorem delete_cancels_insert_witness :
    update exampleHash (update exampleHash emptyTree 5 7) 5 0 = emptyTree :=
  delete_cancels_insert exampleHash exampleHash_nonzero emptyTree (fun _ => none)
    (canon_empty exampleHash) 5 7 (by norm_num) rfl (by norm_num)

/-! ## Claim C2: `update_all` against sequential `update`

The `BranchKey` order and the `delta_tree` association list. -/

theorem bkLt_trans {a b c : Nat × Nat} (h1 : bkLt a b = true) (h2 : bkLt b c = true) :
    bkLt a c = true := by
  simp only [bkLt, Bool.or_eq_true, Bool.and_eq_true, decide_eq_true_eq] at *
  omega

theorem bkLt_total (a b : Nat × Nat) : bkLt a b = true ∨ a = b ∨ bkLt b a = true := by
  rcases a with ⟨a1, a2⟩
  rcases b with ⟨b1, b2⟩
  simp only [bkLt, Bool.or_eq_true, Bool.and_eq_true, decide_eq_true_eq, Prod.mk.injEq]
  omega

/-- `BTreeMap` read-after-write. -/
theorem deltaGet_deltaInsert (d : Delta) (k : Nat × Nat)
    (v : Option MergeValue × Option MergeValue) (k' : Nat × Nat) :
    deltaGet (deltaInsert d k v) k' = if k = k' then some v else deltaGet d k' := by
  induction d with
  | nil =>
    by_cases h : k = k' <;> simp [deltaInsert, deltaGet, h]
  | cons hd t ih =>
    obtain ⟨hk, hv⟩ := hd
    simp only [deltaInsert]
    by_cases hlt : bkLt k hk = true
    · rw [if_pos hlt]
      by_cases h : k = k' <;> simp [deltaGet, h]
    · rw [if_neg hlt]
      by_cases heq : hk = k
      · rw [if_pos heq]
        subst heq
        by_cases h : hk = k' <;> simp [deltaGet, h]
      · rw [if_neg heq]
        by_cases h : k = k'
        · subst h
          simp [deltaGet, heq, ih]
        · simp [deltaGet, ih, h]

theorem mem_deltaInsert {d : Delta} {k : Nat × Nat}
    {v : Option MergeValue × Option MergeValue}
    {x : (Nat × Nat) × (Option MergeValue × Option MergeValue)}
    (hx : x ∈ deltaInsert d k v) : x = (k, v) ∨ x ∈ d := by
  induction d with
  | nil =>
    simp only [deltaInsert] at hx
    exact Or.inl (List.mem_singleton.mp hx)
  | cons hd t ih =>
    obtain ⟨hk, hv⟩ := hd
    simp only [deltaInsert] at hx
    by_cases hlt : bkLt k hk = true
    · rw [if_pos hlt] at hx
      rcases List.mem_cons.mp hx with h | h
      · exact Or.inl h
      · exact Or.inr h
    · rw [if_neg hlt] at hx
      by_cases heq : hk = k
      · rw [if_pos heq] at hx
        rcases List.mem_cons.mp hx with h | h
        · exact Or.inl h
        · exact Or.inr (List.mem_cons_of_mem _ h)
      · rw [if_neg heq] at hx
        rcases List.mem_cons.mp hx with h | h
        · exact Or.inr (h ▸ List.mem_cons_self _ _)
        · rcases ih h with h1 | h2
          · exact Or.inl h1
          · exact Or.inr (List.mem_cons_of_mem _ h2)

/-- The `delta_tree` list is sorted by the `BranchKey` order (as a `BTreeMap`
iterates in ascending key order). -/
def DeltaSorted (d : Delta) : Prop :=
  d.Pairwise (fun a b => bkLt a.1 b.1 = true)

theorem deltaSorted_insert {d : Delta} (hd : DeltaSorted d) (k : Nat × Nat)
    (v : Option MergeValue × Option MergeValue) : DeltaSorted (deltaInsert d k v) := by
  induction d with
  | nil => simp [deltaInsert, DeltaSorted]
  | cons hdp t ih =>
    obtain ⟨hk, hv⟩ := hdp
    obtain ⟨hph, hpt⟩ := List.pairwise_cons.mp hd
    simp only [deltaInsert]
    by_cases hlt : bkLt k hk = true
    · rw [if_pos hlt]
      refine List.pairwise_cons.mpr ⟨?_, hd⟩
      intro b hb
      rcases List.mem_cons.mp hb with rfl | hbt
      · exact hlt
      · exact bkLt_trans hlt (hph b hbt)
    · rw [if_neg hlt]
      by_cases heq : hk = k
      · rw [if_pos heq]
        subst heq
        exact List.pairwise_cons.mpr ⟨fun b hb => hph b hb, hpt⟩
      · rw [if_neg heq]
        refine List.pairwise_cons.mpr ⟨?_, ih hpt⟩
        intro b hb
        rcases mem_deltaInsert hb with rfl | hbt
        · rcases bkLt_total k hk with h1 | h1 | h1
          · exact absurd h1 hlt
          · exact absurd h1.symm heq
          · exact h1
        · exact hph b hbt

theorem deltaGet_some_of_mem_fst {d : Delta} {kk : Nat × Nat}
    (h : kk ∈ d.map Prod.fst) : ∃ e, deltaGet d kk = some e := by
  induction d with
  | nil => simp at h
  | cons hd t ih =>
    obtain ⟨hk, hv⟩ := hd
    by_cases heq : hk = kk
    · exact ⟨hv, by simp [deltaGet, heq]⟩
    · have hkt : kk ∈ t.map Prod.fst := by
        rcases (by simpa using h : kk = hk ∨ kk ∈ t.map Prod.fst) with h1 | h1
        · exact absurd h1.symm heq
        · exact h1
      obtain ⟨e, he⟩ := ih hkt
      exact ⟨e, by simp [deltaGet, heq, he]⟩

theorem mem_fst_of_deltaGet_some {d : Delta} {kk : Nat × Nat}
    {e : Option MergeValue × Option MergeValue}
    (h : deltaGet d kk = some e) : kk ∈ d.map Prod.fst := by
  induction d with
  | nil => simp [deltaGet] at h
  | cons hd t ih =>
    obtain ⟨hk, hv⟩ := hd
    simp only [deltaGet] at h
    by_cases heq : hk = kk
    · simp [heq]
    · rw [if_neg heq] at h
      simp [ih h]

/-! Bit-path helpers for the batch proof. -/

theorem testBit_eq_of_copyBits_eq {h a b : Nat} (he : copyBits h a = copyBits h b)
    {g : Nat} (hg : h ≤ g) : a.testBit g = b.testBit g := by
  have h1 := testBit_copyBits h a g
  have h2 := testBit_copyBits h b g
  rw [if_pos hg] at h1 h2
  rw [← h1, ← h2, he]

theorem copyBits_eq_of_copyBits_eq {h a b : Nat} (he : copyBits h a = copyBits h b)
    {m : Nat} (hm : h ≤ m) : copyBits m a = copyBits m b := by
  rw [← copyBits_copyBits hm a, ← copyBits_copyBits hm b, he]

/-- The child prefix of branch `(g, pz)` on side `s` (`true` = right). -/
def childPfx (g pz : Nat) (s : Bool) : Nat := cond s (pz + 2 ^ g) pz

theorem childPfx_valid {g pz : Nat} (hval : pz % 2 ^ (g + 1) = 0) (s : Bool) :
    childPfx g pz s % 2 ^ g = 0 := by
  cases s
  · exact mod_pow_succ_zero hval
  · exact add_pow_mod_zero hval

theorem copyBits_childPfx {g pz : Nat} (hval : pz % 2 ^ (g + 1) = 0) (s : Bool) :
    copyBits (g + 1) (childPfx g pz s) = pz := by
  cases s
  · exact copyBits_of_mod_eq_zero hval
  · exact copyBits_succ_add_pow hval

theorem copyBits_parent_of_child {h k cp : Nat} (hc : copyBits h k = cp) :
    copyBits (h + 1) k = copyBits (h + 1) cp := by
  rw [← copyBits_copyBits (Nat.le_succ h) k, hc]

theorem copyBits_to_childPfx {g pz k : Nat} (hk : copyBits (g + 1) k = pz) :
    copyBits g k = childPfx g pz (k.testBit g) := by
  rw [copyBits_succ g k, hk]
  cases hb : k.testBit g <;> simp [childPfx]

theorem subNode_agree_out (f : HashFn) {L L' : Leaves} (h sp : Nat)
    (hsp : sp % 2 ^ h = 0)
    (hagree : ∀ x, copyBits h x = sp → L x = L' x) :
    subNode f L h sp = subNode f L' h sp := by
  apply subNode_congr
  intro j hj
  exact hagree _ ((copyBits_eq_iff hsp).2 ⟨Nat.le_add_right _ _, by omega⟩)

theorem canonBranch_agree_out (f : HashFn) {L L' : Leaves} (g pz : Nat)
    (hval : pz % 2 ^ (g + 1) = 0)
    (hagree : ∀ x, copyBits (g + 1) x = pz → L x = L' x) :
    canonBranch f L g pz = canonBranch f L' g pz := by
  have h1 : subNode f L g pz = subNode f L' g pz :=
    subNode_agree_out f g pz (mod_pow_succ_zero hval) (fun x hx =>
      hagree x (by rw [← copyBits_copyBits (Nat.le_succ g) x, hx,
        copyBits_of_mod_eq_zero hval]))
  have h2 : subNode f L g (pz + 2 ^ g) = subNode f L' g (pz + 2 ^ g) :=
    subNode_agree_out f g (pz + 2 ^ g) (add_pow_mod_zero hval) (fun x hx =>
      hagree x (by rw [← copyBits_copyBits (Nat.le_succ g) x, hx,
        copyBits_succ_add_pow hval]))
  unfold canonBranch
  dsimp only
  rw [h1, h2]

/-! The leaf-map effect of a batch, and last-write-wins deduplication
(modelled from the spec's words, for the refinement comparison). -/

/-- Sequentially applied leaf-map effect of a list of `(key, value)` pairs. -/
def applyLeaves (L : Leaves) (lvs : List (Nat × Nat)) : Leaves :=
  lvs.foldl (fun m kv => applyLeaf m kv.1 kv.2) L

theorem applyLeaves_agree (lvs : List (Nat × Nat)) :
    ∀ (L : Leaves) (x : Nat), x ∉ lvs.map Prod.fst → applyLeaves L lvs x = L x := by
  induction lvs with
  | nil => intro L x _; rfl
  | cons kv rest ih =>
    intro L x hx
    have hx1 : x ≠ kv.1 := by
      intro he; exact hx (by simp [he])
    have hx2 : x ∉ rest.map Prod.fst := fun h => hx (by simp [h])
    calc applyLeaves L (kv :: rest) x = applyLeaves (applyLeaf L kv.1 kv.2) rest x := rfl
      _ = applyLeaf L kv.1 kv.2 x := ih _ x hx2
      _ = L x := applyLeaf_agree L kv.1 kv.2 x hx1

/-- Modelled from the spec: keep only the last write for each key. -/
def dedupLastWins : List (Nat × Nat) → List (Nat × Nat)
  | [] => []
  | kv :: rest =>
    if kv.1 ∈ rest.map Prod.fst then dedupLastWins rest
    else kv :: dedupLastWins rest

theorem mem_dedupLastWins {lvs : List (Nat × Nat)} {x : Nat × Nat}
    (hx : x ∈ dedupLastWins lvs) : x ∈ lvs := by
  induction lvs with
  | nil => simp [dedupLastWins] at hx
  | cons kv rest ih =>
    simp only [dedupLastWins] at hx
    by_cases hm : kv.1 ∈ rest.map Prod.fst
    · rw [if_pos hm] at hx
      exact List.mem_cons_of_mem _ (ih hx)
    · rw [if_neg hm] at hx
      rcases List.mem_cons.mp hx with rfl | h
      · exact List.mem_cons_self _ _
      · exact List.mem_cons_of_mem _ (ih h)

theorem applyLeaves_of_mem_fst (rest : List (Nat × Nat)) :
    ∀ (k : Nat) (L1 L2 : Leaves), k ∈ rest.map Prod.fst →
      (∀ y, y ≠ k → L1 y = L2 y) →
      ∀ x, applyLeaves L1 rest x = applyLeaves L2 rest x := by
  induction rest with
  | nil => intro k L1 L2 h _ _; simp at h
  | cons ab t ih =>
    intro k L1 L2 hk hagree x
    by_cases hak : ab.1 = k
    · have hmaps : applyLeaf L1 ab.1 ab.2 = applyLeaf L2 ab.1 ab.2 := by
        funext y
        by_cases hy : y = ab.1
        · subst hy
          unfold applyLeaf
          by_cases hb : ab.2 = 0 <;> simp [insertLeaf, removeLeaf, hb]
        · rw [applyLeaf_agree _ _ _ _ hy, applyLeaf_agree _ _ _ _ hy]
          exact hagree y (hak ▸ hy)
      calc applyLeaves L1 (ab :: t) x = applyLeaves (applyLeaf L1 ab.1 ab.2) t x := rfl
        _ = applyLeaves (applyLeaf L2 ab.1 ab.2) t x := by rw [hmaps]
        _ = applyLeaves L2 (ab :: t) x := rfl
    · have hkt : k ∈ t.map Prod.fst := by
        rcases (by simpa using hk : k = ab.1 ∨ k ∈ t.map Prod.fst) with h1 | h1
        · exact absurd h1.symm hak
        · exact h1
      have hagree' : ∀ y, y ≠ k → applyLeaf L1 ab.1 ab.2 y = applyLeaf L2 ab.1 ab.2 y := by
        intro y hy
        by_cases hya : y = ab.1
        · subst hya
          unfold applyLeaf
          by_cases hb : ab.2 = 0 <;> simp [insertLeaf, removeLeaf, hb]
        · rw [applyLeaf_agree _ _ _ _ hya, applyLeaf_agree _ _ _ _ hya]
          exact hagree y hy
      exact ih k _ _ hkt hagree' x

/-- Last-write-wins deduplication does not change the leaf-map effect. -/
theorem applyLeaves_dedup (lvs : List (Nat × Nat)) :
    ∀ (L : Leaves) (x : Nat), applyLeaves L (dedupLastWins lvs) x = applyLeaves L lvs x := by
  induction lvs with
  | nil => intro L x; rfl
  | cons kv rest ih =>
    intro L x
    simp only [dedupLastWins]
    by_cases hm : kv.1 ∈ rest.map Prod.fst
    · rw [if_pos hm, ih L x]
      have hstep : applyLeaves L (kv :: rest) x
          = applyLeaves (applyLeaf L kv.1 kv.2) rest x := rfl
      rw [hstep]
      exact applyLeaves_of_mem_fst rest kv.1 L _ hm
        (fun y hy => (applyLeaf_agree L kv.1 kv.2 y hy).symm) x
    · rw [if_neg hm]
      calc applyLeaves L (kv :: dedupLastWins rest) x
          = applyLeaves (applyLeaf L kv.1 kv.2) (dedupLastWins rest) x := rfl
        _ = applyLeaves (applyLeaf L kv.1 kv.2) rest x := ih _ x
        _ = applyLeaves L (kv :: rest) x := rfl

/-! The content of the `delta_tree` after the first phase has walked the keys
`K` (in order), with `Lc` the leaf map after those writes: an entry exists
exactly at the path nodes of the walked keys; a side of an entry is `none`
when some walked key passes through that child (at height 0 it holds the
leaf value instead), and otherwise holds the stored child, which on a
canonical store is the subtree value. -/

/-- The slot of side `s` of delta entry `(g, pz)` after walking the keys `K`. -/
def slotSpec (f : HashFn) (Lc : Leaves) (K : List Nat) (g pz : Nat) (s : Bool) :
    Option MergeValue :=
  if 0 < g ∧ ∃ k ∈ K, copyBits g k = childPfx g pz s then none
  else some (subNode f Lc g (childPfx g pz s))

/-- The delta entry at `(g, pz)` after walking the keys `K`. -/
def entrySpec (f : HashFn) (Lc : Leaves) (K : List Nat) (g pz : Nat) :
    Option (Option MergeValue × Option MergeValue) :=
  if g < 256 ∧ ∃ k ∈ K, copyBits (g + 1) k = pz then
    some (slotSpec f Lc K g pz false, slotSpec f Lc K g pz true)
  else none

/-- The whole delta tree agrees with the entry description. -/
def DeltaSpec (f : HashFn) (Lc : Leaves) (K : List Nat) (d : Delta) : Prop :=
  ∀ g pz, deltaGet d (g, pz) = entrySpec f Lc K g pz

theorem slotSpec_covered (f : HashFn) (Lc : Leaves) (K : List Nat) (g pz : Nat)
    (s : Bool) (hc : 0 < g ∧ ∃ k ∈ K, copyBits g k = childPfx g pz s) :
    slotSpec f Lc K g pz s = none := by
  unfold slotSpec
  exact if_pos hc

theorem slotSpec_open (f : HashFn) (Lc : Leaves) (K : List Nat) (g pz : Nat)
    (s : Bool) (hnc : ¬(0 < g ∧ ∃ k ∈ K, copyBits g k = childPfx g pz s)) :
    slotSpec f Lc K g pz s = some (subNode f Lc g (childPfx g pz s)) := by
  unfold slotSpec
  exact if_neg hnc

theorem entrySpec_eval (f : HashFn) (Lc : Leaves) (K : List Nat) (h pz : Nat)
    (hdom : h < 256 ∧ ∃ k1 ∈ K, copyBits (h + 1) k1 = pz)
    (aL aR : Option MergeValue)
    (hL : aL = slotSpec f Lc K h pz false)
    (hR : aR = slotSpec f Lc K h pz true) :
    entrySpec f Lc K h pz = some (aL, aR) := by
  unfold entrySpec
  rw [if_pos hdom, hL, hR]

theorem childPfx_ne (g pz : Nat) : childPfx g pz false ≠ childPfx g pz true := by
  intro he
  have h2 : 0 < 2 ^ g := Nat.pos_pow_of_pos g (by norm_num)
  have he' : pz = pz + 2 ^ g := he
  omega

/-- Sliding one more key into the walked set does not change an entry, as
long as the new key's coverage is already implied by the old keys. -/
theorem entrySpec_stable (f : HashFn) (Lc : Leaves) (K : List Nat) (k v : Nat)
    (g pz : Nat)
    (hdomk : copyBits (g + 1) k = pz → ∃ k' ∈ K, copyBits (g + 1) k' = pz)
    (hcovk : pz % 2 ^ (g + 1) = 0 → ∀ s : Bool, copyBits g k = childPfx g pz s →
      0 < g ∧ ∃ k' ∈ K, copyBits g k' = childPfx g pz s) :
    entrySpec f Lc K g pz = entrySpec f (applyLeaf Lc k v) (K ++ [k]) g pz := by
  unfold entrySpec
  by_cases hdom : g < 256 ∧ ∃ k' ∈ K, copyBits (g + 1) k' = pz
  · obtain ⟨hg256, k0, hk0K, hk0⟩ := hdom
    have hval : pz % 2 ^ (g + 1) = 0 := by rw [← hk0]; exact copyBits_mod _ _
    rw [if_pos ⟨hg256, k0, hk0K, hk0⟩,
      if_pos ⟨hg256, k0, List.mem_append_left _ hk0K, hk0⟩]
    have hslot : ∀ s : Bool,
        slotSpec f Lc K g pz s = slotSpec f (applyLeaf Lc k v) (K ++ [k]) g pz s := by
      intro s
      unfold slotSpec
      by_cases hcov : 0 < g ∧ ∃ k' ∈ K, copyBits g k' = childPfx g pz s
      · obtain ⟨hg, k1, hk1K, hk1⟩ := hcov
        rw [if_pos ⟨hg, k1, hk1K, hk1⟩,
          if_pos ⟨hg, k1, List.mem_append_left _ hk1K, hk1⟩]
      · have hcov' : ¬(0 < g ∧ ∃ k' ∈ K ++ [k], copyBits g k' = childPfx g pz s) := by
          rintro ⟨hg, k1, hk1m, hk1⟩
          rcases List.mem_append.mp hk1m with h1 | h1
          · exact hcov ⟨hg, k1, h1, hk1⟩
          · have hk1k : k1 = k := List.mem_singleton.mp h1
            subst hk1k
            exact hcov (hcovk hval s hk1)
        rw [if_neg hcov, if_neg hcov']
        have hagree : subNode f Lc g (childPfx g pz s)
            = subNode f (applyLeaf Lc k v) g (childPfx g pz s) := by
          apply subNode_agree_out f g _ (childPfx_valid hval s)
          intro x hx
          have hxk : x ≠ k := by
            rintro rfl
            exact hcov (hcovk hval s hx)
          exact (applyLeaf_agree Lc k v x hxk).symm
        rw [hagree]
    rw [hslot false, hslot true]
  · have hdom' : ¬(g < 256 ∧ ∃ k' ∈ K ++ [k], copyBits (g + 1) k' = pz) := by
      rintro ⟨hg256, k1, hk1m, hk1⟩
      rcases List.mem_append.mp hk1m with h1 | h1
      · exact hdom ⟨hg256, k1, h1, hk1⟩
      · have hk1k : k1 = k := List.mem_singleton.mp h1
        subst hk1k
        exact hdom ⟨hg256, hdomk hk1⟩
    rw [if_neg hdom, if_neg hdom']

/-- Entries off the walked key's path are unchanged by the walk. -/
theorem entrySpec_stable_off (f : HashFn) (Lc : Leaves) (K : List Nat) (k v : Nat)
    (g pz : Nat) (hne : pz ≠ copyBits (g + 1) k) :
    entrySpec f Lc K g pz = entrySpec f (applyLeaf Lc k v) (K ++ [k]) g pz :=
  entrySpec_stable f Lc K k v g pz
    (fun hcb => absurd hcb.symm hne)
    (fun hval s hcp =>
      absurd ((copyBits_parent_of_child hcp).trans (copyBits_childPfx hval s)).symm hne)

/-- One step of the walk's height loop: inserting the correct entry for the
current path node moves the boundary of the invariant up by one height. -/
theorem walkInv_step (f : HashFn) (Lc : Leaves) (K : List Nat) (k v : Nat)
    (h : Nat) (d : Delta)
    (hinv : ∀ g pz, deltaGet d (g, pz) =
      if h ≤ g ∧ pz = copyBits (g + 1) k then entrySpec f Lc K g pz
      else entrySpec f (applyLeaf Lc k v) (K ++ [k]) g pz)
    (nv : Option MergeValue × Option MergeValue)
    (hnv : entrySpec f (applyLeaf Lc k v) (K ++ [k]) h (copyBits (h + 1) k) = some nv) :
    ∀ g pz, deltaGet (deltaInsert d (h, copyBits (h + 1) k) nv) (g, pz) =
      if h + 1 ≤ g ∧ pz = copyBits (g + 1) k then entrySpec f Lc K g pz
      else entrySpec f (applyLeaf Lc k v) (K ++ [k]) g pz := by
  intro g pz
  rw [deltaGet_deltaInsert]
  by_cases hgp : (h, copyBits (h + 1) k) = ((g, pz) : Nat × Nat)
  · rw [if_pos hgp]
    have hg1 : h = g := congrArg Prod.fst hgp
    have hg2 : copyBits (h + 1) k = pz := congrArg Prod.snd hgp
    subst hg1
    rw [if_neg (fun hcc => absurd hcc.1 (by omega))]
    rw [← hg2, hnv]
  · rw [if_neg hgp, hinv g pz]
    by_cases hc1 : h ≤ g ∧ pz = copyBits (g + 1) k
    · obtain ⟨hcg, hcp⟩ := hc1
      by_cases hg : h + 1 ≤ g
      · rw [if_pos ⟨hcg, hcp⟩, if_pos ⟨hg, hcp⟩]
      · exfalso
        apply hgp
        have hgh : g = h := by omega
        subst hgh
        rw [hcp]
    · rw [if_neg hc1, if_neg (fun hcc => hc1 ⟨Nat.le_of_succ_le hcc.1, hcc.2⟩)]

/-- After a `break`, the remaining path entries already describe the walked
set extended with the new key: an earlier key shares the path above the
break height. -/
theorem break_spec (f : HashFn) (Lc : Leaves) (K : List Nat) (k v : Nat)
    (h : Nat) (hpos : 0 < h) (k1 : Nat) (hk1 : k1 ∈ K)
    (hshare : copyBits h k1 = copyBits h k) (d : Delta)
    (hinv : ∀ g pz, deltaGet d (g, pz) =
      if h ≤ g ∧ pz = copyBits (g + 1) k then entrySpec f Lc K g pz
      else entrySpec f (applyLeaf Lc k v) (K ++ [k]) g pz) :
    DeltaSpec f (applyLeaf Lc k v) (K ++ [k]) d := by
  unfold DeltaSpec
  intro g pz
  rw [hinv g pz]
  by_cases hc : h ≤ g ∧ pz = copyBits (g + 1) k
  · rw [if_pos hc]
    exact entrySpec_stable f Lc K k v g pz
      (fun hcb => ⟨k1, hk1,
        (copyBits_eq_of_copyBits_eq hshare (Nat.le_succ_of_le hc.1)).trans hcb⟩)
      (fun _ s hcp => ⟨Nat.lt_of_lt_of_le hpos hc.1,
        k1, hk1, (copyBits_eq_of_copyBits_eq hshare hc.1).trans hcp⟩)
  · rw [if_neg hc]

/-- The leaf slot written by the walk at height 0 is the subtree value of the
new leaf map at the key. -/
theorem subNode_applyLeaf_self (f : HashFn) (Lc : Leaves) (k v : Nat) :
    subNode f (applyLeaf Lc k v) 0 k = MergeValue.Value v := by
  by_cases hv : v = 0 <;>
    simp [subNode, applyLeaf, insertLeaf, removeLeaf, hv]

/-- The walk of a single leaf in the first phase of `update_all`: starting
from a delta whose entries at heights below `h` (and off the key's path)
already describe the walked keys extended with the new key, and whose
remaining path entries describe the previously walked keys, the walk
produces a delta describing the extended key set. -/
theorem deltaWalk_spec (f : HashFn) (hf : HashNonZero f) (L : Leaves) (br : Branches)
    (hbrA : ∀ h pk, h < 256 → pk % 2 ^ (h + 1) = 0 → pk < 2 ^ 256 →
      br h pk = canonBranch f L h pk)
    (Lc : Leaves) (K : List Nat) (k v : Nat) (hk : k < 2 ^ 256)
    (hLcL : ∀ x, x ∉ K → Lc x = L x) :
    ∀ (fuel h : Nat), fuel + h = 256 →
      ∀ d : Delta,
        (∀ g pz, deltaGet d (g, pz) =
          if h ≤ g ∧ pz = copyBits (g + 1) k then entrySpec f Lc K g pz
          else entrySpec f (applyLeaf Lc k v) (K ++ [k]) g pz) →
        DeltaSpec f (applyLeaf Lc k v) (K ++ [k])
          (deltaWalk br (MergeValue.Value v) fuel h (copyBits h k) d) := by
  intro fuel
  induction fuel with
  | zero =>
    intro h hfh d hinv
    unfold DeltaSpec
    intro g pz
    simp only [deltaWalk]
    rw [hinv g pz]
    by_cases hc : h ≤ g ∧ pz = copyBits (g + 1) k
    · obtain ⟨hc1, hc2⟩ := hc
      rw [if_pos ⟨hc1, hc2⟩]
      unfold entrySpec
      rw [if_neg (fun hcc => absurd hcc.1 (by omega)),
        if_neg (fun hcc => absurd hcc.1 (by omega))]
    · rw [if_neg hc]
  | succ fu ih =>
    intro h hfh d hinv
    have hh255 : h ≤ 255 := by omega
    have hlt2 : h < 256 := by omega
    have hvalh : copyBits (h + 1) k % 2 ^ (h + 1) = 0 := copyBits_mod _ _
    have hltk : copyBits (h + 1) k < 2 ^ 256 := copyBits_lt_two_pow _ hk
    have hown : copyBits h k = childPfx h (copyBits (h + 1) k) (k.testBit h) :=
      copyBits_to_childPfx rfl
    have hmemk : k ∈ K ++ [k] := List.mem_append_right _ (List.mem_singleton_self k)
    have hgetd : deltaGet d (h, copyBits (h + 1) k)
        = entrySpec f Lc K h (copyBits (h + 1) k) := by
      rw [hinv]
      exact if_pos ⟨le_refl h, rfl⟩
    have hS : ∀ nv,
        entrySpec f (applyLeaf Lc k v) (K ++ [k]) h (copyBits (h + 1) k) = some nv →
        DeltaSpec f (applyLeaf Lc k v) (K ++ [k])
          (deltaWalk br (MergeValue.Value v) fu (h + 1) (copyBits (h + 1) k)
            (deltaInsert d (h, copyBits (h + 1) k) nv)) := by
      intro nv hnv
      exact ih (h + 1) (by omega) _ (walkInv_step f Lc K k v h d hinv nv hnv)
    simp only [deltaWalk]
    rw [parentPath_copyBits hh255 hk]
    have hisr : isRight (copyBits h k) h = k.testBit h := by
      unfold isRight getBit
      rw [testBit_copyBits, if_pos (le_refl h)]
    rw [hisr]
    by_cases hdom : ∃ k1 ∈ K, copyBits (h + 1) k1 = copyBits (h + 1) k
    · -- an earlier key passes through this path node: the entry exists
      obtain ⟨k1, hk1K, hk1⟩ := hdom
      have hsome : deltaGet d (h, copyBits (h + 1) k)
          = some (slotSpec f Lc K h (copyBits (h + 1) k) false,
              slotSpec f Lc K h (copyBits (h + 1) k) true) := by
        rw [hgetd]
        unfold entrySpec
        rw [if_pos ⟨hlt2, k1, hk1K, hk1⟩]
      rw [hsome]
      dsimp only
      by_cases hh0 : h = 0
      · subst hh0
        rw [if_pos rfl]
        rw [copyBits_zero] at hown
        have hsib0 : ∀ s : Bool, k ≠ childPfx 0 (copyBits (0 + 1) k) s →
            subNode f Lc 0 (childPfx 0 (copyBits (0 + 1) k) s)
              = subNode f (applyLeaf Lc k v) 0 (childPfx 0 (copyBits (0 + 1) k) s) := by
          intro s hks
          apply subNode_agree_out f 0 _ (childPfx_valid hvalh s)
          intro x hx
          rw [copyBits_zero] at hx
          have hxk : x ≠ k := by
            rintro rfl
            exact hks hx
          exact (applyLeaf_agree Lc k v x hxk).symm
        cases htb : k.testBit 0
        · rw [htb] at hown
          rw [if_neg Bool.false_ne_true]
          apply hS
          apply entrySpec_eval f _ _ 0 _ ⟨by omega, k, hmemk, rfl⟩
          · rw [slotSpec_open f _ _ 0 _ false (fun hcc => absurd hcc.1 (Nat.lt_irrefl 0))]
            rw [← hown, subNode_applyLeaf_self]
          · rw [slotSpec_open f _ _ 0 _ true (fun hcc => absurd hcc.1 (Nat.lt_irrefl 0)),
              slotSpec_open f _ _ 0 _ true (fun hcc => absurd hcc.1 (Nat.lt_irrefl 0))]
            rw [hsib0 true (fun he => childPfx_ne _ _ (hown.symm.trans he))]
        · rw [htb] at hown
          rw [if_pos rfl]
          apply hS
          apply entrySpec_eval f _ _ 0 _ ⟨by omega, k, hmemk, rfl⟩
          · rw [slotSpec_open f _ _ 0 _ false (fun hcc => absurd hcc.1 (Nat.lt_irrefl 0)),
              slotSpec_open f _ _ 0 _ false (fun hcc => absurd hcc.1 (Nat.lt_irrefl 0))]
            rw [hsib0 false (fun he => childPfx_ne _ _ (he.symm.trans hown))]
          · rw [slotSpec_open f _ _ 0 _ true (fun hcc => absurd hcc.1 (Nat.lt_irrefl 0))]
            rw [← hown, subNode_applyLeaf_self]
      · rw [if_neg hh0]
        have hpos : 0 < h := Nat.pos_of_ne_zero hh0
        by_cases hcl : ∃ k2 ∈ K, copyBits h k2 = childPfx h (copyBits (h + 1) k) false
        · by_cases hcr : ∃ k2 ∈ K, copyBits h k2 = childPfx h (copyBits (h + 1) k) true
          · rw [slotSpec_covered f _ _ h _ false ⟨hpos, hcl⟩,
              slotSpec_covered f _ _ h _ true ⟨hpos, hcr⟩]
            cases htb : k.testBit h
            · rw [htb] at hown
              dsimp only
              obtain ⟨k2, hk2K, hk2⟩ := hcl
              exact break_spec f Lc K k v h hpos k2 hk2K (hk2.trans hown.symm) d hinv
            · rw [htb] at hown
              dsimp only
              obtain ⟨k2, hk2K, hk2⟩ := hcr
              exact break_spec f Lc K k v h hpos k2 hk2K (hk2.trans hown.symm) d hinv
          · rw [slotSpec_covered f _ _ h _ false ⟨hpos, hcl⟩,
              slotSpec_open f _ _ h _ true (fun hcc => hcr hcc.2)]
            cases htb : k.testBit h
            · rw [htb] at hown
              dsimp only
              obtain ⟨k2, hk2K, hk2⟩ := hcl
              exact break_spec f Lc K k v h hpos k2 hk2K (hk2.trans hown.symm) d hinv
            · rw [htb] at hown
              dsimp only
              apply hS
              apply entrySpec_eval f _ _ h _ ⟨hlt2, k, hmemk, rfl⟩
              · obtain ⟨k2, hk2K, hk2⟩ := hcl
                rw [slotSpec_covered f _ _ h _ false
                  ⟨hpos, k2, List.mem_append_left _ hk2K, hk2⟩]
              · rw [slotSpec_covered f _ _ h _ true ⟨hpos, k, hmemk, hown⟩]
        · by_cases hcr : ∃ k2 ∈ K, copyBits h k2 = childPfx h (copyBits (h + 1) k) true
          · rw [slotSpec_open f _ _ h _ false (fun hcc => hcl hcc.2),
              slotSpec_covered f _ _ h _ true ⟨hpos, hcr⟩]
            cases htb : k.testBit h
            · rw [htb] at hown
              dsimp only
              apply hS
              apply entrySpec_eval f _ _ h _ ⟨hlt2, k, hmemk, rfl⟩
              · rw [slotSpec_covered f _ _ h _ false ⟨hpos, k, hmemk, hown⟩]
              · obtain ⟨k2, hk2K, hk2⟩ := hcr
                rw [slotSpec_covered f _ _ h _ true
                  ⟨hpos, k2, List.mem_append_left _ hk2K, hk2⟩]
            · rw [htb] at hown
              dsimp only
              obtain ⟨k2, hk2K, hk2⟩ := hcr
              exact break_spec f Lc K k v h hpos k2 hk2K (hk2.trans hown.symm) d hinv
          · exfalso
            have hk1c : copyBits h k1 = childPfx h (copyBits (h + 1) k) (k1.testBit h) :=
              copyBits_to_childPfx hk1
            cases h1 : k1.testBit h
            · rw [h1] at hk1c
              exact hcl ⟨k1, hk1K, hk1c⟩
            · rw [h1] at hk1c
              exact hcr ⟨k1, hk1K, hk1c⟩
    · -- no earlier key passes through this path node: a fresh entry is made
      have hnone : deltaGet d (h, copyBits (h + 1) k) = none := by
        rw [hgetd]
        unfold entrySpec
        exact if_neg (fun hcc => hdom hcc.2)
      rw [hnone]
      dsimp only
      have hnoK : ∀ s : Bool, ∀ k2 ∈ K,
          copyBits h k2 ≠ childPfx h (copyBits (h + 1) k) s := by
        intro s k2 hk2 hcp
        exact hdom ⟨k2, hk2,
          (copyBits_parent_of_child hcp).trans (copyBits_childPfx hvalh s)⟩
      have hsib : ∀ s : Bool, copyBits h k ≠ childPfx h (copyBits (h + 1) k) s →
          subNode f (applyLeaf Lc k v) h (childPfx h (copyBits (h + 1) k) s)
            = subNode f L h (childPfx h (copyBits (h + 1) k) s) := by
        intro s hks
        apply subNode_agree_out f h _ (childPfx_valid hvalh s)
        intro x hx
        have hxk : x ≠ k := by
          rintro rfl
          exact hks hx
        have hxK : x ∉ K := fun hmem => hnoK s x hmem hx
        rw [applyLeaf_agree Lc k v x hxk]
        exact hLcL x hxK
      have hopenK' : ∀ s : Bool, copyBits h k ≠ childPfx h (copyBits (h + 1) k) s →
          ¬(0 < h ∧ ∃ k2 ∈ K ++ [k],
            copyBits h k2 = childPfx h (copyBits (h + 1) k) s) := by
        rintro s hks ⟨_, k2, hk2m, hk2⟩
        rcases List.mem_append.mp hk2m with h1 | h1
        · exact hnoK s k2 h1 hk2
        · have hk2k : k2 = k := List.mem_singleton.mp h1
          subst hk2k
          exact hks hk2
      rw [hbrA h _ hlt2 hvalh hltk]
      simp only [canonBranch]
      by_cases hzb : ((subNode f L h (copyBits (h + 1) k)).isZero
          && (subNode f L h (copyBits (h + 1) k + 2 ^ h)).isZero) = true
      · rw [if_pos hzb]
        rw [Bool.and_eq_true] at hzb
        have hzzL : subNode f L h (childPfx h (copyBits (h + 1) k) false)
            = MergeValue.Value 0 := subNode_isZero_eq f hf L h _ hzb.1
        have hzzR : subNode f L h (childPfx h (copyBits (h + 1) k) true)
            = MergeValue.Value 0 := subNode_isZero_eq f hf L h _ hzb.2
        dsimp only
        by_cases hh0 : h = 0
        · subst hh0
          rw [if_pos rfl]
          rw [copyBits_zero] at hown
          cases htb : k.testBit 0
          · rw [htb] at hown
            rw [if_neg Bool.false_ne_true]
            apply hS
            apply entrySpec_eval f _ _ 0 _ ⟨by omega, k, hmemk, rfl⟩
            · rw [slotSpec_open f _ _ 0 _ false (fun hcc => absurd hcc.1 (Nat.lt_irrefl 0))]
              rw [← hown, subNode_applyLeaf_self]
            · rw [slotSpec_open f _ _ 0 _ true (fun hcc => absurd hcc.1 (Nat.lt_irrefl 0))]
              rw [hsib true (by
                rw [copyBits_zero]
                exact fun he => childPfx_ne _ _ (hown.symm.trans he)), hzzR]
              rfl
          · rw [htb] at hown
            rw [if_pos rfl]
            apply hS
            apply entrySpec_eval f _ _ 0 _ ⟨by omega, k, hmemk, rfl⟩
            · rw [slotSpec_open f _ _ 0 _ false (fun hcc => absurd hcc.1 (Nat.lt_irrefl 0))]
              rw [hsib false (by
                rw [copyBits_zero]
                exact fun he => childPfx_ne _ _ (he.symm.trans hown)), hzzL]
              rfl
            · rw [slotSpec_open f _ _ 0 _ true (fun hcc => absurd hcc.1 (Nat.lt_irrefl 0))]
              rw [← hown, subNode_applyLeaf_self]
        · rw [if_neg hh0]
          have hpos : 0 < h := Nat.pos_of_ne_zero hh0
          cases htb : k.testBit h
          · rw [htb] at hown
            rw [if_neg Bool.false_ne_true]
            apply hS
            apply entrySpec_eval f _ _ h _ ⟨hlt2, k, hmemk, rfl⟩
            · rw [slotSpec_covered f _ _ h _ false ⟨hpos, k, hmemk, hown⟩]
            · have hne : copyBits h k ≠ childPfx h (copyBits (h + 1) k) true := by
                rw [hown]
                exact childPfx_ne _ _
              rw [slotSpec_open f _ _ h _ true (hopenK' true hne)]
              rw [hsib true hne, hzzR]
              rfl
          · rw [htb] at hown
            rw [if_pos rfl]
            apply hS
            apply entrySpec_eval f _ _ h _ ⟨hlt2, k, hmemk, rfl⟩
            · have hne : copyBits h k ≠ childPfx h (copyBits (h + 1) k) false := by
                rw [hown]
                exact (childPfx_ne _ _).symm
              rw [slotSpec_open f _ _ h _ false (hopenK' false hne)]
              rw [hsib false hne, hzzL]
              rfl
            · rw [slotSpec_covered f _ _ h _ true ⟨hpos, k, hmemk, hown⟩]
      · rw [if_neg hzb]
        dsimp only
        by_cases hh0 : h = 0
        · subst hh0
          rw [if_pos rfl]
          rw [copyBits_zero] at hown
          cases htb : k.testBit 0
          · rw [htb] at hown
            rw [if_neg Bool.false_ne_true]
            apply hS
            apply entrySpec_eval f _ _ 0 _ ⟨by omega, k, hmemk, rfl⟩
            · rw [slotSpec_open f _ _ 0 _ false (fun hcc => absurd hcc.1 (Nat.lt_irrefl 0))]
              rw [← hown, subNode_applyLeaf_self]
            · rw [slotSpec_open f _ _ 0 _ true (fun hcc => absurd hcc.1 (Nat.lt_irrefl 0))]
              rw [hsib true (by
                rw [copyBits_zero]
                exact fun he => childPfx_ne _ _ (hown.symm.trans he))]
              rfl
          · rw [htb] at hown
            rw [if_pos rfl]
            apply hS
            apply entrySpec_eval f _ _ 0 _ ⟨by omega, k, hmemk, rfl⟩
            · rw [slotSpec_open f _ _ 0 _ false (fun hcc => absurd hcc.1 (Nat.lt_irrefl 0))]
              rw [hsib false (by
                rw [copyBits_zero]
                exact fun he => childPfx_ne _ _ (he.symm.trans hown))]
              rfl
            · rw [slotSpec_open f _ _ 0 _ true (fun hcc => absurd hcc.1 (Nat.lt_irrefl 0))]
              rw [← hown, subNode_applyLeaf_self]
        · rw [if_neg hh0]
          have hpos : 0 < h := Nat.pos_of_ne_zero hh0
          cases htb : k.testBit h
          · rw [htb] at hown
            rw [if_neg Bool.false_ne_true]
            apply hS
            apply entrySpec_eval f _ _ h _ ⟨hlt2, k, hmemk, rfl⟩
            · rw [slotSpec_covered f _ _ h _ false ⟨hpos, k, hmemk, hown⟩]
            · have hne : copyBits h k ≠ childPfx h (copyBits (h + 1) k) true := by
                rw [hown]
                exact childPfx_ne _ _
              rw [slotSpec_open f _ _ h _ true (hopenK' true hne)]
              rw [hsib true hne]
              rfl
          · rw [htb] at hown
            rw [if_pos rfl]
            apply hS
            apply entrySpec_eval f _ _ h _ ⟨hlt2, k, hmemk, rfl⟩
            · have hne : copyBits h k ≠ childPfx h (copyBits (h + 1) k) false := by
                rw [hown]
                exact (childPfx_ne _ _).symm
              rw [slotSpec_open f _ _ h _ false (hopenK' false hne)]
              rw [hsib false hne]
              rfl
            · rw [slotSpec_covered f _ _ h _ true ⟨hpos, k, hmemk, hown⟩]

/-- The walk only inserts, so it keeps the delta sorted. -/
theorem deltaSorted_walk (br : Branches) (nd : MergeValue) :
    ∀ (fuel h ck : Nat) (d : Delta), DeltaSorted d →
      DeltaSorted (deltaWalk br nd fuel h ck d) := by
  intro fuel
  induction fuel with
  | zero =>
    intro h ck d hd
    simpa [deltaWalk] using hd
  | succ fu ih =>
    intro h ck d hd
    simp only [deltaWalk]
    split
    · split
      · exact ih _ _ _ (deltaSorted_insert hd _ _)
      · split
        all_goals first
          | exact hd
          | exact ih _ _ _ (deltaSorted_insert hd _ _)
    · exact ih _ _ _ (deltaSorted_insert hd _ _)

/-- The first phase of `update_all`: walking the batch keys into the delta
in order produces exactly the delta described by `entrySpec` for the final
leaf map and the batch's key list. -/
theorem buildDelta_spec (f : HashFn) (hf : HashNonZero f) (L : Leaves) (br : Branches)
    (hbrA : ∀ h pk, h < 256 → pk % 2 ^ (h + 1) = 0 → pk < 2 ^ 256 →
      br h pk = canonBranch f L h pk) :
    ∀ (lvs : List (Nat × Nat)) (Lc : Leaves) (K : List Nat) (d : Delta),
      (∀ kv ∈ lvs, kv.1 < 2 ^ 256) →
      (∀ x, x ∉ K → Lc x = L x) →
      DeltaSpec f Lc K d →
      DeltaSorted d →
      DeltaSpec f (buildDelta br lvs Lc d).1 (K ++ lvs.map Prod.fst)
          (buildDelta br lvs Lc d).2
        ∧ (∀ x, x ∉ K ++ lvs.map Prod.fst → (buildDelta br lvs Lc d).1 x = L x)
        ∧ (buildDelta br lvs Lc d).1 = applyLeaves Lc lvs
        ∧ DeltaSorted (buildDelta br lvs Lc d).2 := by
  intro lvs
  induction lvs with
  | nil =>
    intro Lc K d _ hLc hD hsort
    refine ⟨?_, ?_, rfl, hsort⟩
    · simp only [buildDelta, List.map_nil, List.append_nil]
      exact hD
    · intro x hx
      simp only [buildDelta]
      refine hLc x (fun hmem => hx ?_)
      simpa using hmem
  | cons kv rest ih =>
    intro Lc K d hkeys hLc hD hsort
    obtain ⟨k, v⟩ := kv
    have hk : k < 2 ^ 256 := hkeys (k, v) (List.mem_cons_self _ _)
    simp only [buildDelta, List.map_cons]
    have hlv : (if !(MergeValue.Value v).isZero then insertLeaf Lc k v
        else removeLeaf Lc k) = applyLeaf Lc k v := by
      by_cases hv : v = 0 <;> simp [MergeValue.isZero, applyLeaf, hv]
    rw [hlv]
    have hinv0 : ∀ g pz, deltaGet d (g, pz) =
        if 0 ≤ g ∧ pz = copyBits (g + 1) k then entrySpec f Lc K g pz
        else entrySpec f (applyLeaf Lc k v) (K ++ [k]) g pz := by
      intro g pz
      rw [hD g pz]
      by_cases hc : 0 ≤ g ∧ pz = copyBits (g + 1) k
      · rw [if_pos hc]
      · rw [if_neg hc]
        exact entrySpec_stable_off f Lc K k v g pz (fun he => hc ⟨Nat.zero_le g, he⟩)
    have hwalk0 := deltaWalk_spec f hf L br hbrA Lc K k v hk hLc 256 0 (by omega) d hinv0
    rw [copyBits_zero] at hwalk0
    have hLc' : ∀ x, x ∉ K ++ [k] → applyLeaf Lc k v x = L x := by
      intro x hx
      have hx1 : x ∉ K := fun h1 => hx (List.mem_append_left _ h1)
      have hx2 : x ≠ k := fun h1 => hx (List.mem_append_right _ (by simp [h1]))
      rw [applyLeaf_agree Lc k v x hx2]
      exact hLc x hx1
    have hsort' : DeltaSorted (deltaWalk br (MergeValue.Value v) 256 0 k d) :=
      deltaSorted_walk br _ 256 0 k d hsort
    have hrest := ih (applyLeaf Lc k v) (K ++ [k]) _
      (fun kv2 hm => hkeys kv2 (List.mem_cons_of_mem _ hm)) hLc' hwalk0 hsort'
    have hassoc : (K ++ [k]) ++ rest.map Prod.fst = K ++ (k :: rest.map Prod.fst) := by
      simp
    refine ⟨?_, ?_, hrest.2.2.1, hrest.2.2.2⟩
    · have h1 := hrest.1
      rwa [hassoc] at h1
    · intro x hx
      apply hrest.2.1
      rw [hassoc]
      exact hx

/-! The second phase: the delta entries evolve as processed children are
merged into their parents; `doneL` is the list of already-processed keys. -/

/-- The slot of side `s` of entry `(g, pz)` during the second phase: a side
whose child node exists but has not been processed yet is still `none`;
otherwise the side holds the final subtree value. -/
def slotSpecDone (f : HashFn) (Lf : Leaves) (Kall : List Nat)
    (doneL : List (Nat × Nat)) (g pz : Nat) (s : Bool) : Option MergeValue :=
  if 0 < g ∧ (∃ k ∈ Kall, copyBits g k = childPfx g pz s)
      ∧ ((g - 1, childPfx g pz s) : Nat × Nat) ∉ doneL then none
  else some (subNode f Lf g (childPfx g pz s))

/-- The delta entry at `(g, pz)` during the second phase. -/
def entrySpecDone (f : HashFn) (Lf : Leaves) (Kall : List Nat)
    (doneL : List (Nat × Nat)) (g pz : Nat) :
    Option (Option MergeValue × Option MergeValue) :=
  if g < 256 ∧ ∃ k ∈ Kall, copyBits (g + 1) k = pz then
    some (slotSpecDone f Lf Kall doneL g pz false,
      slotSpecDone f Lf Kall doneL g pz true)
  else none

/-- Before any key is processed the phase-two description coincides with the
phase-one one. -/
theorem entrySpecDone_nil (f : HashFn) (Lf : Leaves) (Kall : List Nat)
    (g pz : Nat) :
    entrySpecDone f Lf Kall [] g pz = entrySpec f Lf Kall g pz := by
  unfold entrySpecDone entrySpec
  by_cases hdom : g < 256 ∧ ∃ k ∈ Kall, copyBits (g + 1) k = pz
  · rw [if_pos hdom, if_pos hdom]
    have hs : ∀ s : Bool,
        slotSpecDone f Lf Kall [] g pz s = slotSpec f Lf Kall g pz s := by
      intro s
      unfold slotSpecDone slotSpec
      by_cases hc : 0 < g ∧ ∃ k ∈ Kall, copyBits g k = childPfx g pz s
      · rw [if_pos ⟨hc.1, hc.2, List.not_mem_nil _⟩, if_pos hc]
      · rw [if_neg (fun hcc => hc ⟨hcc.1, hcc.2.1⟩), if_neg hc]
    rw [hs false, hs true]
  · rw [if_neg hdom, if_neg hdom]

/-- Marking a key done changes only the entry of its parent. -/
theorem entrySpecDone_extend (f : HashFn) (Lf : Leaves) (Kall : List Nat)
    (doneL : List (Nat × Nat)) (hh cc : Nat) (g pz : Nat)
    (hno : g = hh + 1 → g < 256 → pz % 2 ^ (g + 1) = 0 →
      cc ≠ childPfx g pz false ∧ cc ≠ childPfx g pz true) :
    entrySpecDone f Lf Kall doneL g pz
      = entrySpecDone f Lf Kall (doneL ++ [(hh, cc)]) g pz := by
  unfold entrySpecDone
  by_cases hdom : g < 256 ∧ ∃ k ∈ Kall, copyBits (g + 1) k = pz
  · obtain ⟨hg, k0, hk0, hcp0⟩ := hdom
    have hval : pz % 2 ^ (g + 1) = 0 := by rw [← hcp0]; exact copyBits_mod _ _
    rw [if_pos ⟨hg, k0, hk0, hcp0⟩, if_pos ⟨hg, k0, hk0, hcp0⟩]
    have hs : ∀ s : Bool, slotSpecDone f Lf Kall doneL g pz s
        = slotSpecDone f Lf Kall (doneL ++ [(hh, cc)]) g pz s := by
      intro s
      unfold slotSpecDone
      by_cases hgpos : 0 < g
      · have hmem : (((g - 1, childPfx g pz s) : Nat × Nat) ∈ doneL ++ [(hh, cc)])
            ↔ ((g - 1, childPfx g pz s) : Nat × Nat) ∈ doneL := by
          constructor
          · intro hm
            rcases List.mem_append.mp hm with h1 | h1
            · exact h1
            · exfalso
              have he : ((g - 1, childPfx g pz s) : Nat × Nat) = (hh, cc) :=
                List.mem_singleton.mp h1
              have he1 : g - 1 = hh := congrArg Prod.fst he
              have he2 : childPfx g pz s = cc := congrArg Prod.snd he
              have hg1 : g = hh + 1 := by omega
              have hcc := hno hg1 hg hval
              cases s
              · exact hcc.1 he2.symm
              · exact hcc.2 he2.symm
          · exact fun h1 => List.mem_append_left _ h1
        by_cases hc : 0 < g ∧ (∃ k ∈ Kall, copyBits g k = childPfx g pz s)
            ∧ ((g - 1, childPfx g pz s) : Nat × Nat) ∉ doneL
        · rw [if_pos hc, if_pos ⟨hc.1, hc.2.1, fun hm => hc.2.2 (hmem.mp hm)⟩]
        · rw [if_neg hc,
            if_neg (fun hcc => hc ⟨hcc.1, hcc.2.1, fun hm => hcc.2.2 (hmem.mpr hm)⟩)]
      · rw [if_neg (fun hcc => hgpos hcc.1), if_neg (fun hcc => hgpos hcc.1)]
    rw [hs false, hs true]
  · rw [if_neg hdom, if_neg hdom]

/-- In a sorted key list, anything strictly below the current head has
already been processed. -/
theorem pairwise_done_lt {doneL rest : List (Nat × Nat)} {a : Nat × Nat}
    (hsort : (doneL ++ a :: rest).Pairwise (fun x y => bkLt x y = true))
    {x : Nat × Nat} (hx : x ∈ doneL ++ a :: rest) (hlt : bkLt x a = true) :
    x ∈ doneL := by
  rcases List.mem_append.mp hx with h1 | h1
  · exact h1
  · rcases List.mem_cons.mp h1 with rfl | h2
    · exfalso
      simp only [bkLt, Bool.or_eq_true, Bool.and_eq_true, decide_eq_true_eq] at hlt
      omega
    · exfalso
      have hax : bkLt a x = true := by
        have hp := (List.pairwise_append.mp hsort).2.1
        exact (List.pairwise_cons.mp hp).1 x h2
      simp only [bkLt, Bool.or_eq_true, Bool.and_eq_true, decide_eq_true_eq] at hlt hax
      omega

/-- Propagating a merged node into its parent's entry yields the phase-two
description with the node's key marked done. -/
theorem phase2_parent_update (f : HashFn) (Lf : Leaves) (Kall : List Nat)
    (doneL : List (Nat × Nat)) (d : Delta)
    (hD : ∀ g pz, deltaGet d (g, pz) = entrySpecDone f Lf Kall doneL g pz)
    (h k0 : Nat) (hk0K : k0 ∈ Kall)
    (sb : Bool) (hsb : k0.testBit (h + 1) = sb)
    (nv : Option MergeValue × Option MergeValue)
    (hnv : nv = cond sb
      (slotSpecDone f Lf Kall doneL (h + 1) (copyBits (h + 2) k0) false,
        some (subNode f Lf (h + 1) (copyBits (h + 1) k0)))
      (some (subNode f Lf (h + 1) (copyBits (h + 1) k0)),
        slotSpecDone f Lf Kall doneL (h + 1) (copyBits (h + 2) k0) true))
    (hh256 : h + 1 < 256) :
    ∀ g pz, deltaGet (deltaInsert d (h + 1, copyBits (h + 2) k0) nv) (g, pz)
      = entrySpecDone f Lf Kall (doneL ++ [(h, copyBits (h + 1) k0)]) g pz := by
  have hchild_own : childPfx (h + 1) (copyBits (h + 2) k0) (k0.testBit (h + 1))
      = copyBits (h + 1) k0 := (copyBits_to_childPfx rfl).symm
  rw [hsb] at hchild_own
  intro g pz
  rw [deltaGet_deltaInsert]
  by_cases hgp : ((h + 1, copyBits (h + 2) k0) : Nat × Nat) = (g, pz)
  · rw [if_pos hgp]
    have hg1 : h + 1 = g := congrArg Prod.fst hgp
    have hg2 : copyBits (h + 2) k0 = pz := congrArg Prod.snd hgp
    subst hg1
    subst hg2
    unfold entrySpecDone
    rw [if_pos ⟨hh256, k0, hk0K, rfl⟩]
    cases sb
    · have hm : ((h + 1 - 1, childPfx (h + 1) (copyBits (h + 2) k0) false) : Nat × Nat)
          ∈ doneL ++ [(h, copyBits (h + 1) k0)] := by
        rw [hchild_own]
        exact List.mem_append_right _ (List.mem_singleton_self _)
      have hso : slotSpecDone f Lf Kall (doneL ++ [(h, copyBits (h + 1) k0)]) (h + 1)
          (copyBits (h + 2) k0) false
          = some (subNode f Lf (h + 1) (copyBits (h + 1) k0)) := by
        unfold slotSpecDone
        rw [if_neg (fun hcc => hcc.2.2 hm)]
        rw [hchild_own]
      have hsibne : childPfx (h + 1) (copyBits (h + 2) k0) true ≠ copyBits (h + 1) k0 := by
        rw [← hchild_own]
        exact (childPfx_ne _ _).symm
      have hss : slotSpecDone f Lf Kall (doneL ++ [(h, copyBits (h + 1) k0)]) (h + 1)
          (copyBits (h + 2) k0) true
          = slotSpecDone f Lf Kall doneL (h + 1) (copyBits (h + 2) k0) true := by
        unfold slotSpecDone
        have hmm2 : (((h + 1 - 1, childPfx (h + 1) (copyBits (h + 2) k0) true) : Nat × Nat)
            ∈ doneL ++ [(h, copyBits (h + 1) k0)])
            ↔ ((h + 1 - 1, childPfx (h + 1) (copyBits (h + 2) k0) true) : Nat × Nat)
              ∈ doneL := by
          constructor
          · intro hmem
            rcases List.mem_append.mp hmem with h1 | h1
            · exact h1
            · exact absurd (congrArg Prod.snd (List.mem_singleton.mp h1)) hsibne
          · exact fun h1 => List.mem_append_left _ h1
        by_cases hc : 0 < h + 1 ∧ (∃ k ∈ Kall, copyBits (h + 1) k
            = childPfx (h + 1) (copyBits (h + 2) k0) true)
            ∧ ((h + 1 - 1, childPfx (h + 1) (copyBits (h + 2) k0) true) : Nat × Nat)
              ∉ doneL
        · rw [if_pos ⟨hc.1, hc.2.1, fun hm2 => hc.2.2 (hmm2.mp hm2)⟩, if_pos hc]
        · rw [if_neg
            (fun hcc => hc ⟨hcc.1, hcc.2.1, fun hm2 => hcc.2.2 (hmm2.mpr hm2)⟩),
            if_neg hc]
      rw [hnv, hso, hss]
      rfl
    · have hm : ((h + 1 - 1, childPfx (h + 1) (copyBits (h + 2) k0) true) : Nat × Nat)
          ∈ doneL ++ [(h, copyBits (h + 1) k0)] := by
        rw [hchild_own]
        exact List.mem_append_right _ (List.mem_singleton_self _)
      have hso : slotSpecDone f Lf Kall (doneL ++ [(h, copyBits (h + 1) k0)]) (h + 1)
          (copyBits (h + 2) k0) true
          = some (subNode f Lf (h + 1) (copyBits (h + 1) k0)) := by
        unfold slotSpecDone
        rw [if_neg (fun hcc => hcc.2.2 hm)]
        rw [hchild_own]
      have hsibne : childPfx (h + 1) (copyBits (h + 2) k0) false ≠ copyBits (h + 1) k0 := by
        rw [← hchild_own]
        exact childPfx_ne _ _
      have hss : slotSpecDone f Lf Kall (doneL ++ [(h, copyBits (h + 1) k0)]) (h + 1)
          (copyBits (h + 2) k0) false
          = slotSpecDone f Lf Kall doneL (h + 1) (copyBits (h + 2) k0) false := by
        unfold slotSpecDone
        have hmm2 : (((h + 1 - 1, childPfx (h + 1) (copyBits (h + 2) k0) false) : Nat × Nat)
            ∈ doneL ++ [(h, copyBits (h + 1) k0)])
            ↔ ((h + 1 - 1, childPfx (h + 1) (copyBits (h + 2) k0) false) : Nat × Nat)
              ∈ doneL := by
          constructor
          · intro hmem
            rcases List.mem_append.mp hmem with h1 | h1
            · exact h1
            · exact absurd (congrArg Prod.snd (List.mem_singleton.mp h1)) hsibne
          · exact fun h1 => List.mem_append_left _ h1
        by_cases hc : 0 < h + 1 ∧ (∃ k ∈ Kall, copyBits (h + 1) k
            = childPfx (h + 1) (copyBits (h + 2) k0) false)
            ∧ ((h + 1 - 1, childPfx (h + 1) (copyBits (h + 2) k0) false) : Nat × Nat)
              ∉ doneL
        · rw [if_pos ⟨hc.1, hc.2.1, fun hm2 => hc.2.2 (hmm2.mp hm2)⟩, if_pos hc]
        · rw [if_neg
            (fun hcc => hc ⟨hcc.1, hcc.2.1, fun hm2 => hcc.2.2 (hmm2.mpr hm2)⟩),
            if_neg hc]
      rw [hnv, hso, hss]
      rfl
  · rw [if_neg hgp, hD g pz]
    apply entrySpecDone_extend f Lf Kall doneL h (copyBits (h + 1) k0) g pz
    intro hg1 _ hvalpz
    subst hg1
    constructor
    · intro he
      apply hgp
      have h2 : copyBits (h + 1) k0 = pz := he
      have h1 : copyBits (h + 2) k0 = pz := by
        calc copyBits (h + 2) k0 = copyBits (h + 2) (copyBits (h + 1) k0) :=
              (copyBits_copyBits (by omega) k0).symm
          _ = copyBits (h + 2) pz := by rw [h2]
          _ = pz := copyBits_of_mod_eq_zero hvalpz
      rw [h1]
    · intro he
      apply hgp
      have h2 : copyBits (h + 1) k0 = pz + 2 ^ (h + 1) := he
      have h1 : copyBits (h + 2) k0 = pz := by
        calc copyBits (h + 2) k0 = copyBits (h + 2) (copyBits (h + 1) k0) :=
              (copyBits_copyBits (by omega) k0).symm
          _ = copyBits (h + 2) (pz + 2 ^ (h + 1)) := by rw [h2]
          _ = pz := copyBits_succ_add_pow hvalpz
      rw [h1]

/-- The second phase of `update_all` processes the delta keys in ascending
order without ever panicking, writes exactly the canonical branches of the
final leaf map at the batch's path nodes, and ends with the root of the
final leaf map. -/
theorem phase2_spec (f : HashFn) (Lf : Leaves) (Kall : List Nat)
    (hKb : ∀ x ∈ Kall, x < 2 ^ 256)
    (origRoot : Nat) (br0 : Branches) (lv : Leaves) :
    ∀ (rest doneL : List (Nat × Nat)) (d : Delta) (br : Branches)
      (rootNode : MergeValue),
      (∀ kk : Nat × Nat, kk ∈ doneL ++ rest ↔
        (kk.1 < 256 ∧ ∃ k ∈ Kall, copyBits (kk.1 + 1) k = kk.2)) →
      ((doneL ++ rest).Pairwise (fun a b => bkLt a b = true)) →
      (∀ g pz, deltaGet d (g, pz) = entrySpecDone f Lf Kall doneL g pz) →
      (∀ g pz, br g pz = if (g, pz) ∈ doneL then canonBranch f Lf g pz
        else br0 g pz) →
      ∃ brF rootF,
        phase2 f origRoot rest d br rootNode lv
          = BatchResult.ok { branches := brF, leaves := lv, root := (rootF : MergeValue).hash f }
        ∧ (∀ g pz, brF g pz = if (g, pz) ∈ doneL ++ rest then canonBranch f Lf g pz
            else br0 g pz)
        ∧ rootF = (if ((255, 0) : Nat × Nat) ∈ rest then subNode f Lf 256 0
            else rootNode) := by
  intro rest
  induction rest with
  | nil =>
    intro doneL d br rootNode hfull hsort hD hB
    refine ⟨br, rootNode, rfl, ?_, ?_⟩
    · intro g pz
      rw [hB g pz, List.append_nil]
    · rw [if_neg (List.not_mem_nil _)]
  | cons hd rest' ih =>
    intro doneL d br rootNode hfull hsort hD hB
    obtain ⟨h, nk⟩ := hd
    have hmem_head : ((h, nk) : Nat × Nat) ∈ doneL ++ (h, nk) :: rest' :=
      List.mem_append_right _ (List.mem_cons_self _ _)
    obtain ⟨hh256x, k0, hk0K, hk0x⟩ := (hfull (h, nk)).mp hmem_head
    have hh256 : h < 256 := hh256x
    have hk0 : copyBits (h + 1) k0 = nk := hk0x
    subst hk0
    have hval : copyBits (h + 1) k0 % 2 ^ (h + 1) = 0 := copyBits_mod _ _
    have hnklt : copyBits (h + 1) k0 < 2 ^ 256 :=
      copyBits_lt_two_pow _ (hKb k0 hk0K)
    -- both slots of the head entry are already filled
    have hchild : ∀ s : Bool, ¬(0 < h ∧ (∃ k ∈ Kall,
        copyBits h k = childPfx h (copyBits (h + 1) k0) s)
        ∧ ((h - 1, childPfx h (copyBits (h + 1) k0) s) : Nat × Nat) ∉ doneL) := by
      rintro s ⟨hpos, hcov, hnotdone⟩
      apply hnotdone
      have hdomc : ((h - 1, childPfx h (copyBits (h + 1) k0) s) : Nat × Nat).1 < 256
          ∧ ∃ k ∈ Kall,
            copyBits (((h - 1, childPfx h (copyBits (h + 1) k0) s) : Nat × Nat).1 + 1) k
              = ((h - 1, childPfx h (copyBits (h + 1) k0) s) : Nat × Nat).2 := by
        refine ⟨by omega, ?_⟩
        obtain ⟨k1, hk1K, hk1⟩ := hcov
        refine ⟨k1, hk1K, ?_⟩
        have hexp : h - 1 + 1 = h := by omega
        rw [hexp]
        exact hk1
      have hmemc := (hfull _).mpr hdomc
      refine pairwise_done_lt hsort hmemc ?_
      simp only [bkLt, Bool.or_eq_true, Bool.and_eq_true, decide_eq_true_eq]
      omega
    have hgeth : deltaGet d (h, copyBits (h + 1) k0)
        = some (some (subNode f Lf h (copyBits (h + 1) k0)),
            some (subNode f Lf h (copyBits (h + 1) k0 + 2 ^ h))) := by
      have h1 : deltaGet d (h, copyBits (h + 1) k0)
          = some (some (subNode f Lf h (childPfx h (copyBits (h + 1) k0) false)),
              some (subNode f Lf h (childPfx h (copyBits (h + 1) k0) true))) := by
        rw [hD]
        unfold entrySpecDone
        rw [if_pos ⟨hh256, k0, hk0K, rfl⟩]
        unfold slotSpecDone
        rw [if_neg (hchild false), if_neg (hchild true)]
      exact h1
    simp only [phase2]
    rw [hgeth]
    dsimp only
    -- the branch write is the canonical branch at the processed key
    have hbrw : ∀ g pz,
        (if !(subNode f Lf h (copyBits (h + 1) k0)).isZero
            || !(subNode f Lf h (copyBits (h + 1) k0 + 2 ^ h)).isZero then
          insertBranch br h (copyBits (h + 1) k0)
            ⟨subNode f Lf h (copyBits (h + 1) k0),
              subNode f Lf h (copyBits (h + 1) k0 + 2 ^ h)⟩
        else removeBranch br h (copyBits (h + 1) k0)) g pz
        = if (g, pz) ∈ doneL ++ [(h, copyBits (h + 1) k0)] then canonBranch f Lf g pz
          else br0 g pz := by
      intro g pz
      by_cases hgp : (g, pz) = ((h, copyBits (h + 1) k0) : Nat × Nat)
      · have hg1 : g = h := congrArg Prod.fst hgp
        have hg2 : pz = copyBits (h + 1) k0 := congrArg Prod.snd hgp
        subst hg1
        subst hg2
        rw [if_pos (List.mem_append_right _ (List.mem_singleton_self _))]
        by_cases hz : ((subNode f Lf g (copyBits (g + 1) k0)).isZero
            && (subNode f Lf g (copyBits (g + 1) k0 + 2 ^ g)).isZero) = true
        · have hor : ¬((!(subNode f Lf g (copyBits (g + 1) k0)).isZero
              || !(subNode f Lf g (copyBits (g + 1) k0 + 2 ^ g)).isZero) = true) := by
            rw [Bool.and_eq_true] at hz
            rw [hz.1, hz.2]
            exact Bool.false_ne_true
          rw [if_neg hor]
          unfold removeBranch
          rw [if_pos ⟨rfl, rfl⟩]
          unfold canonBranch
          dsimp only
          rw [if_pos hz]
        · have hor : (!(subNode f Lf g (copyBits (g + 1) k0)).isZero
              || !(subNode f Lf g (copyBits (g + 1) k0 + 2 ^ g)).isZero) = true := by
            rcases hb1 : (subNode f Lf g (copyBits (g + 1) k0)).isZero
            · rfl
            · rcases hb2 : (subNode f Lf g (copyBits (g + 1) k0 + 2 ^ g)).isZero
              · rfl
              · exact absurd (by rw [hb1, hb2]; rfl) hz
          rw [if_pos hor]
          unfold insertBranch
          rw [if_pos ⟨rfl, rfl⟩]
          unfold canonBranch
          dsimp only
          rw [if_neg hz]
      · have hne' : ¬(g = h ∧ pz = copyBits (h + 1) k0) :=
          fun hcc => hgp (by rw [hcc.1, hcc.2])
        have hmm : ((g, pz) ∈ doneL ++ [(h, copyBits (h + 1) k0)])
            ↔ (g, pz) ∈ doneL := by
          constructor
          · intro hm
            rcases List.mem_append.mp hm with h1 | h1
            · exact h1
            · exact absurd (List.mem_singleton.mp h1) hgp
          · exact fun h1 => List.mem_append_left _ h1
        by_cases hcor : (!(subNode f Lf h (copyBits (h + 1) k0)).isZero
            || !(subNode f Lf h (copyBits (h + 1) k0 + 2 ^ h)).isZero) = true
        · rw [if_pos hcor]
          unfold insertBranch
          rw [if_neg hne', hB g pz]
          by_cases hmem2 : (g, pz) ∈ doneL
          · rw [if_pos hmem2, if_pos (hmm.mpr hmem2)]
          · rw [if_neg hmem2, if_neg (fun hm => hmem2 (hmm.mp hm))]
        · rw [if_neg hcor]
          unfold removeBranch
          rw [if_neg hne', hB g pz]
          by_cases hmem2 : (g, pz) ∈ doneL
          · rw [if_pos hmem2, if_pos (hmm.mpr hmem2)]
          · rw [if_neg hmem2, if_neg (fun hm => hmem2 (hmm.mp hm))]
    have hlistEq : doneL ++ ((h, copyBits (h + 1) k0) :: rest')
        = (doneL ++ [(h, copyBits (h + 1) k0)]) ++ rest' := by
      simp
    have hfull' : ∀ kk : Nat × Nat,
        kk ∈ (doneL ++ [(h, copyBits (h + 1) k0)]) ++ rest' ↔
        (kk.1 < 256 ∧ ∃ k ∈ Kall, copyBits (kk.1 + 1) k = kk.2) := by
      intro kk
      rw [← hlistEq]
      exact hfull kk
    have hsort' : ((doneL ++ [(h, copyBits (h + 1) k0)]) ++ rest').Pairwise
        (fun a b => bkLt a b = true) := by
      rw [← hlistEq]
      exact hsort
    by_cases hh255p : h < 255
    · rw [if_pos hh255p]
      have hppk : parentPath (h + 1) (copyBits (h + 1) k0)
          = copyBits (h + 1 + 1) k0 :=
        parentPath_copyBits (by omega) (hKb k0 hk0K)
      rw [hppk]
      have hgetp : deltaGet d (h + 1, copyBits (h + 1 + 1) k0)
          = some (slotSpecDone f Lf Kall doneL (h + 1) (copyBits (h + 1 + 1) k0) false,
              slotSpecDone f Lf Kall doneL (h + 1) (copyBits (h + 1 + 1) k0) true) := by
        rw [hD]
        unfold entrySpecDone
        rw [if_pos ⟨by omega, k0, hk0K, rfl⟩]
      rw [hgetp]
      dsimp only
      have hisr : isRight (copyBits (h + 1) k0) (h + 1) = k0.testBit (h + 1) := by
        unfold isRight getBit
        rw [testBit_copyBits, if_pos (le_refl (h + 1))]
      rw [hisr]
      have hclose : ∀ (brF : Branches) (rootF : MergeValue),
          (∀ g pz, brF g pz =
            if (g, pz) ∈ (doneL ++ [(h, copyBits (h + 1) k0)]) ++ rest' then
              canonBranch f Lf g pz
            else br0 g pz) →
          rootF = (if ((255, 0) : Nat × Nat) ∈ rest' then subNode f Lf 256 0
            else rootNode) →
          (∀ g pz, brF g pz =
            if (g, pz) ∈ doneL ++ (h, copyBits (h + 1) k0) :: rest' then
              canonBranch f Lf g pz
            else br0 g pz)
          ∧ rootF = (if ((255, 0) : Nat × Nat)
              ∈ (h, copyBits (h + 1) k0) :: rest' then subNode f Lf 256 0
            else rootNode) := by
        intro brF rootF hbrF hrootF
        constructor
        · intro g pz
          rw [hbrF g pz, ← hlistEq]
        · rw [hrootF]
          by_cases hm255 : ((255, 0) : Nat × Nat) ∈ rest'
          · rw [if_pos hm255, if_pos (List.mem_cons_of_mem _ hm255)]
          · rw [if_neg hm255, if_neg (fun hm => by
              rcases List.mem_cons.mp hm with he | ht
              · exact absurd (congrArg Prod.fst he) (by omega)
              · exact hm255 ht)]
      cases hsb2 : k0.testBit (h + 1)
      · rw [if_neg Bool.false_ne_true]
        have hD' := phase2_parent_update f Lf Kall doneL d hD h k0 hk0K false hsb2
          _ rfl (by omega)
        obtain ⟨brF, rootF, hrun, hbrF, hrootF⟩ :=
          ih (doneL ++ [(h, copyBits (h + 1) k0)]) _ _ rootNode hfull' hsort' hD' hbrw
        obtain ⟨hc1, hc2⟩ := hclose brF rootF hbrF hrootF
        exact ⟨brF, rootF, hrun, hc1, hc2⟩
      · rw [if_pos rfl]
        have hD' := phase2_parent_update f Lf Kall doneL d hD h k0 hk0K true hsb2
          _ rfl (by omega)
        obtain ⟨brF, rootF, hrun, hbrF, hrootF⟩ :=
          ih (doneL ++ [(h, copyBits (h + 1) k0)]) _ _ rootNode hfull' hsort' hD' hbrw
        obtain ⟨hc1, hc2⟩ := hclose brF rootF hbrF hrootF
        exact ⟨brF, rootF, hrun, hc1, hc2⟩
    · rw [if_neg hh255p]
      have hh : h = 255 := by omega
      subst hh
      have hcp0' : copyBits (255 + 1) k0 = 0 := copyBits_256_eq_zero (hKb k0 hk0K)
      have hrest' : rest' = [] := by
        cases hre : rest' with
        | nil => rfl
        | cons y t =>
          exfalso
          have hy : y ∈ doneL ++ (255, copyBits (255 + 1) k0) :: rest' := by
            rw [hre]
            exact List.mem_append_right _
              (List.mem_cons_of_mem _ (List.mem_cons_self _ _))
          obtain ⟨hy1, ky, hkyK, hky⟩ := (hfull y).mp hy
          have hlty : bkLt (255, copyBits (255 + 1) k0) y = true := by
            have hp := (List.pairwise_append.mp hsort).2.1
            refine (List.pairwise_cons.mp hp).1 y ?_
            rw [hre]
            exact List.mem_cons_self _ _
          have hky0 : copyBits 256 ky = 0 := copyBits_256_eq_zero (hKb ky hkyK)
          simp only [bkLt, Bool.or_eq_true, Bool.and_eq_true, decide_eq_true_eq] at hlty
          rcases hlty with h1 | ⟨h1, h2⟩
          · omega
          · have hy2 : y.2 = 0 := by
              rw [← hky]
              rw [← h1]
              exact hky0
            omega
      subst hrest'
      rw [hcp0'] at hbrw ⊢
      refine ⟨_, subNode f Lf 256 0, rfl, ?_, ?_⟩
      · intro g pz
        rw [hbrw g pz]
      · rw [if_pos (List.mem_cons_self _ _)]

set_option maxRecDepth 4000 in
/-- Sequential updates preserve canonicity, ending at the sequentially
applied leaf map. -/
theorem foldl_update_canonical (f : HashFn) (hf : HashNonZero f) :
    ∀ (lvs : List (Nat × Nat)) (s : TreeState) (L : Leaves),
      Canon f s L → (∀ kv ∈ lvs, kv.1 < 2 ^ 256) →
      Canon f (lvs.foldl (fun t kv => update f t kv.1 kv.2) s) (applyLeaves L lvs) := by
  intro lvs
  induction lvs with
  | nil =>
    intro s L hc _
    exact hc
  | cons kv rest ih =>
    intro s L hc hkeys
    have h1 := update_canonical f hf s L hc kv.1 kv.2 (hkeys kv (List.mem_cons_self _ _))
    have hfold : (kv :: rest).foldl (fun t kv2 => update f t kv2.1 kv2.2) s
        = rest.foldl (fun t kv2 => update f t kv2.1 kv2.2) (update f s kv.1 kv.2) := by
      rw [List.foldl_cons]
    have happ : applyLeaves L (kv :: rest) = applyLeaves (applyLeaf L kv.1 kv.2) rest := by
      unfold applyLeaves
      rw [List.foldl_cons]
    rw [hfold, happ]
    exact ih (update f s kv.1 kv.2) (applyLeaf L kv.1 kv.2) h1
      (fun kv2 hm => hkeys kv2 (List.mem_cons_of_mem _ hm))

/-- Claim C2: for a canonical (API-reachable) tree state, a hash that never
returns the zero digest, and in-range keys, `update_all` succeeds and
returns exactly the state produced by sequential `update` calls on the batch
after last-write-wins deduplication by key: the root, the branch map, and
the leaf map all coincide. -/
theorem updateAll_batch_equiv (f : HashFn) (hf : HashNonZero f) (s : TreeState)
    (L : Leaves) (hc : Canon f s L) (lvs : List (Nat × Nat))
    (hkeys : ∀ kv ∈ lvs, kv.1 < 2 ^ 256) :
    updateAll f s lvs
      = BatchResult.ok ((dedupLastWins lvs).foldl
          (fun t kv => update f t kv.1 kv.2) s) := by
  cases lvs with
  | nil => rfl
  | cons kv0 rest0 =>
    have hkeysd : ∀ kv ∈ dedupLastWins (kv0 :: rest0), kv.1 < 2 ^ 256 :=
      fun kv hm => hkeys kv (mem_dedupLastWins hm)
    have hseq := foldl_update_canonical f hf (dedupLastWins (kv0 :: rest0)) s L hc hkeysd
    have hmapeq : applyLeaves L (dedupLastWins (kv0 :: rest0))
        = applyLeaves L (kv0 :: rest0) := by
      funext x
      exact applyLeaves_dedup (kv0 :: rest0) L x
    rw [hmapeq] at hseq
    have hD0 : DeltaSpec f s.leaves [] [] := by
      intro g pz
      unfold entrySpec
      rw [if_neg (fun hcc => by
        obtain ⟨_, k1, hk1, _⟩ := hcc
        exact (List.not_mem_nil k1) hk1)]
      rfl
    obtain ⟨hDfull, hLagree, hLeq, hsorted⟩ :=
      buildDelta_spec f hf L s.branches hc.2.1 (kv0 :: rest0) s.leaves [] []
        hkeys (fun x _ => by rw [hc.1]) hD0 List.Pairwise.nil
    rw [List.nil_append] at hDfull hLagree
    have hKb : ∀ x ∈ (kv0 :: rest0).map Prod.fst, x < 2 ^ 256 := by
      intro x hx
      obtain ⟨kv, hm, rfl⟩ := List.mem_map.mp hx
      exact hkeys kv hm
    have hfull : ∀ kk : Nat × Nat,
        kk ∈ ([] : List (Nat × Nat))
            ++ (buildDelta s.branches (kv0 :: rest0) s.leaves []).2.map Prod.fst ↔
          (kk.1 < 256 ∧ ∃ k ∈ (kv0 :: rest0).map Prod.fst,
            copyBits (kk.1 + 1) k = kk.2) := by
      intro kk
      obtain ⟨g0, pz0⟩ := kk
      rw [List.nil_append]
      constructor
      · intro hm
        obtain ⟨e, he⟩ := deltaGet_some_of_mem_fst hm
        rw [hDfull g0 pz0] at he
        unfold entrySpec at he
        by_cases hdome : g0 < 256 ∧ ∃ k ∈ (kv0 :: rest0).map Prod.fst,
            copyBits (g0 + 1) k = pz0
        · exact hdome
        · rw [if_neg hdome] at he
          cases he
      · intro hdome
        have hg : deltaGet (buildDelta s.branches (kv0 :: rest0) s.leaves []).2 (g0, pz0)
            = some (slotSpec f (buildDelta s.branches (kv0 :: rest0) s.leaves []).1
                  ((kv0 :: rest0).map Prod.fst) g0 pz0 false,
                slotSpec f (buildDelta s.branches (kv0 :: rest0) s.leaves []).1
                  ((kv0 :: rest0).map Prod.fst) g0 pz0 true) := by
          rw [hDfull g0 pz0]
          unfold entrySpec
          rw [if_pos hdome]
        exact mem_fst_of_deltaGet_some hg
    have hsort : (([] : List (Nat × Nat))
        ++ (buildDelta s.branches (kv0 :: rest0) s.leaves []).2.map Prod.fst).Pairwise
          (fun a b => bkLt a b = true) := by
      rw [List.nil_append]
      exact List.pairwise_map.mpr hsorted
    have hD : ∀ g pz,
        deltaGet (buildDelta s.branches (kv0 :: rest0) s.leaves []).2 (g, pz)
          = entrySpecDone f (buildDelta s.branches (kv0 :: rest0) s.leaves []).1
              ((kv0 :: rest0).map Prod.fst) [] g pz := by
      intro g pz
      rw [hDfull g pz]
      exact (entrySpecDone_nil f _ _ g pz).symm
    have hB : ∀ g pz, s.branches g pz =
        if ((g, pz) : Nat × Nat) ∈ ([] : List (Nat × Nat)) then
          canonBranch f (buildDelta s.branches (kv0 :: rest0) s.leaves []).1 g pz
        else s.branches g pz := by
      intro g pz
      rw [if_neg (List.not_mem_nil _)]
    obtain ⟨brF, rootF, hrun, hbrF, hrootF⟩ :=
      phase2_spec f (buildDelta s.branches (kv0 :: rest0) s.leaves []).1
        ((kv0 :: rest0).map Prod.fst) hKb s.root s.branches
        (buildDelta s.branches (kv0 :: rest0) s.leaves []).1
        ((buildDelta s.branches (kv0 :: rest0) s.leaves []).2.map Prod.fst) []
        (buildDelta s.branches (kv0 :: rest0) s.leaves []).2 s.branches
        MergeValue.zero hfull hsort hD hB
    rw [List.nil_append] at hbrF
    have hm255 : ((255, 0) : Nat × Nat)
        ∈ (buildDelta s.branches (kv0 :: rest0) s.leaves []).2.map Prod.fst := by
      have hdm := (hfull (255, 0)).mpr
        ⟨by omega, kv0.1, List.mem_map_of_mem Prod.fst (List.mem_cons_self _ _),
          copyBits_256_eq_zero (hkeys kv0 (List.mem_cons_self _ _))⟩
      rwa [List.nil_append] at hdm
    rw [if_pos hm255] at hrootF
    have hcanonBatch : Canon f
        { branches := brF, leaves := (buildDelta s.branches (kv0 :: rest0) s.leaves []).1,
          root := rootF.hash f }
        (applyLeaves L (kv0 :: rest0)) := by
      refine ⟨?_, ?_, ?_, ?_⟩
      · dsimp only
        rw [hLeq, hc.1]
      · intro h pk hh hval hlt
        dsimp only
        rw [hbrF h pk]
        by_cases hmem : ((h, pk) : Nat × Nat)
            ∈ (buildDelta s.branches (kv0 :: rest0) s.leaves []).2.map Prod.fst
        · rw [if_pos hmem, hLeq, hc.1]
        · rw [if_neg hmem]
          rw [hc.2.1 h pk hh hval hlt]
          apply canonBranch_agree_out f h pk hval
          intro x hx
          have hxK : x ∉ (kv0 :: rest0).map Prod.fst := by
            intro hxm
            apply hmem
            have hdm := (hfull (h, pk)).mpr ⟨hh, x, hxm, hx⟩
            rwa [List.nil_append] at hdm
          exact (applyLeaves_agree (kv0 :: rest0) L x hxK).symm
      · intro h pk hbad
        dsimp only
        rw [hbrF h pk]
        rw [if_neg (fun hmem => by
          obtain ⟨hh1, k1, hk1K, hk1⟩ := (hfull (h, pk)).mp (by
            rwa [List.nil_append])
          have hk1x : copyBits (h + 1) k1 = pk := hk1
          apply hbad
          refine ⟨hh1, ?_, ?_⟩
          · rw [← hk1x]
            exact copyBits_mod _ _
          · rw [← hk1x]
            exact copyBits_lt_two_pow _ (hKb k1 hk1K))]
        exact hc.2.2.1 h pk hbad
      · dsimp only
        rw [hrootF, hLeq, hc.1]
    have hfinal := canon_unique f hcanonBatch hseq
    have hrun' : updateAll f s (kv0 :: rest0)
        = BatchResult.ok { branches := brF, leaves := (buildDelta s.branches (kv0 :: rest0) s.leaves []).1, root := rootF.hash f } := hrun
    rw [hrun', hfinal]

/-- Claim C2 witness: a batch with a repeated key on the empty tree. -/
theorem updateAll_batch_equiv_witness :
    updateAll exampleHash emptyTree [(1, 2), (1, 3)]
      = BatchResult.ok ((dedupLastWins [(1, 2), (1, 3)]).foldl
          (fun t kv => update exampleHash t kv.1 kv.2) emptyTree) :=
  updateAll_batch_equiv exampleHash exampleHash_nonzero emptyTree (fun _ => none)
    (canon_empty exampleHash) [(1, 2), (1, 3)] (by decide)

/-! ## Claim C1: the proof round-trip

The proof generator src/tree.rs `merkle_proof` and the byte-code compiler
src/merkle_proof.rs `MerkleProof::compile`. -/

/-- `sort_unstable` on keys. -/
def sortKeys (keys : List Nat) : List Nat := keys.mergeSort (fun a b => a ≤ b)

/-- src/tree.rs `merkle_proof`, the bitmap loop for one key: bit `height` is
set when the stored parent branch exists and the key's sibling in it is
nonzero. -/
def leafBitmap (br : Branches) (k : Nat) : Nat :=
  (List.range 256).foldl
    (fun bm height =>
      match br height (parentPath height k) with
      | some parentBranch =>
        let sibling := if isRight k height then parentBranch.left else parentBranch.right
        if !sibling.isZero then setBit bm height else bm
      | none => bm)
    0

/-- src/tree.rs `merkle_proof`, the inner height loop of the path-collection
phase: pop the fork-height stack when its top equals the current height, else
push the stored sibling when the bitmap requires one (`none` models the
`unreachable!()` on a zero stored sibling). -/
def collectSiblings (br : Branches) (k bitmap : Nat) :
    List Nat → List Nat → List MergeValue → Option (List Nat × List MergeValue)
  | [], stack, path => some (stack, path)
  | height :: hs, stack, path =>
    match stack with
    | top :: stack' =>
      if top = height then collectSiblings br k bitmap hs stack' path
      else
        if getBit bitmap height then
          match br height (parentPath height k) with
          | some parentBranch =>
            let sibling := if isRight k height then parentBranch.left
                           else parentBranch.right
            if !sibling.isZero then
              collectSiblings br k bitmap hs (top :: stack') (path ++ [sibling])
            else none
          | none => collectSiblings br k bitmap hs (top :: stack') path
        else collectSiblings br k bitmap hs (top :: stack') path
    | [] =>
      if getBit bitmap height then
        match br height (parentPath height k) with
        | some parentBranch =>
          let sibling := if isRight k height then parentBranch.left
                         else parentBranch.right
          if !sibling.isZero then collectSiblings br k bitmap hs [] (path ++ [sibling])
          else none
        | none => collectSiblings br k bitmap hs [] path
      else collectSiblings br k bitmap hs [] path

/-- src/tree.rs `merkle_proof`, the leaf loop: the processed heights are
`0 ..= fork_height` with a break at the fork height for every leaf but the
last, and the fork height is pushed after the walk. -/
def merkleProofLoop (br : Branches) :
    List Nat → List Nat → List Nat → List MergeValue →
      Option (List Nat × List MergeValue)
  | [], _, stack, path => some (stack, path)
  | k :: krest, bms, stack, path =>
    match bms with
    | [] => none
    | bm :: bmrest =>
      let fh := match krest with
        | [] => 255
        | k2 :: _ => forkHeight k k2
      let heights := match krest with
        | [] => List.range 256
        | _ :: _ => List.range fh
      match collectSiblings br k bm heights stack path with
      | some (stack', path') => merkleProofLoop br krest bmrest (fh :: stack') path'
      | none => none

/-- The outcome of src/tree.rs `merkle_proof`: the bitmaps and the sibling
path, an error, or a panic (`unreachable!` / the final `assert_eq!`). -/
inductive ProofGen
  | ok (bitmaps : List Nat) (path : List MergeValue)
  | err (e : Error)
  | panicked

/-- src/tree.rs `merkle_proof`: sort the keys, collect a bitmap per key, then
walk each key up to its fork height collecting the needed siblings; the final
fork-height stack must hold exactly one entry. -/
def merkleProof (s : TreeState) (keys0 : List Nat) : ProofGen :=
  match keys0 with
  | [] => .err .EmptyKeys
  | _ :: _ =>
    let keys := sortKeys keys0
    let bitmaps := keys.map (leafBitmap s.branches)
    match merkleProofLoop s.branches keys bitmaps [] [] with
    | some (stack, path) => if stack.length = 1 then .ok bitmaps path else .panicked
    | none => .panicked

/-- `H256::as_slice()`: the little-endian bytes of a 32-byte word. -/
def wordToBytes (v : Nat) : List Nat := (List.range 32).map (fun i => v / 256 ^ i % 256)

/-- src/merkle_proof.rs `compile`: flush a pending zero run as an `O` op
(`0` encodes a run of 256). -/
def flushZeros (zc : Nat) : List Nat :=
  if zc > 0 then [0x4F, if zc = 256 then 0 else zc] else []

/-- src/merkle_proof.rs `compile`, the inner height loop: emit `H` on a stack
pop, emit `P`/`Q`/shortcut ops with the serialized sibling from the merkle
path when the bitmap requires one (flushing the pending zero run first), and
otherwise extend the zero run (more than 256 zeros is a corrupted proof). -/
def compileHeights (bitmap : Nat) :
    List Nat → List Nat → List MergeValue → List Nat → Nat →
      Except Error (List Nat × List MergeValue × List Nat × Nat)
  | [], stack, pathRem, bytes, zc => .ok (stack, pathRem, bytes, zc)
  | height :: hs, stack, pathRem, bytes, zc =>
    match stack with
    | top :: stack' =>
      if top = height then
        compileHeights bitmap hs stack' pathRem (bytes ++ flushZeros zc ++ [0x48]) 0
      else
        if getBit bitmap height then
          match pathRem with
          | [] => .error .CorruptedProof
          | node :: pathRem' =>
            let opData : List Nat :=
              match node with
              | .Value v => 0x50 :: wordToBytes v
              | .MergeWithZero b zb zc2 => 0x51 :: zc2 :: (wordToBytes b ++ wordToBytes zb)
              | .ShortCut _ v _ => 0x52 :: wordToBytes v
            compileHeights bitmap hs (top :: stack') pathRem'
              (bytes ++ flushZeros zc ++ opData) 0
        else
          if zc + 1 > 256 then .error .CorruptedProof
          else compileHeights bitmap hs (top :: stack') pathRem bytes (zc + 1)
    | [] =>
      if getBit bitmap height then
        match pathRem with
        | [] => .error .CorruptedProof
        | node :: pathRem' =>
          let opData : List Nat :=
            match node with
            | .Value v => 0x50 :: wordToBytes v
            | .MergeWithZero b zb zc2 => 0x51 :: zc2 :: (wordToBytes b ++ wordToBytes zb)
            | .ShortCut _ v _ => 0x52 :: wordToBytes v
          compileHeights bitmap hs [] pathRem' (bytes ++ flushZeros zc ++ opData) 0
      else
        if zc + 1 > 256 then .error .CorruptedProof
        else compileHeights bitmap hs [] pathRem bytes (zc + 1)

/-- src/merkle_proof.rs `compile`, the leaf loop: emit `L`, walk the heights,
flush the trailing zero run and push the fork height. -/
def compileLoop :
    List Nat → List Nat → List Nat → List MergeValue → List Nat →
      Except Error (List Nat × List MergeValue × List Nat)
  | [], _, stack, pathRem, bytes => .ok (stack, pathRem, bytes)
  | k :: krest, bms, stack, pathRem, bytes =>
    match bms with
    | [] => .error .CorruptedProof
    | bm :: bmrest =>
      let fh := match krest with
        | [] => 255
        | k2 :: _ => forkHeight k k2
      let heights := match krest with
        | [] => List.range 256
        | _ :: _ => List.range fh
      match compileHeights bm heights stack pathRem (bytes ++ [0x4C]) 0 with
      | .error e => .error e
      | .ok (stack', pathRem', bytes', zc') =>
        compileLoop krest bmrest (fh :: stack') pathRem' (bytes' ++ flushZeros zc')

/-- src/merkle_proof.rs `MerkleProof::compile`: key-count checks, sort the
keys, run the loop, and require the stack to hold one entry and the merkle
path to be fully consumed. -/
def compile (bitmaps : List Nat) (path : List MergeValue) (leavesKeys0 : List Nat) :
    Except Error (List Nat) :=
  match leavesKeys0 with
  | [] => .error .EmptyKeys
  | _ :: _ =>
    if leavesKeys0.length ≠ bitmaps.length then
      .error (.IncorrectNumberOfLeaves bitmaps.length leavesKeys0.length)
    else
      let keys := sortKeys leavesKeys0
      match compileLoop keys bitmaps [] path [] with
      | .error e => .error e
      | .ok (stack, pathRem, bytes) =>
        if stack.length ≠ 1 then .error .CorruptedProof
        else if pathRem ≠ [] then .error .CorruptedProof
        else .ok bytes

/-- A hash function whose digests fit in 32 bytes. -/
def HashBounded (f : HashFn) : Prop := ∀ l, f l < 2 ^ 256

/-- The sibling child prefix of key `k` at height `h`. -/
def sibPfx (k h : Nat) : Nat := childPfx h (copyBits (h + 1) k) (!k.testBit h)

/-- Every digest-carrying component of a merge value fits in 32 bytes (and a
`zero_count` fits in a byte). -/
def MVBounded : MergeValue → Prop
  | .Value v => v < 2 ^ 256
  | .MergeWithZero b zb zc => b < 2 ^ 256 ∧ zb < 2 ^ 256 ∧ zc < 256
  | .ShortCut _ _ _ => True

/-- A byte segment `B` of the verifier's program transforms the leaves and
the stack as described, for any continuation and any sufficient fuel. -/
def SegRun (f : HashFn) (B : List Nat) (lv lv' : List (Nat × Nat))
    (st st' : List (Nat × Nat × MergeValue)) : Prop :=
  ∀ (tail : List Nat) (fuel : Nat), B.length + tail.length ≤ fuel →
    ∃ fuel', tail.length ≤ fuel' ∧
      runProofAux f fuel (B ++ tail) lv st = runProofAux f fuel' tail lv' st'

/-- The verifier's working stack entry while climbing key `k` at height `g`. -/
def vEntry (f : HashFn) (L : Leaves) (k g : Nat) : Nat × Nat × MergeValue :=
  (g, copyBits g k, subNode f L g (copyBits g k))

/-- The verifier stack entries matching the generator's fork-height stack. -/
def vStackOf (f : HashFn) (L : Leaves) (k : Nat) (gs : List Nat) :
    List (Nat × Nat × MergeValue) :=
  gs.map (fun fh => (fh, copyBits (fh + 1) k, subNode f L fh (copyBits (fh + 1) k)))

theorem parentPath_eq {h k : Nat} (hh : h ≤ 255) (hk : k < 2 ^ 256) :
    parentPath h k = copyBits (h + 1) k := by
  unfold parentPath
  split
  · subst_vars
    exact (copyBits_256_eq_zero hk).symm
  · rfl

theorem parentPath_copyBits_succ {h k : Nat} (hh : h ≤ 255) (hk : k < 2 ^ 256) :
    parentPath h (copyBits (h + 1) k) = copyBits (h + 1) k := by
  unfold parentPath
  split
  · subst_vars
    exact (copyBits_256_eq_zero hk).symm
  · exact copyBits_copyBits (Nat.le_refl _) k

theorem merge_zero_left (f : HashFn) (h p : Nat) {z : MergeValue} (v : MergeValue)
    (hz : z.isZero = true) : merge f h p z v = merge f h p MergeValue.zero v := by
  have h0 : MergeValue.zero.isZero = true := rfl
  unfold merge
  rw [hz, h0]
  cases hv : v.isZero <;> simp [hv]

theorem merge_zero_right (f : HashFn) (h p : Nat) {z : MergeValue} (v : MergeValue)
    (hz : z.isZero = true) : merge f h p v z = merge f h p v MergeValue.zero := by
  have h0 : MergeValue.zero.isZero = true := rfl
  unfold merge
  rw [hz, h0]
  cases hv : v.isZero <;> simp [hv]

/-- One level of `subNode` above a key's path, split by the key's direction
bit: the node's sibling subtree sits at `sibPfx`. -/
theorem subNode_succ_self (f : HashFn) (L : Leaves) (k g : Nat) :
    subNode f L (g + 1) (copyBits (g + 1) k) =
      if k.testBit g then
        merge f g (copyBits (g + 1) k) (subNode f L g (sibPfx k g))
          (subNode f L g (copyBits g k))
      else
        merge f g (copyBits (g + 1) k) (subNode f L g (copyBits g k))
          (subNode f L g (sibPfx k g)) := by
  simp only [subNode]
  cases hb : k.testBit g
  · have hself : copyBits g k = copyBits (g + 1) k := by
      rw [copyBits_succ g k, hb]
      simp
    have hsib : sibPfx k g = copyBits (g + 1) k + 2 ^ g := by
      unfold sibPfx
      rw [hb]
      rfl
    rw [if_neg (by simp), hself, hsib]
  · have hself : copyBits g k = copyBits (g + 1) k + 2 ^ g := by
      rw [copyBits_succ g k, hb]
      simp
    have hsib : sibPfx k g = copyBits (g + 1) k := by
      unfold sibPfx
      rw [hb]
      rfl
    rw [if_pos rfl, hself, hsib]

/-- Well-formedness of the merge values arising on a bounded tree: digests fit
in 32 bytes, zero counts in a byte, and no `ShortCut` appears. -/
def MVGood : MergeValue → Prop
  | .Value v => v < 2 ^ 256
  | .MergeWithZero b zb zc => b < 2 ^ 256 ∧ zb < 2 ^ 256 ∧ zc < 256
  | .ShortCut _ _ _ => False

theorem mergeWithZero_good (f : HashFn) (hfb : HashBounded f) {h : Nat} (p : Nat)
    (hh : h < 256) {v : MergeValue} (hv : MVGood v) (flag : Bool) :
    MVGood (mergeWithZero f h p v flag) := by
  have hpow : (2 : Nat) ^ h < 2 ^ 256 := Nat.pow_lt_pow_right (by norm_num) hh
  cases v with
  | Value v =>
    refine ⟨hfb _, ?_, by norm_num⟩
    cases flag
    · simp
    · simpa [setBit, Nat.zero_or] using hpow
  | MergeWithZero b zb zc =>
    obtain ⟨hb, hzb, hzc⟩ := hv
    refine ⟨hb, ?_, Nat.mod_lt _ (by norm_num)⟩
    cases flag
    · simpa using hzb
    · simpa [setBit] using Nat.or_lt_two_pow hzb hpow
  | ShortCut key value ht => exact hv.elim

theorem merge_good (f : HashFn) (hfb : HashBounded f) {h : Nat} (p : Nat)
    (hh : h < 256) {l r : MergeValue} (hl : MVGood l) (hr : MVGood r) :
    MVGood (merge f h p l r) := by
  unfold merge
  split
  · exact Nat.pos_pow_of_pos 256 (by norm_num)
  · split
    · exact mergeWithZero_good f hfb p hh hr true
    · split
      · exact mergeWithZero_good f hfb p hh hl false
      · exact hfb _

theorem subNode_good (f : HashFn) (hfb : HashBounded f) (L : Leaves)
    (hLb : ∀ x v, L x = some v → v < 2 ^ 256) :
    ∀ (h pfx : Nat), h ≤ 256 → MVGood (subNode f L h pfx)
  | 0, pfx, _ => by
    simp only [subNode]
    rcases hx : L pfx with _ | v
    · simpa [hx] using Nat.pos_pow_of_pos 256 (by norm_num)
    · simpa [hx] using hLb pfx v hx
  | h + 1, pfx, hh => by
    simp only [subNode]
    exact merge_good f hfb pfx (by omega)
      (subNode_good f hfb L hLb h pfx (by omega))
      (subNode_good f hfb L hLb h (pfx + 2 ^ h) (by omega))

theorem wordToBytes_length (v : Nat) : (wordToBytes v).length = 32 := by
  simp [wordToBytes]

theorem bytesToWord_range (n : Nat) : ∀ v : Nat,
    bytesToWord ((List.range n).map (fun i => v / 256 ^ i % 256)) = v % 256 ^ n := by
  induction n with
  | zero => intro v; simp [bytesToWord, Nat.mod_one]
  | succ n ih =>
    intro v
    rw [List.range_succ_eq_map, List.map_cons, List.map_map]
    have hfun : ((fun i => v / 256 ^ i % 256) ∘ Nat.succ)
        = fun i => (v / 256) / 256 ^ i % 256 := by
      funext i
      simp only [Function.comp]
      rw [Nat.div_div_eq_div_mul, ← pow_succ']
    rw [hfun]
    have hcons : ∀ (a : Nat) (l : List Nat), bytesToWord (a :: l) = a + 256 * bytesToWord l :=
      fun a l => rfl
    rw [hcons, ih (v / 256)]
    have hmul : (256 : Nat) ^ (n + 1) = 256 * 256 ^ n := by rw [pow_succ']
    rw [hmul, Nat.mod_mul]
    simp [pow_zero]

theorem bytesToWord_wordToBytes {v : Nat} (hv : v < 2 ^ 256) :
    bytesToWord (wordToBytes v) = v := by
  unfold wordToBytes
  rw [bytesToWord_range 32 v]
  have h1 : (256 : Nat) ^ 32 = 2 ^ 256 := by norm_num
  rw [h1]
  exact Nat.mod_eq_of_lt hv

theorem forkHeightAux_le (a b : Nat) : ∀ h, forkHeightAux a b h ≤ h
  | 0 => by simp [forkHeightAux]
  | h + 1 => by
    unfold forkHeightAux
    split
    · exact Nat.le_refl _
    · exact le_trans (forkHeightAux_le a b h) (Nat.le_succ h)

theorem forkHeightAux_agree (a b : Nat) : ∀ h i, forkHeightAux a b h < i → i ≤ h →
    getBit a i = getBit b i
  | 0, i, h1, h2 => by
    simp [forkHeightAux] at h1
    omega
  | h + 1, i, h1, h2 => by
    unfold forkHeightAux at h1
    by_cases hd : getBit a (h + 1) ≠ getBit b (h + 1)
    · rw [if_pos hd] at h1
      omega
    · rw [if_neg hd] at h1
      rcases Nat.lt_or_ge i (h + 1) with hi | hi
      · exact forkHeightAux_agree a b h i h1 (by omega)
      · have : i = h + 1 := by omega
        subst this
        exact not_ne_iff.mp hd

theorem forkHeightAux_zero_or_ne (a b : Nat) : ∀ h, forkHeightAux a b h = 0 ∨
    getBit a (forkHeightAux a b h) ≠ getBit b (forkHeightAux a b h)
  | 0 => Or.inl (by simp [forkHeightAux])
  | h + 1 => by
    unfold forkHeightAux
    split
    · right
      assumption
    · exact forkHeightAux_zero_or_ne a b h

set_option maxRecDepth 2000 in
/-- The fork height of two sorted bounded keys: the lower key carries bit `0`
there, the higher key bit `1`, and all higher bits agree. -/
theorem forkHeight_spec {a b : Nat} (hab : a < b) (hb256 : b < 2 ^ 256) :
    forkHeight a b ≤ 255 ∧ a.testBit (forkHeight a b) = false ∧
      b.testBit (forkHeight a b) = true ∧
      copyBits (forkHeight a b + 1) a = copyBits (forkHeight a b + 1) b := by
  have hle : forkHeight a b ≤ 255 := forkHeightAux_le a b 255
  have ha256 : a < 2 ^ 256 := lt_trans hab hb256
  have hagree : ∀ i, forkHeight a b < i → a.testBit i = b.testBit i := by
    intro i hi
    rcases Nat.lt_or_ge i 256 with h2 | h2
    · exact forkHeightAux_agree a b 255 i hi (by omega)
    · have hpa : a < 2 ^ i := lt_of_lt_of_le ha256 (Nat.pow_le_pow_right (by norm_num) h2)
      have hpb : b < 2 ^ i := lt_of_lt_of_le hb256 (Nat.pow_le_pow_right (by norm_num) h2)
      rw [Nat.testBit_lt_two_pow hpa, Nat.testBit_lt_two_pow hpb]
  have hshift : a >>> (forkHeight a b + 1) = b >>> (forkHeight a b + 1) := by
    apply Nat.eq_of_testBit_eq
    intro i
    rw [Nat.testBit_shiftRight, Nat.testBit_shiftRight]
    exact hagree _ (by omega)
  have hcb : copyBits (forkHeight a b + 1) a = copyBits (forkHeight a b + 1) b := by
    rw [copyBits_eq_shift, copyBits_eq_shift, hshift]
  have hdiv : a / 2 ^ (forkHeight a b + 1) = b / 2 ^ (forkHeight a b + 1) := by
    have h1 := hshift
    rwa [Nat.shiftRight_eq_div_pow, Nat.shiftRight_eq_div_pow] at h1
  have hmodlt : a % 2 ^ (forkHeight a b + 1) < b % 2 ^ (forkHeight a b + 1) := by
    have h1 := Nat.div_add_mod a (2 ^ (forkHeight a b + 1))
    have h2 := Nat.div_add_mod b (2 ^ (forkHeight a b + 1))
    rw [hdiv] at h1
    have h3 : 2 ^ (forkHeight a b + 1) * (b / 2 ^ (forkHeight a b + 1))
          + a % 2 ^ (forkHeight a b + 1)
        < 2 ^ (forkHeight a b + 1) * (b / 2 ^ (forkHeight a b + 1))
          + b % 2 ^ (forkHeight a b + 1) := by
      rw [h1, h2]
      exact hab
    exact lt_of_add_lt_add_left h3
  have hsplita : a % 2 ^ (forkHeight a b + 1)
      = a % 2 ^ forkHeight a b + 2 ^ forkHeight a b * (a / 2 ^ forkHeight a b % 2) := by
    rw [pow_succ]
    exact Nat.mod_mul
  have hsplitb : b % 2 ^ (forkHeight a b + 1)
      = b % 2 ^ forkHeight a b + 2 ^ forkHeight a b * (b / 2 ^ forkHeight a b % 2) := by
    rw [pow_succ]
    exact Nat.mod_mul
  have hta : a.testBit (forkHeight a b) = decide (a / 2 ^ forkHeight a b % 2 = 1) :=
    Nat.testBit_to_div_mod
  have htb : b.testBit (forkHeight a b) = decide (b / 2 ^ forkHeight a b % 2 = 1) :=
    Nat.testBit_to_div_mod
  have hdne : a / 2 ^ forkHeight a b % 2 ≠ b / 2 ^ forkHeight a b % 2 := by
    rcases forkHeightAux_zero_or_ne a b 255 with h0 | hne
    · have h0' : forkHeight a b = 0 := h0
      intro he
      rw [h0'] at hmodlt he
      norm_num at hmodlt he
      omega
    · have hne' : a.testBit (forkHeight a b) ≠ b.testBit (forkHeight a b) := hne
      intro he
      exact hne' (by rw [hta, htb, he])
  have hpos : 0 < 2 ^ forkHeight a b := Nat.pos_pow_of_pos _ (by norm_num)
  have hma : a % 2 ^ forkHeight a b < 2 ^ forkHeight a b := Nat.mod_lt _ hpos
  have hmb : b % 2 ^ forkHeight a b < 2 ^ forkHeight a b := Nat.mod_lt _ hpos
  have h2a := Nat.mod_two_eq_zero_or_one (a / 2 ^ forkHeight a b)
  have h2b := Nat.mod_two_eq_zero_or_one (b / 2 ^ forkHeight a b)
  have hda : a / 2 ^ forkHeight a b % 2 = 0 ∧ b / 2 ^ forkHeight a b % 2 = 1 := by
    rcases h2a with h | h <;> rcases h2b with h' | h'
    · exact absurd (h.trans h'.symm) hdne
    · exact ⟨h, h'⟩
    · rw [h] at hsplita
      rw [h'] at hsplitb
      simp only [Nat.mul_one, Nat.mul_zero, Nat.add_zero] at hsplita hsplitb
      omega
    · exact absurd (h.trans h'.symm) hdne
  refine ⟨hle, ?_, ?_, hcb⟩
  · rw [hta, hda.1]
    rfl
  · rw [htb, hda.2]
    rfl

/-! ### The bitmap loop of `merkle_proof` -/

theorem foldl_setBit_testBit (cond : Nat → Bool) :
    ∀ (n bm i : Nat),
      ((List.range n).foldl (fun acc h => if cond h then setBit acc h else acc) bm).testBit i
        = (bm.testBit i || (decide (i < n) && cond i))
  | 0, bm, i => by simp
  | n + 1, bm, i => by
    rw [List.range_succ, List.foldl_append]
    simp only [List.foldl_cons, List.foldl_nil]
    cases hc : cond n
    · rw [if_neg Bool.false_ne_true]
      rw [foldl_setBit_testBit cond n bm i]
      by_cases hi : i = n
      · subst hi
        simp [hc]
      · have hd : (decide (i < n + 1) : Bool) = decide (i < n) :=
          decide_eq_decide.mpr (by omega)
        rw [hd]
    · rw [if_pos rfl]
      have houter : ∀ A : Nat, (setBit A n).testBit i = (A.testBit i || decide (n = i)) := by
        intro A
        unfold setBit
        rw [Nat.testBit_or, Nat.testBit_two_pow]
      rw [houter, foldl_setBit_testBit cond n bm i]
      by_cases hi : i = n
      · subst hi
        simp [hc]
      · have hd : (decide (i < n + 1) : Bool) = decide (i < n) :=
          decide_eq_decide.mpr (by omega)
        have hne : (decide (n = i) : Bool) = false := by
          simp
          omega
        rw [hd, hne, Bool.or_false]

/-- The per-height condition of the bitmap loop of src/tree.rs `merkle_proof`. -/
def bitCond (br : Branches) (k h : Nat) : Bool :=
  match br h (parentPath h k) with
  | some parentBranch =>
    !(if isRight k h then parentBranch.left else parentBranch.right).isZero
  | none => false

theorem leafBitmap_eq (br : Branches) (k : Nat) :
    leafBitmap br k
      = (List.range 256).foldl (fun bm h => if bitCond br k h then setBit bm h else bm) 0 := by
  unfold leafBitmap
  congr 1
  funext bm height
  unfold bitCond
  rcases hx : br height (parentPath height k) with _ | pb
  · rfl
  · rfl

/-- On a canonical store the bitmap bit at height `h` says exactly that the
key's sibling subtree at that height is nonzero. -/
theorem leafBitmap_spec (f : HashFn) {L : Leaves} {br : Branches}
    (hbr : ∀ g pk, g < 256 → pk % 2 ^ (g + 1) = 0 → pk < 2 ^ 256 →
      br g pk = canonBranch f L g pk)
    {k : Nat} (hk : k < 2 ^ 256) {h : Nat} (hh : h < 256) :
    getBit (leafBitmap br k) h = !(subNode f L h (sibPfx k h)).isZero := by
  rw [leafBitmap_eq]
  unfold getBit
  rw [foldl_setBit_testBit]
  simp only [Nat.zero_testBit, Bool.false_or, decide_eq_true hh, Bool.true_and]
  unfold bitCond
  rw [parentPath_eq (by omega) hk]
  rw [hbr h (copyBits (h + 1) k) hh (copyBits_mod _ _) (copyBits_lt_two_pow _ hk)]
  unfold canonBranch
  dsimp only
  cases hzz : ((subNode f L h (copyBits (h + 1) k)).isZero
      && (subNode f L h (copyBits (h + 1) k + 2 ^ h)).isZero)
  · rw [if_neg Bool.false_ne_true]
    dsimp only
    have hir : isRight k h = k.testBit h := rfl
    rw [hir]
    unfold sibPfx
    cases hb : k.testBit h
    · have hch : childPfx h (copyBits (h + 1) k) (!false) = copyBits (h + 1) k + 2 ^ h := rfl
      rw [hch, if_neg Bool.false_ne_true]
    · have hch : childPfx h (copyBits (h + 1) k) (!true) = copyBits (h + 1) k := rfl
      rw [hch, if_pos rfl]
  · rw [if_pos rfl]
    dsimp only
    rw [Bool.and_eq_true] at hzz
    unfold sibPfx
    cases hb : k.testBit h
    · have hch : childPfx h (copyBits (h + 1) k) (!false) = copyBits (h + 1) k + 2 ^ h := rfl
      rw [hch, hzz.2]
      rfl
    · have hch : childPfx h (copyBits (h + 1) k) (!true) = copyBits (h + 1) k := rfl
      rw [hch, hzz.1]
      rfl

/-! ### Zero subtrees and `get` on a canonical store -/

/-- With a nonzero hash, extending a node by a zero sibling keeps its
zero-ness. -/
theorem mergeWithZero_isZero (f : HashFn) (hf : HashNonZero f) (h p : Nat)
    (v : MergeValue) (flag : Bool)
    (hz : (mergeWithZero f h p v flag).isZero = true) : v.isZero = true := by
  cases v with
  | Value w =>
    exfalso
    simp only [mergeWithZero, MergeValue.isZero] at hz
    exact hf _ (by simpa using hz)
  | MergeWithZero b zb zc =>
    simp only [mergeWithZero, MergeValue.isZero] at hz ⊢
    exact hz
  | ShortCut key value ht =>
    simp only [mergeWithZero] at hz
    by_cases h255 : h = 255
    · exfalso
      rw [if_pos h255] at hz
      simp only [MergeValue.isZero] at hz
      exact hf _ (by simpa using hz)
    · rw [if_neg h255] at hz
      simp only [MergeValue.isZero] at hz ⊢
      exact hz

/-- With a nonzero hash, a zero merge result forces both children zero. -/
theorem merge_isZero_imp (f : HashFn) (hf : HashNonZero f) (h p : Nat)
    {l r : MergeValue} (hz : (merge f h p l r).isZero = true) :
    l.isZero = true ∧ r.isZero = true := by
  unfold merge at hz
  rcases hlz : l.isZero <;> rcases hrz : r.isZero <;> rw [hlz, hrz] at hz
  · rw [Bool.false_and, if_neg Bool.false_ne_true, if_neg Bool.false_ne_true,
      if_neg Bool.false_ne_true] at hz
    simp only [MergeValue.isZero] at hz
    exact absurd (by simpa using hz) (hf _)
  · rw [Bool.false_and, if_neg Bool.false_ne_true, if_neg Bool.false_ne_true,
      if_pos rfl] at hz
    have := mergeWithZero_isZero f hf h p l false hz
    rw [hlz] at this
    exact absurd this Bool.false_ne_true
  · rw [Bool.and_false, if_neg Bool.false_ne_true, if_pos rfl] at hz
    have := mergeWithZero_isZero f hf h p r true hz
    rw [hrz] at this
    exact absurd this Bool.false_ne_true
  · exact ⟨rfl, rfl⟩

/-- A zero subtree has only zero leaves. -/
theorem subNode_zero_leaves (f : HashFn) (hf : HashNonZero f) (L : Leaves) :
    ∀ (h pfx : Nat), (subNode f L h pfx).isZero = true →
      ∀ x, copyBits h x = pfx → (L x).getD 0 = 0
  | 0, pfx, hz, x, hx => by
    rw [copyBits_zero] at hx
    subst hx
    simp only [subNode, MergeValue.isZero] at hz
    simpa using hz
  | h + 1, pfx, hz, x, hx => by
    simp only [subNode] at hz
    have hboth := merge_isZero_imp f hf h pfx hz
    have hcx : copyBits h x = childPfx h pfx (x.testBit h) := copyBits_to_childPfx hx
    cases hb : x.testBit h
    · rw [hb] at hcx
      exact subNode_zero_leaves f hf L h pfx hboth.1 x hcx
    · rw [hb] at hcx
      exact subNode_zero_leaves f hf L h (pfx + 2 ^ h) hboth.2 x hcx

/-- On a canonical store, `get` returns the leaf-map value. -/
theorem getValue_canon (f : HashFn) (hf : HashNonZero f) {s : TreeState} {L : Leaves}
    (hc : Canon f s L) {k : Nat} (hk : k < 2 ^ 256) : getValue s k = (L k).getD 0 := by
  unfold getValue
  rw [hc.1]
  split
  · rename_i h0
    have hr := hc.2.2.2
    rcases subNode_shape f hf L 256 0 with ⟨v, hv⟩ | ⟨b, zb, zc, hbe, hbne⟩
    · have hv0 : v = 0 := by
        rw [hv] at hr
        simp only [MergeValue.hash] at hr
        omega
      have hz : (subNode f L 256 0).isZero = true := by
        rw [hv, hv0]
        rfl
      exact (subNode_zero_leaves f hf L 256 0 hz k (copyBits_256_eq_zero hk)).symm
    · rw [hbe] at hr
      simp only [MergeValue.hash] at hr
      exact absurd (hr.symm.trans h0) (hf _)
  · rfl

/-! ### Segment execution of the verifier -/

theorem runProofAux_nil (f : HashFn) (fuel : Nat) (lv : List (Nat × Nat))
    (st : List (Nat × Nat × MergeValue)) :
    runProofAux f fuel [] lv st = .ok (st, lv) := by
  cases fuel <;> rfl

theorem segRun_nil (f : HashFn) (lv : List (Nat × Nat))
    (st : List (Nat × Nat × MergeValue)) : SegRun f [] lv lv st st := by
  intro tail fuel h
  exact ⟨fuel, by simpa using h, by rw [List.nil_append]⟩

theorem segRun_trans {f : HashFn} {B1 B2 : List Nat} {lv1 lv2 lv3 : List (Nat × Nat)}
    {st1 st2 st3 : List (Nat × Nat × MergeValue)}
    (h1 : SegRun f B1 lv1 lv2 st1 st2) (h2 : SegRun f B2 lv2 lv3 st2 st3) :
    SegRun f (B1 ++ B2) lv1 lv3 st1 st3 := by
  intro tail fuel hf
  rw [List.length_append] at hf
  obtain ⟨f1, hl1, he1⟩ := h1 (B2 ++ tail) fuel (by rw [List.length_append]; omega)
  rw [List.length_append] at hl1
  obtain ⟨f2, hl2, he2⟩ := h2 tail f1 (by omega)
  refine ⟨f2, hl2, ?_⟩
  rw [List.append_assoc]
  exact he1.trans he2

theorem segRun_leaf (f : HashFn) (k v : Nat) (lv : List (Nat × Nat))
    (st : List (Nat × Nat × MergeValue)) :
    SegRun f [0x4C] ((k, v) :: lv) lv st ((0, k, MergeValue.Value v) :: st) := by
  intro tail fuel hf
  rcases fuel with _ | fuel
  · exact absurd hf (by simp)
  refine ⟨fuel, by simp only [List.length_cons, List.length_nil] at hf; omega, ?_⟩
  rfl

theorem segRun_op50 (f : HashFn) (g key : Nat) (value : MergeValue) (v : Nat)
    (hg : g ≤ 255) (hv : v < 2 ^ 256) (lv : List (Nat × Nat))
    (stail : List (Nat × Nat × MergeValue)) :
    SegRun f (0x50 :: wordToBytes v) lv lv ((g, key, value) :: stail)
      ((g + 1, parentPath g key,
        if getBit key g then merge f g (parentPath g key) (MergeValue.Value v) value
        else merge f g (parentPath g key) value (MergeValue.Value v)) :: stail) := by
  intro tail fuel hf
  rcases fuel with _ | fuel
  · exact absurd hf (by simp)
  refine ⟨fuel, ?_, ?_⟩
  · simp only [List.length_cons, List.length_append, wordToBytes_length] at hf
    omega
  · rw [List.cons_append]
    have hred : runProofAux f (fuel + 1) (0x50 :: (wordToBytes v ++ tail)) lv
          ((g, key, value) :: stail)
        = (if (wordToBytes v ++ tail).length < 32 then Except.error Error.CorruptedProof
           else if g > 255 then Except.error Error.CorruptedProof
           else runProofAux f fuel ((wordToBytes v ++ tail).drop 32) lv
             ((g + 1, parentPath g key,
               if getBit key g then
                 merge f g (parentPath g key)
                   (MergeValue.Value (bytesToWord ((wordToBytes v ++ tail).take 32))) value
               else
                 merge f g (parentPath g key) value
                   (MergeValue.Value (bytesToWord ((wordToBytes v ++ tail).take 32))))
               :: stail)) := rfl
    rw [hred]
    rw [if_neg (show ¬((wordToBytes v ++ tail).length < 32) by
      rw [List.length_append, wordToBytes_length]; omega)]
    rw [if_neg (show ¬(g > 255) by omega)]
    rw [List.take_left' (wordToBytes_length v), List.drop_left' (wordToBytes_length v),
      bytesToWord_wordToBytes hv]

theorem segRun_op51 (f : HashFn) (g key : Nat) (value : MergeValue) (b zb zc : Nat)
    (hg : g ≤ 255) (hb : b < 2 ^ 256) (hzb : zb < 2 ^ 256) (lv : List (Nat × Nat))
    (stail : List (Nat × Nat × MergeValue)) :
    SegRun f (0x51 :: zc :: (wordToBytes b ++ wordToBytes zb)) lv lv
      ((g, key, value) :: stail)
      ((g + 1, parentPath g key,
        if getBit key g then
          merge f g (parentPath g key) (MergeValue.MergeWithZero b zb zc) value
        else merge f g (parentPath g key) value (MergeValue.MergeWithZero b zb zc))
        :: stail) := by
  intro tail fuel hf
  rcases fuel with _ | fuel
  · exact absurd hf (by simp)
  refine ⟨fuel, ?_, ?_⟩
  · simp only [List.length_cons, List.length_append, wordToBytes_length] at hf
    omega
  · rw [List.cons_append, List.cons_append, List.append_assoc]
    have hred : runProofAux f (fuel + 1)
          (0x51 :: (zc :: (wordToBytes b ++ (wordToBytes zb ++ tail)))) lv
          ((g, key, value) :: stail)
        = (if (zc :: (wordToBytes b ++ (wordToBytes zb ++ tail))).length < 65 then
             Except.error Error.CorruptedProof
           else if g > 255 then Except.error Error.CorruptedProof
           else runProofAux f fuel
             ((zc :: (wordToBytes b ++ (wordToBytes zb ++ tail))).drop 65) lv
             ((g + 1, parentPath g key,
               if getBit key g then
                 merge f g (parentPath g key)
                   (MergeValue.MergeWithZero
                     (bytesToWord (((zc :: (wordToBytes b ++ (wordToBytes zb ++ tail))).drop 1).take 32))
                     (bytesToWord (((zc :: (wordToBytes b ++ (wordToBytes zb ++ tail))).drop 33).take 32))
                     ((zc :: (wordToBytes b ++ (wordToBytes zb ++ tail))).headD 0)) value
               else
                 merge f g (parentPath g key) value
                   (MergeValue.MergeWithZero
                     (bytesToWord (((zc :: (wordToBytes b ++ (wordToBytes zb ++ tail))).drop 1).take 32))
                     (bytesToWord (((zc :: (wordToBytes b ++ (wordToBytes zb ++ tail))).drop 33).take 32))
                     ((zc :: (wordToBytes b ++ (wordToBytes zb ++ tail))).headD 0)))
               :: stail)) := rfl
    rw [hred]
    rw [if_neg (show ¬((zc :: (wordToBytes b ++ (wordToBytes zb ++ tail))).length < 65) by
      simp only [List.length_cons, List.length_append, wordToBytes_length]; omega)]
    rw [if_neg (show ¬(g > 255) by omega)]
    have hhead : (zc :: (wordToBytes b ++ (wordToBytes zb ++ tail))).headD 0 = zc := rfl
    have hdrop1 : (zc :: (wordToBytes b ++ (wordToBytes zb ++ tail))).drop 1
        = wordToBytes b ++ (wordToBytes zb ++ tail) := rfl
    have hdrop33 : (zc :: (wordToBytes b ++ (wordToBytes zb ++ tail))).drop 33
        = wordToBytes zb ++ tail := by
      have h1 : (zc :: (wordToBytes b ++ (wordToBytes zb ++ tail))).drop 33
          = (wordToBytes b ++ (wordToBytes zb ++ tail)).drop 32 := rfl
      rw [h1, List.drop_left' (wordToBytes_length b)]
    have hdrop65 : (zc :: (wordToBytes b ++ (wordToBytes zb ++ tail))).drop 65 = tail := by
      have h1 : (zc :: (wordToBytes b ++ (wordToBytes zb ++ tail))).drop 65
          = (wordToBytes b ++ (wordToBytes zb ++ tail)).drop 64 := rfl
      have h2 : (wordToBytes b ++ (wordToBytes zb ++ tail)).drop 64
          = ((wordToBytes b ++ (wordToBytes zb ++ tail)).drop 32).drop 32 := by
        rw [List.drop_drop]
      rw [h1, h2, List.drop_left' (wordToBytes_length b),
        List.drop_left' (wordToBytes_length zb)]
    rw [hhead, hdrop1, hdrop33, hdrop65, List.take_left' (wordToBytes_length b),
      List.take_left' (wordToBytes_length zb), bytesToWord_wordToBytes hb,
      bytesToWord_wordToBytes hzb]

theorem segRun_opH (f : HashFn) (h ka kb : Nat) (va vb : MergeValue)
    (hh : h ≤ 255) (hkk : parentPath h ka = parentPath h kb) (lv : List (Nat × Nat))
    (stail : List (Nat × Nat × MergeValue)) :
    SegRun f [0x48] lv lv ((h, kb, vb) :: (h, ka, va) :: stail)
      ((h + 1, parentPath h ka,
        if getBit ka h then merge f h (parentPath h ka) vb va
        else merge f h (parentPath h ka) va vb) :: stail) := by
  intro tail fuel hf
  rcases fuel with _ | fuel
  · exact absurd hf (by simp)
  refine ⟨fuel, by simp only [List.length_cons, List.length_nil] at hf; omega, ?_⟩
  rw [List.cons_append, List.nil_append]
  have hred : runProofAux f (fuel + 1) (0x48 :: tail) lv
        ((h, kb, vb) :: (h, ka, va) :: stail)
      = (if h ≠ h then Except.error Error.CorruptedProof
         else if h > 255 then Except.error Error.CorruptedProof
         else if parentPath h ka ≠ parentPath h kb then Except.error Error.CorruptedProof
         else runProofAux f fuel tail lv
           ((h + 1, parentPath h ka,
             if getBit ka h then merge f h (parentPath h ka) vb va
             else merge f h (parentPath h ka) va vb) :: stail)) := rfl
  rw [hred]
  rw [if_neg (show ¬(h ≠ h) from fun hc => hc rfl)]
  rw [if_neg (show ¬(h > 255) by omega)]
  rw [if_neg (not_not_intro hkk)]

/-- The `O`-op inner loop climbs through a run of zero siblings, rebuilding
each `subNode` level. -/
theorem zeroMergeLoop_spec (f : HashFn) (L : Leaves) (k b0 : Nat) (hk : k < 2 ^ 256) :
    ∀ (r idx x y : Nat) (v : MergeValue),
      b0 + idx + r + 1 ≤ 256 →
      v = subNode f L (b0 + idx) (copyBits (b0 + idx) k) →
      (∀ g, b0 + idx ≤ g → g ≤ b0 + idx + r → (subNode f L g (sibPfx k g)).isZero = true) →
      zeroMergeLoop f (copyBits b0 k) b0 (r + 1) idx (x, y, v) =
        .ok (b0 + idx + r, copyBits (b0 + idx + r + 1) k,
          subNode f L (b0 + idx + r + 1) (copyBits (b0 + idx + r + 1) k))
  | r, idx, x, y, v, hb, hv, hz => by
    have hgb : getBit (copyBits b0 k) (b0 + idx) = k.testBit (b0 + idx) := by
      unfold getBit
      rw [testBit_copyBits]
      rw [if_pos (by omega)]
    have hpp : parentPath (b0 + idx) (copyBits b0 k) = copyBits (b0 + idx + 1) k := by
      unfold parentPath
      split
      · rename_i h255
        rw [h255]
        exact (copyBits_256_eq_zero hk).symm
      · exact copyBits_copyBits (by omega) k
    have hstep : (if getBit (copyBits b0 k) (b0 + idx) then
          merge f (b0 + idx) (parentPath (b0 + idx) (copyBits b0 k)) MergeValue.zero v
        else merge f (b0 + idx) (parentPath (b0 + idx) (copyBits b0 k)) v MergeValue.zero)
        = subNode f L (b0 + idx + 1) (copyBits (b0 + idx + 1) k) := by
      rw [hgb, hpp, hv, subNode_succ_self f L k (b0 + idx)]
      cases hbit : k.testBit (b0 + idx)
      · rw [if_neg Bool.false_ne_true, if_neg Bool.false_ne_true]
        exact (merge_zero_right f (b0 + idx) (copyBits (b0 + idx + 1) k) _
          (hz (b0 + idx) (by omega) (by omega))).symm
      · rw [if_pos rfl, if_pos rfl]
        exact (merge_zero_left f (b0 + idx) (copyBits (b0 + idx + 1) k) _
          (hz (b0 + idx) (by omega) (by omega))).symm
    match r with
    | 0 =>
      unfold zeroMergeLoop
      rw [if_neg (show ¬(b0 + idx > 255) by omega)]
      unfold zeroMergeLoop
      rw [hstep, hpp]
      rfl
    | r + 1 =>
      unfold zeroMergeLoop
      rw [if_neg (show ¬(b0 + idx > 255) by omega)]
      dsimp only
      rw [hstep]
      have hrec := zeroMergeLoop_spec f L k b0 hk r (idx + 1) (b0 + idx)
        (parentPath (b0 + idx) (copyBits b0 k))
        (subNode f L (b0 + idx + 1) (copyBits (b0 + idx + 1) k))
        (by omega) (by rw [show b0 + (idx + 1) = b0 + idx + 1 by omega])
        (fun g hg1 hg2 => hz g (by omega) (by omega))
      rw [show b0 + (idx + 1) = b0 + idx + 1 by omega] at hrec
      rw [show b0 + idx + 1 + r = b0 + idx + (r + 1) by omega] at hrec
      exact hrec

theorem segRun_opO (f : HashFn) (L : Leaves) (k b n : Nat) (hk : k < 2 ^ 256)
    (hn1 : 1 ≤ n) (hbn : b + n ≤ 256)
    (hz : ∀ g, b ≤ g → g < b + n → (subNode f L g (sibPfx k g)).isZero = true)
    (lv : List (Nat × Nat)) (stail : List (Nat × Nat × MergeValue)) :
    SegRun f [0x4F, if n = 256 then 0 else n] lv lv
      (vEntry f L k b :: stail) (vEntry f L k (b + n) :: stail) := by
  intro tail fuel hf
  rcases fuel with _ | fuel
  · exact absurd hf (by simp)
  refine ⟨fuel, by simp only [List.length_cons, List.length_nil] at hf; omega, ?_⟩
  rw [List.cons_append, List.cons_append, List.nil_append]
  have hred : runProofAux f (fuel + 1) (0x4F :: ((if n = 256 then 0 else n) :: tail)) lv
        (vEntry f L k b :: stail)
      = (if b > 255 then Except.error Error.CorruptedProof
         else match zeroMergeLoop f (copyBits b k) b
            (if (if n = 256 then 0 else n) = 0 then 256 else (if n = 256 then 0 else n)) 0
            (b, copyBits b k, subNode f L b (copyBits b k)) with
          | Except.error e => Except.error e
          | Except.ok (hU16, pk, v) =>
            runProofAux f fuel tail lv ((hU16 + 1, pk, v) :: stail)) := rfl
  rw [hred]
  have hzc : (if (if n = 256 then 0 else n) = 0 then 256 else (if n = 256 then 0 else n))
      = n := by
    split_ifs <;> omega
  rw [hzc]
  rw [if_neg (show ¬(b > 255) by omega)]
  obtain ⟨r, rfl⟩ : ∃ r, n = r + 1 := ⟨n - 1, by omega⟩
  have hloop := zeroMergeLoop_spec f L k b hk r 0 b (copyBits b k)
    (subNode f L b (copyBits b k)) (by omega) (by rw [Nat.add_zero]) ?_
  · rw [show b + 0 = b by omega] at hloop
    rw [hloop]
    show runProofAux f fuel tail lv
        ((b + r + 1, copyBits (b + r + 1) k,
          subNode f L (b + r + 1) (copyBits (b + r + 1) k)) :: stail)
      = runProofAux f fuel tail lv (vEntry f L k (b + (r + 1)) :: stail)
    rw [show b + (r + 1) = b + r + 1 by omega]
    rfl
  · intro g hg1 hg2
    exact hz g (by omega) (by omega)

theorem segRun_flush (f : HashFn) (L : Leaves) (k b zc : Nat) (hk : k < 2 ^ 256)
    (hbzc : b + zc ≤ 256)
    (hz : ∀ g, b ≤ g → g < b + zc → (subNode f L g (sibPfx k g)).isZero = true)
    (lv : List (Nat × Nat)) (stail : List (Nat × Nat × MergeValue)) :
    SegRun f (flushZeros zc) lv lv (vEntry f L k b :: stail)
      (vEntry f L k (b + zc) :: stail) := by
  rcases Nat.eq_zero_or_pos zc with h0 | hpos
  · subst h0
    unfold flushZeros
    rw [if_neg (by omega)]
    rw [show b + 0 = b by omega]
    exact segRun_nil f lv (vEntry f L k b :: stail)
  · unfold flushZeros
    rw [if_pos hpos]
    exact segRun_opO f L k b zc hk hpos hbzc hz lv stail

/-- The byte encoding of one merkle-path node emitted by `compile`. -/
def serializeMV : MergeValue → List Nat
  | .Value v => 0x50 :: wordToBytes v
  | .MergeWithZero b zb zc => 0x51 :: zc :: (wordToBytes b ++ wordToBytes zb)
  | .ShortCut _ v _ => 0x52 :: wordToBytes v

theorem vStackOf_cons (f : HashFn) (L : Leaves) (k e : Nat) (gs : List Nat) :
    vStackOf f L k (e :: gs)
      = (e, copyBits (e + 1) k, subNode f L e (copyBits (e + 1) k)) :: vStackOf f L k gs :=
  rfl

/-- Executing the serialized sibling op climbs the working entry one level. -/
theorem segRun_sib (f : HashFn) (L : Leaves) (k h : Nat) (hk : k < 2 ^ 256)
    (hh : h ≤ 255) (sib : MergeValue) (hsib : subNode f L h (sibPfx k h) = sib)
    (hgood : MVGood sib) (lv : List (Nat × Nat))
    (stail : List (Nat × Nat × MergeValue)) :
    SegRun f (serializeMV sib) lv lv (vEntry f L k h :: stail)
      (vEntry f L k (h + 1) :: stail) := by
  cases sib with
  | ShortCut a b c => exact hgood.elim
  | Value v =>
    have hrun := segRun_op50 f h (copyBits h k) (subNode f L h (copyBits h k)) v hh hgood
      lv stail
    have hent : (h + 1, parentPath h (copyBits h k),
        if getBit (copyBits h k) h then
          merge f h (parentPath h (copyBits h k)) (MergeValue.Value v)
            (subNode f L h (copyBits h k))
        else merge f h (parentPath h (copyBits h k)) (subNode f L h (copyBits h k))
          (MergeValue.Value v))
        = vEntry f L k (h + 1) := by
      unfold vEntry
      rw [parentPath_copyBits hh hk, getBit_copyBits_self, subNode_succ_self f L k h, hsib]
      rfl
    rw [hent] at hrun
    exact hrun
  | MergeWithZero b zb zc =>
    obtain ⟨hb, hzb, hzc⟩ := hgood
    have hrun := segRun_op51 f h (copyBits h k) (subNode f L h (copyBits h k)) b zb zc hh
      hb hzb lv stail
    have hent : (h + 1, parentPath h (copyBits h k),
        if getBit (copyBits h k) h then
          merge f h (parentPath h (copyBits h k)) (MergeValue.MergeWithZero b zb zc)
            (subNode f L h (copyBits h k))
        else merge f h (parentPath h (copyBits h k)) (subNode f L h (copyBits h k))
          (MergeValue.MergeWithZero b zb zc))
        = vEntry f L k (h + 1) := by
      unfold vEntry
      rw [parentPath_copyBits hh hk, getBit_copyBits_self, subNode_succ_self f L k h, hsib]
      rfl
    rw [hent] at hrun
    exact hrun

theorem sortKeys_sorted {keys : List Nat} (hs : keys.Pairwise (· < ·)) :
    sortKeys keys = keys := by
  unfold sortKeys
  exact List.mergeSort_of_sorted (hs.imp (fun hab => decide_eq_true (Nat.le_of_lt hab)))

theorem sortLeaves_map_sorted {keys : List Nat} (hs : keys.Pairwise (· < ·))
    (val : Nat → Nat) :
    sortLeaves (keys.map (fun k => (k, val k))) = keys.map (fun k => (k, val k)) := by
  unfold sortLeaves
  apply List.mergeSort_of_sorted
  rw [List.pairwise_map]
  exact hs.imp (fun hab => decide_eq_true (Nat.le_of_lt hab))

/-! ### Step equations for the path-collection and compilation loops -/

theorem collectSiblings_pop (br : Branches) (k bm h : Nat) (hs gst : List Nat)
    (path : List MergeValue) :
    collectSiblings br k bm (h :: hs) (h :: gst) path
      = collectSiblings br k bm hs gst path := by
  conv_lhs => unfold collectSiblings
  dsimp only
  rw [if_pos rfl]

theorem compileHeights_pop (bm h : Nat) (hs gst : List Nat) (pathRem : List MergeValue)
    (bytes : List Nat) (zc : Nat) :
    compileHeights bm (h :: hs) (h :: gst) pathRem bytes zc
      = compileHeights bm hs gst pathRem (bytes ++ flushZeros zc ++ [0x48]) 0 := by
  conv_lhs => unfold compileHeights
  dsimp only
  rw [if_pos rfl]

theorem collectSiblings_step_nopop (br : Branches) (k bm h : Nat) (hs gs : List Nat)
    (path : List MergeValue) (hnp : ∀ gst : List Nat, gs ≠ h :: gst) :
    collectSiblings br k bm (h :: hs) gs path
      = (if getBit bm h then
          match br h (parentPath h k) with
          | some parentBranch =>
            if !(if isRight k h then parentBranch.left else parentBranch.right).isZero then
              collectSiblings br k bm hs gs
                (path ++ [if isRight k h then parentBranch.left else parentBranch.right])
            else none
          | none => collectSiblings br k bm hs gs path
        else collectSiblings br k bm hs gs path) := by
  rcases gs with _ | ⟨e, gst⟩
  · rfl
  · have hne : e ≠ h := fun he => hnp gst (by rw [he])
    conv_lhs => unfold collectSiblings
    dsimp only
    rw [if_neg hne]

theorem compileHeights_step_nopop (bm h : Nat) (hs gs : List Nat)
    (pathRem : List MergeValue) (bytes : List Nat) (zc : Nat)
    (hnp : ∀ gst : List Nat, gs ≠ h :: gst) :
    compileHeights bm (h :: hs) gs pathRem bytes zc
      = (if getBit bm h then
          match pathRem with
          | [] => .error .CorruptedProof
          | node :: pathRem' =>
            compileHeights bm hs gs pathRem' (bytes ++ flushZeros zc ++ serializeMV node) 0
        else if zc + 1 > 256 then .error .CorruptedProof
        else compileHeights bm hs gs pathRem bytes (zc + 1)) := by
  rcases gs with _ | ⟨e, gst⟩
  · rfl
  · have hne : e ≠ h := fun he => hnp gst (by rw [he])
    conv_lhs => unfold compileHeights
    dsimp only
    rw [if_neg hne]
    rcases pathRem with _ | ⟨node, pr⟩
    · rfl
    · cases node <;> rfl

theorem collectSiblings_step_push (br : Branches) (k bm h : Nat) (hs gs : List Nat)
    (path : List MergeValue) (hnp : ∀ gst : List Nat, gs ≠ h :: gst)
    (hbit : getBit bm h = true) (pb : BranchNode)
    (hbr : br h (parentPath h k) = some pb) (sib : MergeValue)
    (hsel : (if isRight k h then pb.left else pb.right) = sib)
    (hnzb : sib.isZero = false) :
    collectSiblings br k bm (h :: hs) gs path
      = collectSiblings br k bm hs gs (path ++ [sib]) := by
  rw [collectSiblings_step_nopop br k bm h hs gs path hnp, if_pos hbit, hbr]
  dsimp only
  rw [hsel, hnzb]
  rfl

theorem collectSiblings_step_zero (br : Branches) (k bm h : Nat) (hs gs : List Nat)
    (path : List MergeValue) (hnp : ∀ gst : List Nat, gs ≠ h :: gst)
    (hbit : getBit bm h = false) :
    collectSiblings br k bm (h :: hs) gs path = collectSiblings br k bm hs gs path := by
  rw [collectSiblings_step_nopop br k bm h hs gs path hnp]
  rw [if_neg (fun hc => Bool.false_ne_true (hbit.symm.trans hc))]

theorem compileHeights_step_push (bm h : Nat) (hs gs : List Nat) (node : MergeValue)
    (pathRem' : List MergeValue) (bytes : List Nat) (zc : Nat)
    (hnp : ∀ gst : List Nat, gs ≠ h :: gst) (hbit : getBit bm h = true) :
    compileHeights bm (h :: hs) gs (node :: pathRem') bytes zc
      = compileHeights bm hs gs pathRem' (bytes ++ flushZeros zc ++ serializeMV node) 0 := by
  rw [compileHeights_step_nopop bm h hs gs (node :: pathRem') bytes zc hnp, if_pos hbit]

theorem compileHeights_step_zero (bm h : Nat) (hs gs : List Nat)
    (pathRem : List MergeValue) (bytes : List Nat) (zc : Nat)
    (hnp : ∀ gst : List Nat, gs ≠ h :: gst) (hbit : getBit bm h = false)
    (hzc : zc + 1 ≤ 256) :
    compileHeights bm (h :: hs) gs pathRem bytes zc
      = compileHeights bm hs gs pathRem bytes (zc + 1) := by
  rw [compileHeights_step_nopop bm h hs gs pathRem bytes zc hnp]
  rw [if_neg (fun hc => Bool.false_ne_true (hbit.symm.trans hc))]
  rw [if_neg (show ¬(zc + 1 > 256) by omega)]

/-- The joint climb of one leaf over a height interval: the generator collects
exactly the nonzero siblings, the compiler consumes exactly those path nodes
and emits a byte segment, and the verifier executes that segment reproducing
the canonical subtree value at each level. -/
theorem leafSweep (f : HashFn) (hf : HashNonZero f) (hfb : HashBounded f) (L : Leaves)
    (hLb : ∀ x v, L x = some v → v < 2 ^ 256) (br : Branches) (k : Nat) (hk : k < 2 ^ 256)
    (bm : Nat)
    (hbm : ∀ g, g < 256 → getBit bm g = !(subNode f L g (sibPfx k g)).isZero)
    (hbrs : ∀ g, g < 256 → br g (parentPath g k) = canonBranch f L g (copyBits (g + 1) k)) :
    ∀ (cnt h zc : Nat) (gs : List Nat),
      h + cnt ≤ 256 → zc ≤ h → gs.Pairwise (· < ·) →
      (∀ e ∈ gs, h ≤ e ∧ e < 256 ∧ k.testBit e = true) →
      (∀ g, h - zc ≤ g → g < h → (subNode f L g (sibPfx k g)).isZero = true) →
      ∃ (gs' : List Nat) (zc' : Nat) (sibs : List MergeValue) (B : List Nat),
        (∀ path, collectSiblings br k bm (List.range' h cnt) gs path
          = some (gs', path ++ sibs))
        ∧ (∀ (pathTail : List MergeValue) (bytes0 : List Nat),
            compileHeights bm (List.range' h cnt) gs (sibs ++ pathTail) bytes0 zc
              = .ok (gs', pathTail, bytes0 ++ B, zc'))
        ∧ (∀ lv, SegRun f B lv lv (vEntry f L k (h - zc) :: vStackOf f L k gs)
            (vEntry f L k (h + cnt - zc') :: vStackOf f L k gs'))
        ∧ zc' ≤ h + cnt
        ∧ (∀ g, h + cnt - zc' ≤ g → g < h + cnt →
            (subNode f L g (sibPfx k g)).isZero = true)
        ∧ gs'.Pairwise (· < ·)
        ∧ (∀ e ∈ gs', h + cnt ≤ e ∧ e < 256 ∧ k.testBit e = true)
  | 0, h, zc, gs, hcnt, hzc, hsort, hprops, hzrun => by
    refine ⟨gs, zc, [], [], ?_, ?_, ?_, by omega, ?_, hsort, ?_⟩
    · intro path
      rw [List.append_nil]
      rfl
    · intro pathTail bytes0
      rw [List.nil_append, List.append_nil]
      rfl
    · intro lv
      rw [show h + 0 - zc = h - zc by omega]
      exact segRun_nil f lv _
    · intro g hg1 hg2
      exact hzrun g (by omega) (by omega)
    · intro e he
      obtain ⟨h1, h2, h3⟩ := hprops e he
      exact ⟨by omega, h2, h3⟩
  | cnt + 1, h, zc, gs, hcnt, hzc, hsort, hprops, hzrun => by
    have hrange : List.range' h (cnt + 1) = h :: List.range' (h + 1) cnt :=
      List.range'_succ h cnt 1
    by_cases hpophit : ∃ gst, gs = h :: gst
    · -- the fork-height stack pops: emit an `H` op
      obtain ⟨gst, rfl⟩ := hpophit
      obtain ⟨hh1, hh2, hh3⟩ := hprops h (List.mem_cons_self _ _)
      have hsort' := hsort.of_cons
      have hprops' : ∀ e ∈ gst, h + 1 ≤ e ∧ e < 256 ∧ k.testBit e = true := by
        intro e he
        obtain ⟨g1, g2, g3⟩ := hprops e (List.mem_cons_of_mem _ he)
        have := List.rel_of_pairwise_cons hsort he
        exact ⟨by omega, g2, g3⟩
      obtain ⟨gs', zc', sibs, B, hcol, hcomp, hseg, hzc', hzr', hsortF, hpropsF⟩ :=
        leafSweep f hf hfb L hLb br k hk bm hbm hbrs cnt (h + 1) 0 gst (by omega)
          (by omega) hsort' hprops' (fun g hg1 hg2 => absurd hg2 (by omega))
      refine ⟨gs', zc', sibs, flushZeros zc ++ ([0x48] ++ B), ?_, ?_, ?_, by omega, ?_,
        hsortF, ?_⟩
      · intro path
        rw [hrange, collectSiblings_pop]
        exact hcol path
      · intro pathTail bytes0
        rw [hrange, compileHeights_pop]
        rw [hcomp pathTail (bytes0 ++ flushZeros zc ++ [0x48])]
        simp only [List.append_assoc]
      · intro lv
        have hflush := segRun_flush f L k (h - zc) zc hk (by omega)
          (fun g hg1 hg2 => hzrun g (by omega) (by omega)) lv (vStackOf f L k (h :: gst))
        rw [show h - zc + zc = h by omega] at hflush
        have hpp1 : parentPath h (copyBits (h + 1) k) = copyBits (h + 1) k :=
          parentPath_copyBits_succ (by omega) hk
        have hH := segRun_opH f h (copyBits (h + 1) k) (copyBits h k)
          (subNode f L h (copyBits (h + 1) k)) (subNode f L h (copyBits h k)) (by omega)
          (by rw [hpp1, parentPath_copyBits (by omega) hk]) lv (vStackOf f L k gst)
        have hgb0 : getBit (copyBits (h + 1) k) h = false := by
          unfold getBit
          rw [testBit_copyBits]
          rw [if_neg (by omega)]
        have hsib2 : sibPfx k h = copyBits (h + 1) k := by
          unfold sibPfx
          rw [hh3]
          rfl
        have hent : (h + 1, parentPath h (copyBits (h + 1) k),
            if getBit (copyBits (h + 1) k) h then
              merge f h (parentPath h (copyBits (h + 1) k)) (subNode f L h (copyBits h k))
                (subNode f L h (copyBits (h + 1) k))
            else merge f h (parentPath h (copyBits (h + 1) k))
              (subNode f L h (copyBits (h + 1) k)) (subNode f L h (copyBits h k)))
            = vEntry f L k (h + 1) := by
          rw [hgb0, if_neg Bool.false_ne_true, hpp1]
          unfold vEntry
          rw [subNode_succ_self f L k h, if_pos hh3, hsib2]
        rw [hent] at hH
        have hcomb := segRun_trans hflush (segRun_trans hH (hseg lv))
        rw [show h + (cnt + 1) - zc' = h + 1 + cnt - zc' by omega]
        exact hcomb
      · intro g hg1 hg2
        exact hzr' g (by omega) (by omega)
      · intro e he
        obtain ⟨a, b, c⟩ := hpropsF e he
        exact ⟨by omega, b, c⟩
    · -- no pop at this height
      have hnp : ∀ gst : List Nat, gs ≠ h :: gst := fun gst he => hpophit ⟨gst, he⟩
      have hnotin : h ∉ gs := by
        intro hin
        rcases hgs0 : gs with _ | ⟨e0, gst⟩
        · rw [hgs0] at hin
          exact absurd hin (List.not_mem_nil _)
        · rw [hgs0] at hin
          rcases List.mem_cons.mp hin with he0 | hin2
          · exact hnp gst (by rw [hgs0, ← he0])
          · obtain ⟨g1, _, _⟩ := hprops e0 (by rw [hgs0]; exact List.mem_cons_self _ _)
            have hlt : e0 < h := List.rel_of_pairwise_cons (hgs0 ▸ hsort) hin2
            omega
      have hprops1 : ∀ e ∈ gs, h + 1 ≤ e ∧ e < 256 ∧ k.testBit e = true := by
        intro e he
        obtain ⟨g1, g2, g3⟩ := hprops e he
        have : e ≠ h := fun heq => hnotin (heq ▸ he)
        exact ⟨by omega, g2, g3⟩
      cases hgb : getBit bm h with
      | false =>
        have hz_h : (subNode f L h (sibPfx k h)).isZero = true := by
          have hb2 := hbm h (by omega)
          rw [hgb] at hb2
          cases hxx : (subNode f L h (sibPfx k h)).isZero
          · rw [hxx] at hb2
            simp at hb2
          · rfl
        obtain ⟨gs', zc', sibs, B, hcol, hcomp, hseg, hzc', hzr', hsortF, hpropsF⟩ :=
          leafSweep f hf hfb L hLb br k hk bm hbm hbrs cnt (h + 1) (zc + 1) gs (by omega)
            (by omega) hsort hprops1
            (fun g hg1 hg2 => by
              rcases Nat.lt_or_ge g h with hlt | hge
              · exact hzrun g (by omega) hlt
              · have hgh : g = h := by omega
                rw [hgh]
                exact hz_h)
        refine ⟨gs', zc', sibs, B, ?_, ?_, ?_, by omega, ?_, hsortF, ?_⟩
        · intro path
          rw [hrange, collectSiblings_step_zero br k bm h _ gs path hnp hgb]
          exact hcol path
        · intro pathTail bytes0
          rw [hrange, compileHeights_step_zero bm h _ gs (sibs ++ pathTail) bytes0 zc hnp
            hgb (by omega)]
          exact hcomp pathTail bytes0
        · intro lv
          rw [show h + (cnt + 1) - zc' = h + 1 + cnt - zc' by omega,
            show h - zc = h + 1 - (zc + 1) by omega]
          exact hseg lv
        · intro g hg1 hg2
          exact hzr' g (by omega) (by omega)
        · intro e he
          obtain ⟨a, b2, c⟩ := hpropsF e he
          exact ⟨by omega, b2, c⟩
      | true =>
        have hnz : (subNode f L h (sibPfx k h)).isZero = false := by
          have hb2 := hbm h (by omega)
          rw [hgb] at hb2
          cases hxx : (subNode f L h (sibPfx k h)).isZero
          · rfl
          · rw [hxx] at hb2
            simp at hb2
        have hgood : MVGood (subNode f L h (sibPfx k h)) :=
          subNode_good f hfb L hLb h _ (by omega)
        have hcc : ¬(((subNode f L h (copyBits (h + 1) k)).isZero
            && (subNode f L h (copyBits (h + 1) k + 2 ^ h)).isZero) = true) := by
          intro hcc0
          rw [Bool.and_eq_true] at hcc0
          cases hbk : k.testBit h
          · have hs2 : sibPfx k h = copyBits (h + 1) k + 2 ^ h := by
              unfold sibPfx
              rw [hbk]
              rfl
            rw [hs2] at hnz
            exact Bool.false_ne_true (hnz.symm.trans hcc0.2)
          · have hs2 : sibPfx k h = copyBits (h + 1) k := by
              unfold sibPfx
              rw [hbk]
              rfl
            rw [hs2] at hnz
            exact Bool.false_ne_true (hnz.symm.trans hcc0.1)
        have hcb : canonBranch f L h (copyBits (h + 1) k)
            = some ⟨subNode f L h (copyBits (h + 1) k),
                subNode f L h (copyBits (h + 1) k + 2 ^ h)⟩ := by
          unfold canonBranch
          dsimp only
          rw [if_neg hcc]
        have hbr_h : br h (parentPath h k)
            = some ⟨subNode f L h (copyBits (h + 1) k),
                subNode f L h (copyBits (h + 1) k + 2 ^ h)⟩ := by
          rw [hbrs h (by omega), hcb]
        have hsel : (if isRight k h then
              (⟨subNode f L h (copyBits (h + 1) k),
                subNode f L h (copyBits (h + 1) k + 2 ^ h)⟩ : BranchNode).left
            else (⟨subNode f L h (copyBits (h + 1) k),
                subNode f L h (copyBits (h + 1) k + 2 ^ h)⟩ : BranchNode).right)
            = subNode f L h (sibPfx k h) := by
          have hir : isRight k h = k.testBit h := rfl
          rw [hir]
          cases hbk : k.testBit h
          · rw [if_neg Bool.false_ne_true]
            have hs2 : sibPfx k h = copyBits (h + 1) k + 2 ^ h := by
              unfold sibPfx
              rw [hbk]
              rfl
            rw [hs2]
          · rw [if_pos rfl]
            have hs2 : sibPfx k h = copyBits (h + 1) k := by
              unfold sibPfx
              rw [hbk]
              rfl
            rw [hs2]
        obtain ⟨gs', zc', sibs, B, hcol, hcomp, hseg, hzc', hzr', hsortF, hpropsF⟩ :=
          leafSweep f hf hfb L hLb br k hk bm hbm hbrs cnt (h + 1) 0 gs (by omega)
            (by omega) hsort hprops1 (fun g hg1 hg2 => absurd hg2 (by omega))
        refine ⟨gs', zc', subNode f L h (sibPfx k h) :: sibs,
          flushZeros zc ++ (serializeMV (subNode f L h (sibPfx k h)) ++ B),
          ?_, ?_, ?_, by omega, ?_, hsortF, ?_⟩
        · intro path
          rw [hrange, collectSiblings_step_push br k bm h _ gs path hnp hgb _ hbr_h
            (subNode f L h (sibPfx k h)) hsel hnz]
          rw [hcol (path ++ [subNode f L h (sibPfx k h)])]
          rw [List.append_assoc]
          rfl
        · intro pathTail bytes0
          rw [hrange]
          rw [show (subNode f L h (sibPfx k h) :: sibs) ++ pathTail
            = subNode f L h (sibPfx k h) :: (sibs ++ pathTail) from rfl]
          rw [compileHeights_step_push bm h _ gs (subNode f L h (sibPfx k h))
            (sibs ++ pathTail) bytes0 zc hnp hgb]
          rw [hcomp pathTail (bytes0 ++ flushZeros zc
            ++ serializeMV (subNode f L h (sibPfx k h)))]
          simp only [List.append_assoc]
        · intro lv
          have hflush := segRun_flush f L k (h - zc) zc hk (by omega)
            (fun g hg1 hg2 => hzrun g (by omega) (by omega)) lv (vStackOf f L k gs)
          rw [show h - zc + zc = h by omega] at hflush
          have hSib := segRun_sib f L k h hk (by omega) (subNode f L h (sibPfx k h)) rfl
            hgood lv (vStackOf f L k gs)
          have hcomb := segRun_trans hflush (segRun_trans hSib (hseg lv))
          rw [show h + (cnt + 1) - zc' = h + 1 + cnt - zc' by omega]
          exact hcomb
        · intro g hg1 hg2
          exact hzr' g (by omega) (by omega)
        · intro e he
          obtain ⟨a, b2, c⟩ := hpropsF e he
          exact ⟨by omega, b2, c⟩

/-- One full leaf of the three loops: the `L` op, the height climb, and the
trailing zero-run flush. -/
theorem leafRun (f : HashFn) (hf : HashNonZero f) (hfb : HashBounded f) (L : Leaves)
    (hLb : ∀ x v, L x = some v → v < 2 ^ 256) (br : Branches) (k : Nat) (hk : k < 2 ^ 256)
    (bm : Nat)
    (hbm : ∀ g, g < 256 → getBit bm g = !(subNode f L g (sibPfx k g)).isZero)
    (hbrs : ∀ g, g < 256 → br g (parentPath g k) = canonBranch f L g (copyBits (g + 1) k))
    (cnt : Nat) (hcnt : cnt ≤ 256) (gs : List Nat) (hsort : gs.Pairwise (· < ·))
    (hprops : ∀ e ∈ gs, e < 256 ∧ k.testBit e = true) :
    ∃ (gs' : List Nat) (sibs : List MergeValue) (B0 : List Nat) (zc' : Nat),
      (∀ path, collectSiblings br k bm (List.range cnt) gs path = some (gs', path ++ sibs))
      ∧ (∀ (pathTail : List MergeValue) (bytes0 : List Nat),
          compileHeights bm (List.range cnt) gs (sibs ++ pathTail) (bytes0 ++ [0x4C]) 0
            = .ok (gs', pathTail, (bytes0 ++ [0x4C]) ++ B0, zc'))
      ∧ (∀ lv, SegRun f ([0x4C] ++ (B0 ++ flushZeros zc')) ((k, (L k).getD 0) :: lv) lv
          (vStackOf f L k gs) (vEntry f L k cnt :: vStackOf f L k gs'))
      ∧ gs'.Pairwise (· < ·)
      ∧ (∀ e ∈ gs', cnt ≤ e ∧ e < 256 ∧ k.testBit e = true) := by
  obtain ⟨gs', zc', sibs, B, hcol, hcomp, hseg, hzc', hzr', hsortF, hpropsF⟩ :=
    leafSweep f hf hfb L hLb br k hk bm hbm hbrs cnt 0 0 gs (by omega) (by omega) hsort
      (fun e he => ⟨Nat.zero_le _, (hprops e he).1, (hprops e he).2⟩)
      (fun g hg1 hg2 => absurd hg2 (by omega))
  refine ⟨gs', sibs, B, zc', ?_, ?_, ?_, hsortF, ?_⟩
  · intro path
    rw [List.range_eq_range']
    exact hcol path
  · intro pathTail bytes0
    rw [List.range_eq_range']
    exact hcomp pathTail (bytes0 ++ [0x4C])
  · intro lv
    have hent0 : (0, k, MergeValue.Value ((L k).getD 0)) = vEntry f L k 0 := by
      unfold vEntry
      rw [copyBits_zero]
      rfl
    have hL := segRun_leaf f k ((L k).getD 0) lv (vStackOf f L k gs)
    rw [hent0] at hL
    have hflush := segRun_flush f L k (cnt - zc') zc' hk (by omega)
      (fun g hg1 hg2 => hzr' g (by omega) (by omega)) lv (vStackOf f L k gs')
    rw [show cnt - zc' + zc' = cnt by omega] at hflush
    have hseg2 := hseg lv
    rw [show (0 : Nat) + cnt - zc' = cnt - zc' by omega] at hseg2
    have hcomb := segRun_trans hL (segRun_trans hseg2 hflush)
    exact hcomb
  · intro e he
    obtain ⟨a, b2, c⟩ := hpropsF e he
    exact ⟨by omega, b2, c⟩

/-- The outer leaf loop of the three programs, over the sorted keys: the
final fork-height stack is exactly `[255]`, the compiler consumes exactly the
generated path, and the verifier ends with the full-tree entry. -/
theorem outerSweep (f : HashFn) (hf : HashNonZero f) (hfb : HashBounded f) (L : Leaves)
    (hLb : ∀ x v, L x = some v → v < 2 ^ 256) (br : Branches)
    (hbr : ∀ g pk, g < 256 → pk % 2 ^ (g + 1) = 0 → pk < 2 ^ 256 →
      br g pk = canonBranch f L g pk) :
    ∀ (krest : List Nat) (k : Nat) (gs : List Nat),
      (∀ x ∈ k :: krest, x < 2 ^ 256) → (k :: krest).Pairwise (· < ·) →
      gs.Pairwise (· < ·) → (∀ e ∈ gs, e < 256 ∧ k.testBit e = true) →
      ∃ (sibs : List MergeValue) (B : List Nat),
        (∀ path, merkleProofLoop br (k :: krest) ((k :: krest).map (leafBitmap br)) gs path
          = some ([255], path ++ sibs))
        ∧ (∀ (pathTail : List MergeValue) (bytes0 : List Nat),
            compileLoop (k :: krest) ((k :: krest).map (leafBitmap br)) gs
              (sibs ++ pathTail) bytes0 = .ok ([255], pathTail, bytes0 ++ B))
        ∧ SegRun f B ((k :: krest).map (fun x => (x, (L x).getD 0))) []
            (vStackOf f L k gs) [(256, 0, subNode f L 256 0)]
  | [], k, gs, hb, hsorted, hgs, hgsp => by
    have hk : k < 2 ^ 256 := hb k (List.mem_cons_self _ _)
    have hbmk : ∀ g, g < 256 →
        getBit (leafBitmap br k) g = !(subNode f L g (sibPfx k g)).isZero :=
      fun g hg => leafBitmap_spec f hbr hk hg
    have hbrsk : ∀ g, g < 256 →
        br g (parentPath g k) = canonBranch f L g (copyBits (g + 1) k) := by
      intro g hg
      rw [parentPath_eq (by omega) hk]
      exact hbr g (copyBits (g + 1) k) hg (copyBits_mod _ _) (copyBits_lt_two_pow _ hk)
    obtain ⟨gs', sibs, B0, zc', hcol, hcomp, hseg, hsortF, hpropsF⟩ :=
      leafRun f hf hfb L hLb br k hk (leafBitmap br k) hbmk hbrsk 256 (by omega) gs hgs hgsp
    have hnil : gs' = [] := by
      cases hgs' : gs' with
      | nil => rfl
      | cons a t =>
        obtain ⟨p1, p2, _⟩ := hpropsF a (by rw [hgs']; exact List.mem_cons_self _ _)
        omega
    subst hnil
    refine ⟨sibs, [0x4C] ++ (B0 ++ flushZeros zc'), ?_, ?_, ?_⟩
    · intro path
      conv_lhs => unfold merkleProofLoop
      simp only [List.map_cons]
      rw [hcol path]
      rfl
    · intro pathTail bytes0
      conv_lhs => unfold compileLoop
      simp only [List.map_cons]
      rw [hcomp pathTail bytes0]
      simp only [List.append_assoc]
      rfl
    · have hseg2 := hseg []
      have hfin : vEntry f L k 256 = (256, 0, subNode f L 256 0) := by
        unfold vEntry
        rw [copyBits_256_eq_zero hk]
      rw [hfin] at hseg2
      exact hseg2
  | k2 :: krest2, k, gs, hb, hsorted, hgs, hgsp => by
    have hk : k < 2 ^ 256 := hb k (List.mem_cons_self _ _)
    have hk2 : k2 < 2 ^ 256 := hb k2 (List.mem_cons_of_mem _ (List.mem_cons_self _ _))
    have hklt : k < k2 := List.rel_of_pairwise_cons hsorted (List.mem_cons_self _ _)
    obtain ⟨hfle, hbitk, hbitk2, hcp⟩ := forkHeight_spec hklt hk2
    have hbmk : ∀ g, g < 256 →
        getBit (leafBitmap br k) g = !(subNode f L g (sibPfx k g)).isZero :=
      fun g hg => leafBitmap_spec f hbr hk hg
    have hbrsk : ∀ g, g < 256 →
        br g (parentPath g k) = canonBranch f L g (copyBits (g + 1) k) := by
      intro g hg
      rw [parentPath_eq (by omega) hk]
      exact hbr g (copyBits (g + 1) k) hg (copyBits_mod _ _) (copyBits_lt_two_pow _ hk)
    obtain ⟨gs', sibs1, B0, zc', hcol, hcomp, hseg, hsortF, hpropsF⟩ :=
      leafRun f hf hfb L hLb br k hk (leafBitmap br k) hbmk hbrsk (forkHeight k k2)
        (by omega) gs hgs hgsp
    have hgt : ∀ e ∈ gs', forkHeight k k2 < e := by
      intro e he
      obtain ⟨p1, p2, p3⟩ := hpropsF e he
      rcases Nat.lt_or_ge (forkHeight k k2) e with h | h
      · exact h
      · have : e = forkHeight k k2 := by omega
        rw [this] at p3
        rw [p3] at hbitk
        exact absurd hbitk (fun hcon => Bool.false_ne_true hcon.symm)
    have hsort2 : (forkHeight k k2 :: gs').Pairwise (· < ·) :=
      List.pairwise_cons.mpr ⟨hgt, hsortF⟩
    have hprops2 : ∀ e ∈ forkHeight k k2 :: gs', e < 256 ∧ k2.testBit e = true := by
      intro e he
      rcases List.mem_cons.mp he with rfl | he2
      · exact ⟨by omega, hbitk2⟩
      · obtain ⟨p1, p2, p3⟩ := hpropsF e he2
        have hge : forkHeight k k2 + 1 ≤ e := hgt e he2
        refine ⟨p2, ?_⟩
        rw [← testBit_eq_of_copyBits_eq hcp (by omega)]
        exact p3
    have hkey : copyBits (forkHeight k k2) k = copyBits (forkHeight k k2 + 1) k2 := by
      rw [copyBits_succ (forkHeight k k2) k, hbitk, if_neg Bool.false_ne_true,
        Nat.add_zero, hcp]
    have hstack : vEntry f L k (forkHeight k k2) :: vStackOf f L k gs'
        = vStackOf f L k2 (forkHeight k k2 :: gs') := by
      rw [vStackOf_cons]
      congr 1
      · unfold vEntry
        rw [hkey]
      · unfold vStackOf
        apply List.map_congr_left
        intro e he
        have hge : forkHeight k k2 + 1 ≤ e := hgt e he
        rw [copyBits_eq_of_copyBits_eq hcp (show forkHeight k k2 + 1 ≤ e + 1 by omega)]
    obtain ⟨sibs2, B2, hcol2, hcomp2, hseg2⟩ :=
      outerSweep f hf hfb L hLb br hbr krest2 k2 (forkHeight k k2 :: gs')
        (fun x hx => hb x (List.mem_cons_of_mem _ hx)) hsorted.of_cons hsort2 hprops2
    refine ⟨sibs1 ++ sibs2, ([0x4C] ++ (B0 ++ flushZeros zc')) ++ B2, ?_, ?_, ?_⟩
    · intro path
      conv_lhs => unfold merkleProofLoop
      simp only [List.map_cons]
      rw [hcol path]
      dsimp only
      have hcol2x := hcol2 (path ++ sibs1)
      simp only [List.map_cons] at hcol2x
      rw [hcol2x]
      rw [List.append_assoc]
    · intro pathTail bytes0
      conv_lhs => unfold compileLoop
      simp only [List.map_cons]
      rw [show (sibs1 ++ sibs2) ++ pathTail = sibs1 ++ (sibs2 ++ pathTail) from
        List.append_assoc _ _ _]
      rw [hcomp (sibs2 ++ pathTail) bytes0]
      dsimp only
      have hcomp2x := hcomp2 pathTail ((bytes0 ++ [0x4C]) ++ B0 ++ flushZeros zc')
      simp only [List.map_cons] at hcomp2x
      rw [hcomp2x]
      simp only [List.append_assoc]
    · have hsegL := hseg ((k2 :: krest2).map (fun x => (x, (L x).getD 0)))
      rw [hstack] at hsegL
      exact segRun_trans hsegL hseg2

set_option maxRecDepth 4000 in
/-- Claim C1: for every canonical (API-reachable) tree state, a hash with
nonzero 32-byte digests, bounded leaf values, and every non-empty sorted set
of distinct 256-bit keys, generating a proof, compiling it, and verifying the
compiled proof against the tree's `get` values returns `Ok(true)`. -/
theorem proof_roundtrip (f : HashFn) (hf : HashNonZero f) (hfb : HashBounded f)
    (s : TreeState) (L : Leaves) (hc : Canon f s L)
    (hLb : ∀ x v, L x = some v → v < 2 ^ 256)
    (keys : List Nat) (hne : keys ≠ []) (hsorted : keys.Pairwise (· < ·))
    (hbk : ∀ x ∈ keys, x < 2 ^ 256) :
    ∃ (bitmaps : List Nat) (path : List MergeValue) (prog : List Nat),
      merkleProof s keys = ProofGen.ok bitmaps path
      ∧ compile bitmaps path keys = .ok prog
      ∧ verifyProof f s.root prog (keys.map (fun k => (k, getValue s k))) = .ok true := by
  rcases keys with _ | ⟨k, krest⟩
  · exact absurd rfl hne
  have hbr : ∀ g pk, g < 256 → pk % 2 ^ (g + 1) = 0 → pk < 2 ^ 256 →
      s.branches g pk = canonBranch f L g pk := hc.2.1
  obtain ⟨sibs, B, hcol, hcomp, hseg⟩ :=
    outerSweep f hf hfb L hLb s.branches hbr krest k [] hbk hsorted List.Pairwise.nil
      (fun e he => absurd he (List.not_mem_nil _))
  have hsk : sortKeys (k :: krest) = k :: krest := sortKeys_sorted hsorted
  refine ⟨(k :: krest).map (leafBitmap s.branches), sibs, B, ?_, ?_, ?_⟩
  · unfold merkleProof
    dsimp only
    rw [hsk]
    rw [hcol []]
    rfl
  · unfold compile
    dsimp only
    rw [if_neg (show ¬((k :: krest).length ≠ ((k :: krest).map (leafBitmap s.branches)).length)
      from fun hcc => hcc (by rw [List.length_map]))]
    rw [hsk]
    have hcomp2 := hcomp [] []
    rw [List.append_nil, List.nil_append] at hcomp2
    rw [hcomp2]
    rfl
  · have hlv : (k :: krest).map (fun x => (x, getValue s x))
        = (k :: krest).map (fun x => (x, (L x).getD 0)) := by
      apply List.map_congr_left
      intro x hx
      rw [getValue_canon f hf hc (hbk x hx)]
    have hsort2 : sortLeaves ((k :: krest).map (fun x => (x, (L x).getD 0)))
        = (k :: krest).map (fun x => (x, (L x).getD 0)) := sortLeaves_map_sorted hsorted _
    obtain ⟨fuel', hlef, hrun⟩ :=
      hseg [] B.length (by simp)
    rw [List.append_nil] at hrun
    have hv0 : vStackOf f L k [] = [] := rfl
    rw [hv0] at hrun
    have hrun2 : runProof f B ((k :: krest).map (fun x => (x, (L x).getD 0))) []
        = .ok ([(256, 0, subNode f L 256 0)], []) := by
      unfold runProof
      rw [hrun, runProofAux_nil]
    have hcr : computeRoot f B ((k :: krest).map (fun x => (x, (L x).getD 0)))
        = .ok ((subNode f L 256 0).hash f) := by
      unfold computeRoot
      rw [hsort2, hrun2]
      rfl
    have hroot : (subNode f L 256 0).hash f = s.root := hc.2.2.2.symm
    unfold verifyProof
    rw [hlv, hcr]
    dsimp only
    rw [hroot, beq_self_eq_true]

/-- Claim C1 witness: the singleton key set `{1}` on the tree holding
`1 ↦ 5`. -/
theorem proof_roundtrip_witness :
    ∃ (bitmaps : List Nat) (path : List MergeValue) (prog : List Nat),
      merkleProof (update exampleHash emptyTree 1 5) [1] = ProofGen.ok bitmaps path
      ∧ compile bitmaps path [1] = .ok prog
      ∧ verifyProof exampleHash (update exampleHash emptyTree 1 5).root prog
          ([1].map (fun k => (k, getValue (update exampleHash emptyTree 1 5) k)))
        = .ok true :=
  proof_roundtrip exampleHash exampleHash_nonzero (fun _ => by unfold exampleHash; norm_num)
    (update exampleHash emptyTree 1 5) (applyLeaf (fun _ => none) 1 5)
    (update_canonical exampleHash exampleHash_nonzero emptyTree (fun _ => none)
      (canon_empty exampleHash) 1 5 (by norm_num))
    (fun x v h => by
      have h5 : applyLeaf (fun _ => none) 1 5 = insertLeaf (fun _ => none) 1 5 := by
        unfold applyLeaf
        rw [if_neg (by norm_num)]
      rw [h5] at h
      unfold insertLeaf at h
      by_cases hx : x = 1
      · rw [if_pos hx] at h
        injection h with h2
        omega
      · rw [if_neg hx] at h
        exact absurd h (by simp))
    [1] (by simp) (by simp) (by intro x hx; simp at hx; omega)

end SMT
